import Mathlib

set_option maxRecDepth 100000

namespace Search

/-! The search pipeline: cache, worker pool, rate limiter, shutdown.

`cache/cache.go` is embedded as functions over the contents of the Redis store, each call
taking a flag that says whether the call fails. `main.go` lines 116-197 and
`handleGracefulShutdown` are embedded as a step system: the state holds the two channels, the
store, the position of every goroutine, the clock and the limiter; an action is one step of one
goroutine or of the environment, and a run is any list of actions. Library functions the code
calls (`strconv.Atoi`, `json.Marshal`, `json.Unmarshal` for `[]string`, `time.Tick`) are
written out on bytes and nanoseconds.

Definitions come first, then the invariants of runs, then the properties.
-/

/-! ## Strings, cache keys, integers -/

/-- A Go `string`: a sequence of bytes (values below 256), not necessarily valid UTF-8. -/
abbrev GoString := List Nat

/-- `utf8.EncodeRune`: the UTF-8 bytes of a rune; surrogates and values past U+10FFFF are
written as U+FFFD. -/
def encodeRune (r : Nat) : List Nat :=
  if r < 128 then [r]
  else if r < 2048 then [192 + r / 64, 128 + r % 64]
  else if 1114111 < r ∨ (55296 ≤ r ∧ r ≤ 57343) then [239, 191, 189]
  else if r < 65536 then [224 + r / 4096, 128 + r / 64 % 64, 128 + r % 64]
  else [240 + r / 262144, 128 + r / 4096 % 64, 128 + r / 64 % 64, 128 + r % 64]

/-- The bytes (UTF-8) of a text literal. -/
def str (s : String) : GoString := s.data.flatMap (fun c => encodeRune c.toNat)

/-- `SearchTask` (main.go 27-30): a search operation with repo and keyword. -/
structure SearchTask where
  Repo : GoString
  Keyword : GoString
deriving DecidableEq

/-- `Result` (main.go 33-37): the search result. -/
structure Result where
  Repo : GoString
  Keyword : GoString
  Count : Int
deriving DecidableEq

/-- `rateLimit` (main.go 40): requests per minute. -/
def rateLimit : Nat := 10

/-- `cacheKey := fmt.Sprintf("%s:%s", task.Repo, task.Keyword)` (main.go 129); 58 is ':'. -/
def cacheKey (task : SearchTask) : GoString := task.Repo ++ 58 :: task.Keyword

/-- The value of a run of decimal digits, continuing from `acc`; `none` at a byte that is not a
digit. -/
def parseDigits : List Nat → Nat → Option Nat
  | [], acc => some acc
  | c :: cs, acc => if 48 ≤ c ∧ c ≤ 57 then parseDigits cs (acc * 10 + (c - 48)) else none

/-- `strconv.Atoi` on a 64-bit platform: an optional sign, then one or more decimal digits, the
value within the range of `int`; `none` is the error result. -/
def Atoi (s : GoString) : Option Int :=
  match s with
  | [] => none
  | c :: rest =>
    let body := if c = 43 ∨ c = 45 then rest else s
    if body = [] then none
    else
      match parseDigits body 0 with
      | none => none
      | some un =>
        if c = 45 then (if un ≤ 2 ^ 63 then some (-(un : Int)) else none)
        else (if un < 2 ^ 63 then some (un : Int) else none)

/-- The decimal digits of `n`, most significant first, in front of `acc`; `fuel` bounds the
number of digits and `n + 1` is always enough. -/
def natDigits : Nat → Nat → List Nat → List Nat
  | 0, _, acc => acc
  | fuel + 1, n, acc =>
    if n < 10 then (48 + n) :: acc else natDigits fuel (n / 10) ((48 + n % 10) :: acc)

/-- `strconv.AppendInt(_, i, 10)`: how go-redis writes an `int` argument of `Set`. -/
def formatInt (i : Int) : GoString :=
  if i < 0 then 45 :: natDigits (i.natAbs + 1) i.natAbs [] else natDigits (i.natAbs + 1) i.natAbs []

/-- The values of Go's `int` (64 bits). -/
def inIntRange (n : Int) : Bool := decide (-(2 : Int) ^ 63 ≤ n) && decide (n < (2 : Int) ^ 63)

/-! ## The cache store -/

/-- The contents of the Redis server: the string stored under each key, if any. -/
abbrev Store := GoString → Option GoString

/-- The outcome of `Client.Get(ctx, key).Result()`: `redis.Nil`, another error, or the value. -/
inductive Reply where
  | nil
  | err
  | val (v : GoString)

/-- `Client.Get`; `fault` says that this call fails with a transport error. -/
def clientGet (c : Store) (fault : Bool) (key : GoString) : Reply :=
  if fault then .err
  else match c key with
    | none => .nil
    | some v => .val v

/-- `Client.Set(ctx, key, v, 0)` (no expiry); `fault` says that the store rejects this write. -/
def clientSet (c : Store) (fault : Bool) (key : GoString) (v : GoString) : Store :=
  if fault then c else fun k => if k = key then some v else c k

namespace Cache

/-- `Cache.Get` (cache.go 36-50). -/
def Get (c : Store) (fault : Bool) (key : GoString) : Int × Bool :=
  match clientGet c fault key with
  | .nil => (0, false)
  | .err => (0, false)
  | .val v =>
    match Atoi v with
    | none => (0, false)
    | some count => (count, true)

/-- `Cache.Set` (cache.go 53-58): a failure is logged and otherwise ignored. -/
def Set (c : Store) (fault : Bool) (key : GoString) (value : Int) : Store :=
  clientSet c fault key (formatInt value)

end Cache

/-! ## JSON for string lists -/

/-- `utf8.DecodeRuneInString`: the first rune of a byte string and its width; an invalid or
short encoding gives `(U+FFFD, 1)`. -/
def decodeRune : List Nat → Nat × Nat
  | [] => (65533, 0)
  | b0 :: rest =>
    if b0 < 128 then (b0, 1)
    else if b0 < 194 then (65533, 1)
    else if b0 < 224 then
      match rest with
      | b1 :: _ =>
        if 128 ≤ b1 ∧ b1 ≤ 191 then (b0 % 32 * 64 + b1 % 64, 2) else (65533, 1)
      | _ => (65533, 1)
    else if b0 < 240 then
      match rest with
      | b1 :: b2 :: _ =>
        if (if b0 = 224 then 160 else 128) ≤ b1 ∧ b1 ≤ (if b0 = 237 then 159 else 191) ∧
            128 ≤ b2 ∧ b2 ≤ 191 then
          (b0 % 16 * 4096 + b1 % 64 * 64 + b2 % 64, 3)
        else (65533, 1)
      | _ => (65533, 1)
    else if b0 < 245 then
      match rest with
      | b1 :: b2 :: b3 :: _ =>
        if (if b0 = 240 then 144 else 128) ≤ b1 ∧ b1 ≤ (if b0 = 244 then 143 else 191) ∧
            128 ≤ b2 ∧ b2 ≤ 191 ∧ 128 ≤ b3 ∧ b3 ≤ 191 then
          (b0 % 8 * 262144 + b1 % 64 * 4096 + b2 % 64 * 64 + b3 % 64, 4)
        else (65533, 1)
      | _ => (65533, 1)
    else (65533, 1)

/-- The `n`-th character of "0123456789abcdef". -/
def hexDigit (n : Nat) : Nat := if n < 10 then 48 + n else 87 + n

/-- What `json.Marshal` writes for one ASCII byte inside a string. -/
def escapeByte (b : Nat) : List Nat :=
  if b = 92 ∨ b = 34 then [92, b]
  else if b = 8 then [92, 98]
  else if b = 12 then [92, 102]
  else if b = 10 then [92, 110]
  else if b = 13 then [92, 114]
  else if b = 9 then [92, 116]
  else if b < 32 ∨ b = 60 ∨ b = 62 ∨ b = 38 then [92, 117, 48, 48, hexDigit (b / 16), hexDigit (b % 16)]
  else [b]

/-- The body of a JSON string as `json.Marshal` writes it (`skip` bytes already written as
part of the previous rune). -/
def quoteBody : List Nat → Nat → List Nat
  | [], _ => []
  | _ :: rest, skip + 1 => quoteBody rest skip
  | b :: rest, 0 =>
    if b < 128 then escapeByte b ++ quoteBody rest 0
    else
      let (c, size) := decodeRune (b :: rest)
      if c = 65533 ∧ size = 1 then [92, 117, 102, 102, 102, 100] ++ quoteBody rest 0
      else if c = 8232 ∨ c = 8233 then
        [92, 117, 50, 48, 50, hexDigit (c % 16)] ++ quoteBody rest (size - 1)
      else (b :: rest).take size ++ quoteBody rest (size - 1)

/-- A Go string as a JSON string literal. -/
def quote (s : GoString) : List Nat := 34 :: quoteBody s 0 ++ [34]

/-- The elements of a JSON array, a comma before each one but the first. -/
def encodeElems : Bool → List GoString → List Nat
  | _, [] => []
  | first, x :: rest => (if first then [] else [44]) ++ quote x ++ encodeElems false rest

/-- `json.Marshal` of a `[]string` (`none` is the nil slice). -/
def Marshal : Option (List GoString) → List Nat
  | none => [110, 117, 108, 108]
  | some xs => 91 :: encodeElems true xs ++ [93]

/-- The value of a hexadecimal digit, upper or lower case. -/
def hexVal (c : Nat) : Option Nat :=
  if 48 ≤ c ∧ c ≤ 57 then some (c - 48)
  else if 97 ≤ c ∧ c ≤ 102 then some (c - 87)
  else if 65 ≤ c ∧ c ≤ 70 then some (c - 55)
  else none

/-- The value of the four hexadecimal digits of a `\u` escape. -/
def getu4 : List Nat → Option Nat
  | a :: b :: c :: d :: _ =>
    match hexVal a, hexVal b, hexVal c, hexVal d with
    | some x, some y, some z, some w => some (x * 4096 + y * 256 + z * 16 + w)
    | _, _, _, _ => none
  | _ => none

/-- When a second `\u` escape follows and the two form a UTF-16 surrogate pair, the rune
they stand for (`utf16.DecodeRune`). -/
def pairedSurrogate (rr : Nat) : List Nat → Option Nat
  | 92 :: 117 :: rest =>
    match getu4 rest with
    | some rr1 =>
      if 55296 ≤ rr ∧ rr < 56320 ∧ 56320 ≤ rr1 ∧ rr1 < 57344 then
        some ((rr - 55296) * 1024 + (rr1 - 56320) + 65536)
      else none
    | none => none
  | _ => none

/-- JSON white space: space, tab, carriage return, line feed. -/
def isSpace (c : Nat) : Bool := c = 32 || c = 9 || c = 13 || c = 10

/-- Where the JSON reader stands: before the top-level value, just inside the array, before an
element, inside a string (with the bytes decoded so far), after an element, after the value. -/
inductive DState where
  | top
  | arrStart
  | beforeElem (elems : List GoString)
  | inString (elems : List GoString) (acc : GoString)
  | afterElem (elems : List GoString)
  | done (result : Option (List GoString))

/-- Reading a JSON text into a `[]string`, one byte at a time (`skip` bytes already consumed
by look-ahead). -/
def decodeLoop : List Nat → Nat → DState → Option (Option (List GoString))
  | [], _, .done result => some result
  | [], _, _ => none
  | _ :: rest, skip + 1, st => decodeLoop rest skip st
  | c :: rest, 0, .top =>
    if isSpace c then decodeLoop rest 0 .top
    else if c = 91 then decodeLoop rest 0 .arrStart
    else if c = 110 then
      match rest with
      | 117 :: 108 :: 108 :: _ => decodeLoop rest 3 (.done none)
      | _ => none
    else none
  | c :: rest, 0, .done result =>
    if isSpace c then decodeLoop rest 0 (.done result) else none
  | c :: rest, 0, .arrStart =>
    if isSpace c then decodeLoop rest 0 .arrStart
    else if c = 93 then decodeLoop rest 0 (.done (some []))
    else if c = 34 then decodeLoop rest 0 (.inString [] [])
    else if c = 110 then
      match rest with
      | 117 :: 108 :: 108 :: _ => decodeLoop rest 3 (.afterElem [[]])
      | _ => none
    else none
  | c :: rest, 0, .beforeElem elems =>
    if isSpace c then decodeLoop rest 0 (.beforeElem elems)
    else if c = 34 then decodeLoop rest 0 (.inString elems [])
    else if c = 110 then
      match rest with
      | 117 :: 108 :: 108 :: _ => decodeLoop rest 3 (.afterElem (elems ++ [[]]))
      | _ => none
    else none
  | c :: rest, 0, .afterElem elems =>
    if isSpace c then decodeLoop rest 0 (.afterElem elems)
    else if c = 44 then decodeLoop rest 0 (.beforeElem elems)
    else if c = 93 then decodeLoop rest 0 (.done (some elems))
    else none
  | c :: rest, 0, .inString elems acc =>
    if c = 34 then decodeLoop rest 0 (.afterElem (elems ++ [acc]))
    else if c = 92 then
      match rest with
      | [] => none
      | e :: rest' =>
        if e = 34 ∨ e = 92 ∨ e = 47 then decodeLoop rest 1 (.inString elems (acc ++ [e]))
        else if e = 98 then decodeLoop rest 1 (.inString elems (acc ++ [8]))
        else if e = 102 then decodeLoop rest 1 (.inString elems (acc ++ [12]))
        else if e = 110 then decodeLoop rest 1 (.inString elems (acc ++ [10]))
        else if e = 114 then decodeLoop rest 1 (.inString elems (acc ++ [13]))
        else if e = 116 then decodeLoop rest 1 (.inString elems (acc ++ [9]))
        else if e = 117 then
          match getu4 rest' with
          | none => none
          | some rr =>
            if 55296 ≤ rr ∧ rr < 57344 then
              match pairedSurrogate rr (rest'.drop 4) with
              | some dec => decodeLoop rest 11 (.inString elems (acc ++ encodeRune dec))
              | none => decodeLoop rest 5 (.inString elems (acc ++ encodeRune 65533))
            else decodeLoop rest 5 (.inString elems (acc ++ encodeRune rr))
        else none
    else if c < 32 then none
    else if c < 128 then decodeLoop rest 0 (.inString elems (acc ++ [c]))
    else decodeLoop rest ((decodeRune (c :: rest)).2 - 1)
      (.inString elems (acc ++ encodeRune (decodeRune (c :: rest)).1))

/-- `json.Unmarshal` into a `*[]string`: `none` is an error, `some none` the nil slice. -/
def Unmarshal (data : List Nat) : Option (Option (List GoString)) := decodeLoop data 0 .top

namespace Cache

/-- `Cache.SetRepoNames` (cache.go 91-101); marshalling a `[]string` never fails. -/
def SetRepoNames (c : Store) (fault : Bool) (repos : Option (List GoString)) : Store :=
  clientSet c fault (str "repo_names") (Marshal repos)

/-- `Cache.GetRepoNames` (cache.go 104-119). -/
def GetRepoNames (c : Store) (fault : Bool) : Option (List GoString) × Bool :=
  match clientGet c fault (str "repo_names") with
  | .nil => (none, false)
  | .err => (none, false)
  | .val data =>
    match Unmarshal data with
    | none => (none, false)
    | some repos => (repos, true)

/-- `Cache.SetKeywords` (cache.go 122-132). -/
def SetKeywords (c : Store) (fault : Bool) (keywords : Option (List GoString)) : Store :=
  clientSet c fault (str "keywords") (Marshal keywords)

/-- `Cache.GetKeywords` (cache.go 135-150). -/
def GetKeywords (c : Store) (fault : Bool) : Option (List GoString) × Bool :=
  match clientGet c fault (str "keywords") with
  | .nil => (none, false)
  | .err => (none, false)
  | .val data =>
    match Unmarshal data with
    | none => (none, false)
    | some keywords => (keywords, true)

end Cache

/-- A Unicode scalar value: a code point that is not a surrogate. -/
def IsScalar (r : Nat) : Prop := r < 55296 ∨ (57344 ≤ r ∧ r < 1114112)

/-- Valid UTF-8: the bytes are the encodings of a sequence of Unicode scalar values. -/
def ValidUTF8 (s : GoString) : Prop :=
  ∃ runes : List Nat, (∀ r ∈ runes, IsScalar r) ∧ s = runes.flatMap encodeRune

/-- What a JSON string literal holds for one scalar value. -/
def quoteRune (r : Nat) : List Nat :=
  if r < 128 then escapeByte r
  else if r = 8232 ∨ r = 8233 then [92, 117, 50, 48, 50, hexDigit (r % 16)]
  else encodeRune r

/-! ## The pipeline as a step system -/

/-- A buffered Go channel: the queued values (oldest first), `make`'s capacity, and whether it
has been closed. -/
structure Chan (α : Type) where
  buf : List α
  cap : Nat
  closed : Bool

/-- Where a worker stands in its loop (main.go 126-172): at `range tasks` (128); holding a task
before `c.Get` (132); at the send of a cached count (133); at `<-limiter` (142); in
`client.Search.Code` (154); before `c.Set` (163); at the send of a fresh count (166); returned. -/
inductive WorkerPC where
  | ranging
  | checking (task : SearchTask)
  | sendHit (task : SearchTask) (count : Int)
  | waitToken (task : SearchTask)
  | searching (task : SearchTask)
  | caching (task : SearchTask) (count : Int)
  | sendNew (task : SearchTask) (count : Int)
  | exited
deriving DecidableEq

/-- Where `handleGracefulShutdown` stands (main.go 239-253): at `<-sig`, at `wg.Wait()`, before
`close(*results)`, returned. -/
inductive CoordPC where
  | awaitSignal
  | waitWorkers
  | closing
  | done
deriving DecidableEq

/-- What a run records, for stating properties of runs: which worker did what to which task. -/
inductive Event where
  | enqueued (task : SearchTask)
  | pulled (w : Nat) (task : SearchTask)
  | cacheGet (w : Nat) (task : SearchTask) (count : Int) (found : Bool)
  | token (w : Nat) (task : SearchTask) (time : Nat)
  | remoteCall (w : Nat) (task : SearchTask) (resp : Option Int) (time : Nat)
  | cacheSet (w : Nat) (task : SearchTask) (count : Int) (accepted : Bool)
  | published (w : Nat) (r : Result) (fresh : Bool)
  | workerExit (w : Nat)
  | signal
  | resultsClosed
deriving DecidableEq

/-- One step of one goroutine or of the environment. The environment chooses whether a cache
call fails (`fault`), what the remote search answers (`resp`, `none` an error), when time
passes and when the signal arrives. -/
inductive Action where
  | produce
  | closeTasks
  | pull (w : Nat)
  | exit (w : Nat)
  | get (w : Nat) (fault : Bool)
  | send (w : Nat)
  | token (w : Nat)
  | search (w : Nat) (resp : Option Int)
  | set (w : Nat) (fault : Bool)
  | advance (d : Nat)
  | tick
  | signal
  | wgWait
  | closeResults
  | collect
  | finish
deriving DecidableEq

/-- The state of the pipeline (main.go 116-197): the two channels, the Redis contents, each
worker's position, the WaitGroup counter, the tasks the producer has still to send, the
coordinator's position, the clock and the limiter (next tick time, whether a tick is buffered),
the Results printed by `main`, whether `main` returned, whether a goroutine panicked, and the
record of the run, newest event first. -/
structure State where
  tasks : Chan SearchTask
  results : Chan Result
  store : Store
  workers : Nat → WorkerPC
  wg : Nat
  pending : List SearchTask
  coordinator : CoordPC
  now : Nat
  nextTick : Nat
  limiter : Bool
  printed : List Result
  mainDone : Bool
  panicked : Bool
  log : List Event

/-- Worker `w` moves to position `pc`. -/
def setPC (f : Nat → WorkerPC) (w : Nat) (pc : WorkerPC) : Nat → WorkerPC :=
  fun i => if i = w then pc else f i

/-- `time.Minute / time.Duration(rateLimit)` (main.go 123), in nanoseconds. -/
def tickPeriod : Nat := 60000000000 / rateLimit

/-- `numWorkers := rateLimit` (main.go 175). -/
def numWorkers : Nat := rateLimit

/-- The sends of the producer's nested loops (main.go 183-187), in order. -/
def enqueueOrder (allRepos keywords : List GoString) : List SearchTask :=
  allRepos.foldl
    (fun sent repo => keywords.foldl (fun sent keyword => sent ++ [⟨repo, keyword⟩]) sent) []

/-- The pipeline after main.go 116-192: channels made, `wg.Add(numWorkers)`, the ticker created,
all goroutines started and none has moved yet. -/
def init (allRepos keywords : List GoString) (c : Store) : State where
  tasks := ⟨[], allRepos.length * keywords.length, false⟩
  results := ⟨[], allRepos.length * keywords.length, false⟩
  store := c
  workers := fun w => if w < numWorkers then .ranging else .exited
  wg := numWorkers
  pending := enqueueOrder allRepos keywords
  coordinator := .awaitSignal
  now := 0
  nextTick := tickPeriod
  limiter := false
  printed := []
  mainDone := false
  panicked := false
  log := []

/-- `results <- r` by worker `w`: a send on a closed channel panics, a send on a full channel
blocks. -/
def sendResult (s : State) (w : Nat) (r : Result) (fresh : Bool) : Option State :=
  if s.results.closed then some { s with panicked := true }
  else if s.results.buf.length < s.results.cap then
    some { s with
      results := { s.results with buf := s.results.buf ++ [r] }
      workers := setPC s.workers w .ranging
      log := .published w r fresh :: s.log }
  else none

/-- One step; `none` when the step is not possible now (the goroutine is elsewhere or blocked,
or the process has ended). -/
def step? (s : State) (a : Action) : Option State :=
  if s.mainDone || s.panicked then none
  else
    match a with
    | .produce =>
      match s.pending with
      | [] => none
      | task :: rest =>
        if s.tasks.closed then some { s with panicked := true }
        else if s.tasks.buf.length < s.tasks.cap then
          some { s with
            tasks := { s.tasks with buf := s.tasks.buf ++ [task] }
            pending := rest
            log := .enqueued task :: s.log }
        else none
    | .closeTasks =>
      if s.pending = [] ∧ s.tasks.closed = false then
        some { s with tasks := { s.tasks with closed := true } }
      else none
    | .pull w =>
      match s.workers w, s.tasks.buf with
      | .ranging, task :: rest =>
        some { s with
          tasks := { s.tasks with buf := rest }
          workers := setPC s.workers w (.checking task)
          log := .pulled w task :: s.log }
      | _, _ => none
    | .exit w =>
      match s.workers w with
      | .ranging =>
        if s.tasks.buf = [] ∧ s.tasks.closed = true then
          if s.wg = 0 then some { s with panicked := true }
          else some { s with
            workers := setPC s.workers w .exited
            wg := s.wg - 1
            log := .workerExit w :: s.log }
        else none
      | _ => none
    | .get w fault =>
      match s.workers w with
      | .checking task =>
        let (count, found) := Cache.Get s.store fault (cacheKey task)
        some { s with
          workers := setPC s.workers w (if found then .sendHit task count else .waitToken task)
          log := .cacheGet w task count found :: s.log }
      | _ => none
    | .send w =>
      match s.workers w with
      | .sendHit task count => sendResult s w ⟨task.Repo, task.Keyword, count⟩ false
      | .sendNew task count => sendResult s w ⟨task.Repo, task.Keyword, count⟩ true
      | _ => none
    | .token w =>
      match s.workers w with
      | .waitToken task =>
        if s.limiter then
          some { s with
            limiter := false
            workers := setPC s.workers w (.searching task)
            log := .token w task s.now :: s.log }
        else none
      | _ => none
    | .search w resp =>
      match s.workers w with
      | .searching task =>
        match resp with
        | none =>
          some { s with
            workers := setPC s.workers w .ranging
            log := .remoteCall w task none s.now :: s.log }
        | some count =>
          if inIntRange count then
            some { s with
              workers := setPC s.workers w (.caching task count)
              log := .remoteCall w task (some count) s.now :: s.log }
          else none
      | _ => none
    | .set w fault =>
      match s.workers w with
      | .caching task count =>
        some { s with
          store := Cache.Set s.store fault (cacheKey task) count
          workers := setPC s.workers w (.sendNew task count)
          log := .cacheSet w task count (!fault) :: s.log }
      | _ => none
    | .advance d =>
      if s.now + d ≤ s.nextTick then some { s with now := s.now + d } else none
    | .tick =>
      if s.now = s.nextTick then
        some { s with limiter := true, nextTick := s.nextTick + tickPeriod }
      else none
    | .signal =>
      match s.coordinator with
      | .awaitSignal => some { s with coordinator := .waitWorkers, log := .signal :: s.log }
      | _ => none
    | .wgWait =>
      match s.coordinator with
      | .waitWorkers => if s.wg = 0 then some { s with coordinator := .closing } else none
      | _ => none
    | .closeResults =>
      match s.coordinator with
      | .closing =>
        if s.results.closed then some { s with panicked := true }
        else some { s with
          results := { s.results with closed := true }
          coordinator := .done
          log := .resultsClosed :: s.log }
      | _ => none
    | .collect =>
      match s.results.buf with
      | r :: rest =>
        some { s with results := { s.results with buf := rest }, printed := s.printed ++ [r] }
      | [] => none
    | .finish =>
      if s.results.buf = [] ∧ s.results.closed = true then some { s with mainDone := true }
      else none

/-- A step that is not possible leaves the state as it is. -/
def step (s : State) (a : Action) : State := (step? s a).getD s

/-- A run: any sequence of attempted steps, in any interleaving. -/
def exec (s : State) (acts : List Action) : State := acts.foldl step s

/-! ## Records of runs and invariants -/

/-- The task a worker holds. -/
def WorkerPC.task? : WorkerPC → Option SearchTask
  | .ranging => none
  | .checking task => some task
  | .sendHit task _ => some task
  | .waitToken task => some task
  | .searching task => some task
  | .caching task _ => some task
  | .sendNew task _ => some task
  | .exited => none

/-- The sum of `h` over the positions of the workers. -/
def workerSum (h : WorkerPC → Nat) (workers : Nat → WorkerPC) : Nat :=
  ((List.range numWorkers).map (fun w => h (workers w))).sum

/-- Counts a worker that has not returned. -/
def alive (pc : WorkerPC) : Nat := if pc = .exited then 0 else 1

/-- The worker an event belongs to. -/
def Event.worker? : Event → Option Nat
  | .enqueued _ => none
  | .pulled w _ => some w
  | .cacheGet w _ _ _ => some w
  | .token w _ _ => some w
  | .remoteCall w _ _ _ => some w
  | .cacheSet w _ _ _ => some w
  | .published w _ _ => some w
  | .workerExit w => some w
  | .signal => none
  | .resultsClosed => none

/-- The worker that takes a step, for the steps of workers. -/
def Action.worker? : Action → Option Nat
  | .pull w => some w
  | .exit w => some w
  | .get w _ => some w
  | .send w => some w
  | .token w => some w
  | .search w _ => some w
  | .set w _ => some w
  | _ => none

/-- The events of worker `w`, newest first. -/
def eventsOf (w : Nat) (log : List Event) : List Event :=
  log.filter (fun e => e.worker? = some w)

/-- The control flow of the worker loop: the position after an event, from a position. -/
def nextPC : WorkerPC → Event → Option WorkerPC
  | .ranging, .pulled _ task => some (.checking task)
  | .ranging, .workerExit _ => some .exited
  | .checking task, .cacheGet _ t count found =>
    if t = task then some (if found then .sendHit task count else .waitToken task) else none
  | .sendHit task count, .published _ r fresh =>
    if r = ⟨task.Repo, task.Keyword, count⟩ ∧ fresh = false then some .ranging else none
  | .waitToken task, .token _ t _ => if t = task then some (.searching task) else none
  | .searching task, .remoteCall _ t resp _ =>
    if t = task then
      match resp with
      | none => some .ranging
      | some count => some (.caching task count)
    else none
  | .caching task count, .cacheSet _ t n _ =>
    if t = task ∧ n = count then some (.sendNew task count) else none
  | .sendNew task count, .published _ r fresh =>
    if r = ⟨task.Repo, task.Keyword, count⟩ ∧ fresh = true then some .ranging else none
  | _, _ => none

/-- The position a worker reaches by a history of its events (newest first). -/
def histPC : List Event → Option WorkerPC
  | [] => some .ranging
  | e :: older => (histPC older).bind (fun pc => nextPC pc e)

/-- The work unit a Result is for. -/
def unitOf (r : Result) : SearchTask := ⟨r.Repo, r.Keyword⟩

/-- Events by kind, for the tasks selected by `p`: sends by the producer. -/
def evEnqueued (p : SearchTask → Bool) : Event → Bool
  | .enqueued task => p task
  | _ => false

/-- Receptions of a task by a worker. -/
def evPulled (p : SearchTask → Bool) : Event → Bool
  | .pulled _ task => p task
  | _ => false

/-- Cache reads. -/
def evGet (p : SearchTask → Bool) : Event → Bool
  | .cacheGet _ task _ _ => p task
  | _ => false

/-- Cache reads that found a count. -/
def evHit (p : SearchTask → Bool) : Event → Bool
  | .cacheGet _ task _ true => p task
  | _ => false

/-- Cache reads that found nothing. -/
def evMiss (p : SearchTask → Bool) : Event → Bool
  | .cacheGet _ task _ false => p task
  | _ => false

/-- Rate tokens received. -/
def evToken (p : SearchTask → Bool) : Event → Bool
  | .token _ task _ => p task
  | _ => false

/-- Remote calls. -/
def evCall (p : SearchTask → Bool) : Event → Bool
  | .remoteCall _ task _ _ => p task
  | _ => false

/-- Remote calls that returned a count. -/
def evResolved (p : SearchTask → Bool) : Event → Bool
  | .remoteCall _ task (some _) _ => p task
  | _ => false

/-- Remote calls that returned an error. -/
def evFailed (p : SearchTask → Bool) : Event → Bool
  | .remoteCall _ task none _ => p task
  | _ => false

/-- Cache writes (attempted). -/
def evWrite (p : SearchTask → Bool) : Event → Bool
  | .cacheSet _ task _ _ => p task
  | _ => false

/-- Results published. -/
def evPublished (p : SearchTask → Bool) : Event → Bool
  | .published _ r _ => p (unitOf r)
  | _ => false

/-- Results published from the cache. -/
def evPubCached (p : SearchTask → Bool) : Event → Bool
  | .published _ r false => p (unitOf r)
  | _ => false

/-- Results published after a remote call. -/
def evPubFresh (p : SearchTask → Bool) : Event → Bool
  | .published _ r true => p (unitOf r)
  | _ => false

/-- Counts a worker holding a selected task before the cache read. -/
def wChecking (p : SearchTask → Bool) : WorkerPC → Nat
  | .checking task => if p task then 1 else 0
  | _ => 0

/-- Counts a worker holding a selected task at the send of a cached count. -/
def wSendHit (p : SearchTask → Bool) : WorkerPC → Nat
  | .sendHit task _ => if p task then 1 else 0
  | _ => 0

/-- Counts a worker holding a selected task at the limiter. -/
def wWaitToken (p : SearchTask → Bool) : WorkerPC → Nat
  | .waitToken task => if p task then 1 else 0
  | _ => 0

/-- Counts a worker holding a selected task in the remote call. -/
def wSearching (p : SearchTask → Bool) : WorkerPC → Nat
  | .searching task => if p task then 1 else 0
  | _ => 0

/-- Counts a worker holding a selected task before the cache write. -/
def wCaching (p : SearchTask → Bool) : WorkerPC → Nat
  | .caching task _ => if p task then 1 else 0
  | _ => 0

/-- Counts a worker holding a selected task at the send of a fresh count. -/
def wSendNew (p : SearchTask → Bool) : WorkerPC → Nat
  | .sendNew task _ => if p task then 1 else 0
  | _ => 0

/-- The tasks received by workers, newest first. -/
def pulledTasks (log : List Event) : List SearchTask :=
  log.filterMap (fun e => match e with
    | .pulled _ task => some task
    | _ => none)

/-- The tasks sent by the producer, newest first. -/
def enqueuedTasks (log : List Event) : List SearchTask :=
  log.filterMap (fun e => match e with
    | .enqueued task => some task
    | _ => none)

/-- The Results published, newest first. -/
def publishedResults (log : List Event) : List Result :=
  log.filterMap (fun e => match e with
    | .published _ r _ => some r
    | _ => none)

/-- Every `A` event has been followed by a `B` event, except for the workers counted by `h`. -/
def Balanced (A B : Event → Bool) (h : WorkerPC → Nat) (s : State) : Prop :=
  s.log.countP A = s.log.countP B + workerSum h s.workers

/-- The steps of `step?`, one rule per case. -/
inductive Step : State → Action → State → Prop where
  | produce (s : State) (task : SearchTask) (rest : List SearchTask)
      (hp : s.pending = task :: rest) (hopen : s.tasks.closed = false)
      (hroom : s.tasks.buf.length < s.tasks.cap) :
      Step s .produce { s with
        tasks := { s.tasks with buf := s.tasks.buf ++ [task] }
        pending := rest
        log := .enqueued task :: s.log }
  | producePanic (s : State) (task : SearchTask) (rest : List SearchTask)
      (hp : s.pending = task :: rest) (hclosed : s.tasks.closed = true) :
      Step s .produce { s with panicked := true }
  | closeTasks (s : State) (hp : s.pending = []) (hopen : s.tasks.closed = false) :
      Step s .closeTasks { s with tasks := { s.tasks with closed := true } }
  | pull (s : State) (w : Nat) (task : SearchTask) (rest : List SearchTask)
      (hpc : s.workers w = .ranging) (hbuf : s.tasks.buf = task :: rest) :
      Step s (.pull w) { s with
        tasks := { s.tasks with buf := rest }
        workers := setPC s.workers w (.checking task)
        log := .pulled w task :: s.log }
  | exit (s : State) (w : Nat) (hpc : s.workers w = .ranging) (hbuf : s.tasks.buf = [])
      (hclosed : s.tasks.closed = true) (hwg : s.wg ≠ 0) :
      Step s (.exit w) { s with
        workers := setPC s.workers w .exited
        wg := s.wg - 1
        log := .workerExit w :: s.log }
  | exitPanic (s : State) (w : Nat) (hpc : s.workers w = .ranging) (hwg : s.wg = 0) :
      Step s (.exit w) { s with panicked := true }
  | get (s : State) (w : Nat) (fault : Bool) (task : SearchTask) (count : Int) (found : Bool)
      (hpc : s.workers w = .checking task)
      (hget : Cache.Get s.store fault (cacheKey task) = (count, found)) :
      Step s (.get w fault) { s with
        workers := setPC s.workers w (if found then .sendHit task count else .waitToken task)
        log := .cacheGet w task count found :: s.log }
  | sendHit (s : State) (w : Nat) (task : SearchTask) (count : Int)
      (hpc : s.workers w = .sendHit task count)
      (hopen : s.results.closed = false) (hroom : s.results.buf.length < s.results.cap) :
      Step s (.send w) { s with
        results := { s.results with buf := s.results.buf ++ [⟨task.Repo, task.Keyword, count⟩] }
        workers := setPC s.workers w .ranging
        log := .published w ⟨task.Repo, task.Keyword, count⟩ false :: s.log }
  | sendNew (s : State) (w : Nat) (task : SearchTask) (count : Int)
      (hpc : s.workers w = .sendNew task count)
      (hopen : s.results.closed = false) (hroom : s.results.buf.length < s.results.cap) :
      Step s (.send w) { s with
        results := { s.results with buf := s.results.buf ++ [⟨task.Repo, task.Keyword, count⟩] }
        workers := setPC s.workers w .ranging
        log := .published w ⟨task.Repo, task.Keyword, count⟩ true :: s.log }
  | sendPanic (s : State) (w : Nat) (task : SearchTask) (count : Int)
      (hpc : s.workers w = .sendHit task count ∨ s.workers w = .sendNew task count)
      (hclosed : s.results.closed = true) :
      Step s (.send w) { s with panicked := true }
  | token (s : State) (w : Nat) (task : SearchTask) (hpc : s.workers w = .waitToken task)
      (hl : s.limiter = true) :
      Step s (.token w) { s with
        limiter := false
        workers := setPC s.workers w (.searching task)
        log := .token w task s.now :: s.log }
  | searchErr (s : State) (w : Nat) (task : SearchTask) (hpc : s.workers w = .searching task) :
      Step s (.search w none) { s with
        workers := setPC s.workers w .ranging
        log := .remoteCall w task none s.now :: s.log }
  | searchOk (s : State) (w : Nat) (task : SearchTask) (count : Int)
      (hpc : s.workers w = .searching task) (hr : inIntRange count = true) :
      Step s (.search w (some count)) { s with
        workers := setPC s.workers w (.caching task count)
        log := .remoteCall w task (some count) s.now :: s.log }
  | set (s : State) (w : Nat) (fault : Bool) (task : SearchTask) (count : Int)
      (hpc : s.workers w = .caching task count) :
      Step s (.set w fault) { s with
        store := Cache.Set s.store fault (cacheKey task) count
        workers := setPC s.workers w (.sendNew task count)
        log := .cacheSet w task count (!fault) :: s.log }
  | advance (s : State) (d : Nat) (hd : s.now + d ≤ s.nextTick) :
      Step s (.advance d) { s with now := s.now + d }
  | tick (s : State) (ht : s.now = s.nextTick) :
      Step s .tick { s with limiter := true, nextTick := s.nextTick + tickPeriod }
  | signal (s : State) (hc : s.coordinator = .awaitSignal) :
      Step s .signal { s with coordinator := .waitWorkers, log := .signal :: s.log }
  | wgWait (s : State) (hc : s.coordinator = .waitWorkers) (hwg : s.wg = 0) :
      Step s .wgWait { s with coordinator := .closing }
  | closeResults (s : State) (hc : s.coordinator = .closing) (hopen : s.results.closed = false) :
      Step s .closeResults { s with
        results := { s.results with closed := true }
        coordinator := .done
        log := .resultsClosed :: s.log }
  | closePanic (s : State) (hc : s.coordinator = .closing) (hclosed : s.results.closed = true) :
      Step s .closeResults { s with panicked := true }
  | collect (s : State) (r : Result) (rest : List Result) (hbuf : s.results.buf = r :: rest) :
      Step s .collect { s with
        results := { s.results with buf := rest }
        printed := s.printed ++ [r] }
  | finish (s : State) (hbuf : s.results.buf = []) (hclosed : s.results.closed = true) :
      Step s .finish { s with mainDone := true }

/-- Channels are first-in first-out and sized for the task list `T`. -/
structure Flow (T : List SearchTask) (s : State) : Prop where
  fifo : (pulledTasks s.log).reverse ++ s.tasks.buf ++ s.pending = T
  sent : (enqueuedTasks s.log).reverse ++ s.pending = T
  capT : s.tasks.cap = T.length
  capR : s.results.cap = T.length
  exitedClosed : s.wg < numWorkers → s.tasks.closed = true ∧ s.tasks.buf = []
  outbox : s.printed ++ s.results.buf = (publishedResults s.log).reverse

/-- The coordinator acts after the signal, and nothing happens to workers after the close. -/
structure Shutdown (s : State) : Prop where
  signalled : s.coordinator ≠ .awaitSignal → Event.signal ∈ s.log
  closedLogged : Event.resultsClosed ∈ s.log → s.results.closed = true
  quiet : ∀ post pre, s.log = post ++ Event.resultsClosed :: pre → ∀ e ∈ post, e.worker? = none

/-- The text `v` is a decimal numeral for `n`: an optional sign followed by one or more
decimal digits whose value, read in base ten, is the magnitude of `n`. -/
def IsDecimalNumeral (v : GoString) (n : Int) : Prop :=
  ∃ digits : List Nat, digits ≠ [] ∧ (∀ d ∈ digits, 48 ≤ d ∧ d ≤ 57) ∧
    (((v = digits ∨ v = 43 :: digits) ∧
        n = ((digits.foldl (fun a d => a * 10 + (d - 48)) 0 : Nat) : Int)) ∨
      (v = 45 :: digits ∧
        n = -((digits.foldl (fun a d => a * 10 + (d - 48)) 0 : Nat) : Int)))

/-- The count of the latest accepted cache write to `key`. -/
def lastWrite (key : GoString) : List Event → Option Int
  | [] => none
  | .cacheSet _ task count true :: older =>
    if cacheKey task = key then some count else lastWrite key older
  | _ :: older => lastWrite key older

/-- Counts held by workers and written to the cache are values of `int`. -/
structure Ranged (s : State) : Prop where
  held : ∀ w task count, s.workers w = .caching task count → inIntRange count = true
  logged : ∀ e ∈ s.log, ∀ w task count accepted,
    e = Event.cacheSet w task count accepted → inIntRange count = true

/-- A step in which the cache call, if any, does not fail. -/
def Action.faultFree : Action → Bool
  | .get _ true => false
  | .set _ true => false
  | _ => true

/-- Every remote call of the run answered as the response function `ρ` says. -/
def RemoteOK (ρ : SearchTask → Option Int) (log : List Event) : Prop :=
  ∀ e ∈ log, ∀ w task resp time, e = Event.remoteCall w task resp time → resp = ρ task

/-- Events other than a cache miss, a rate token, a remote call and a cache write. -/
def Event.remoteFree : Event → Bool
  | .cacheGet _ _ _ false => false
  | .token _ _ _ => false
  | .remoteCall _ _ _ _ => false
  | .cacheSet _ _ _ _ => false
  | _ => true

/-- In a run from cache `c`, with a reliable store and remote answers `ρ`: what the cache holds
under the key of each unit and what each worker and each published Result knows of it. -/
structure Settled (c : Store) (ρ : SearchTask → Option Int) (T : List SearchTask) (s : State) :
    Prop where
  inT : ∀ w task, (s.workers w).task? = some task → task ∈ T
  pubT : ∀ r ∈ publishedResults s.log, unitOf r ∈ T
  store : ∀ task ∈ T, s.store (cacheKey task) = c (cacheKey task) ∨
    ((Cache.Get c false (cacheKey task)).2 = false ∧
      ∃ n, ρ task = some n ∧ inIntRange n = true ∧ s.store (cacheKey task) = some (formatInt n))
  hit : ∀ w task n, s.workers w = .sendHit task n →
    Cache.Get s.store false (cacheKey task) = (n, true)
  miss : ∀ w task, s.workers w = .waitToken task ∨ s.workers w = .searching task →
    (Cache.Get c false (cacheKey task)).2 = false
  fresh : ∀ w task n, s.workers w = .caching task n ∨ s.workers w = .sendNew task n →
    (Cache.Get c false (cacheKey task)).2 = false ∧ ρ task = some n ∧ inIntRange n = true
  written : ∀ w task n, s.workers w = .sendNew task n →
    s.store (cacheKey task) = some (formatInt n)
  published : ∀ r ∈ publishedResults s.log,
    Cache.Get s.store false (cacheKey (unitOf r)) = (r.Count, true)

/-- A cache holding "org/a:foo" -> 99. -/
def sampleCache : Store :=
  fun key => if key = str "org/a:foo" then some (str "99") else none

/-- A complete run for one unit resolved by a remote call answering 7. -/
def sampleResolve : List Action :=
  [.produce, .closeTasks, .pull 0, .get 0 false, .advance 6000000000, .tick, .token 0,
    .search 0 (some 7), .set 0 false, .send 0, .exit 0, .exit 1, .exit 2, .exit 3, .exit 4,
    .exit 5, .exit 6, .exit 7, .exit 8, .exit 9]

/-- The same run interrupted by the signal and shut down. -/
def sampleShutdown : List Action :=
  [.produce, .closeTasks, .pull 0, .get 0 false, .advance 6000000000, .tick, .token 0,
    .search 0 (some 7), .set 0 false, .send 0, .signal, .exit 0, .exit 1, .exit 2, .exit 3,
    .exit 4, .exit 5, .exit 6, .exit 7, .exit 8, .exit 9, .wgWait, .closeResults]

/-- A complete run for one unit answered from the cache. -/
def sampleReplay : List Action :=
  [.produce, .closeTasks, .pull 0, .get 0 false, .send 0, .exit 0, .exit 1, .exit 2, .exit 3,
    .exit 4, .exit 5, .exit 6, .exit 7, .exit 8, .exit 9]

/-- The times at which rate tokens were received, newest first. -/
def tokenTimes (log : List Event) : List Nat :=
  log.filterMap (fun e => match e with
    | .token _ _ time => some time
    | _ => none)

/-- The times of the remote calls, newest first. -/
def callTimes (log : List Event) : List Nat :=
  log.filterMap (fun e => match e with
    | .remoteCall _ _ _ time => some time
    | _ => none)

/-- The clock, the ticker and the token receipts so far. -/
structure Paced (s : State) : Prop where
  notPast : s.now ≤ s.nextTick
  nextSoon : s.nextTick ≤ s.now + tickPeriod
  tokensPast : ∀ t ∈ tokenTimes s.log, t ≤ s.now
  ticksEmpty : s.limiter = false → ((tokenTimes s.log).length + 1) * tickPeriod ≤ s.nextTick
  ticksFull : s.limiter = true → ((tokenTimes s.log).length + 2) * tickPeriod ≤ s.nextTick
  lastToken : ∀ last, (tokenTimes s.log).head? = some last →
    (tokenTimes s.log).length * tickPeriod ≤ last
  spanEmpty : ∀ first, (tokenTimes s.log).getLast? = some first → s.limiter = false →
    first + ((tokenTimes s.log).length - 1) * tickPeriod ≤ s.nextTick
  spanFull : ∀ first, (tokenTimes s.log).getLast? = some first → s.limiter = true →
    first + (tokenTimes s.log).length * tickPeriod ≤ s.nextTick
  span : ∀ first last, (tokenTimes s.log).getLast? = some first →
    (tokenTimes s.log).head? = some last →
    first + ((tokenTimes s.log).length - 2) * tickPeriod ≤ last

/-- No goroutine has panicked, and the bookkeeping that excludes it. -/
structure Safe (s : State) : Prop where
  noPanic : s.panicked = false
  closedPending : s.tasks.closed = true → s.pending = []
  outside : ∀ w, numWorkers ≤ w → s.workers w = .exited
  wgCount : s.wg = workerSum alive s.workers
  drained : s.coordinator = .closing ∨ s.coordinator = .done → s.wg = 0
  closedDone : s.results.closed = true ↔ s.coordinator = .done
  mainClosed : s.mainDone = true → s.results.closed = true


/-! ## Cache keys -/

theorem cacheKey_eq_of_no_colon :
    ∀ (r1 r2 k1 k2 : GoString), 58 ∉ r1 → 58 ∉ r2 →
      r1 ++ 58 :: k1 = r2 ++ 58 :: k2 → r1 = r2 ∧ k1 = k2
  | [], [], k1, k2, _, _, h => by simpa using h
  | [], b :: r2, k1, k2, _, h2, h => by
      simp only [List.nil_append, List.cons_append, List.cons.injEq] at h
      exact absurd (h.1 ▸ List.mem_cons_self _ _) h2
  | a :: r1, [], k1, k2, h1, _, h => by
      simp only [List.nil_append, List.cons_append, List.cons.injEq] at h
      exact absurd (h.1 ▸ List.mem_cons_self _ _) h1
  | a :: r1, b :: r2, k1, k2, h1, h2, h => by
      simp only [List.cons_append, List.cons.injEq] at h
      have ih := cacheKey_eq_of_no_colon r1 r2 k1 k2
        (fun hm => h1 (List.mem_cons_of_mem _ hm)) (fun hm => h2 (List.mem_cons_of_mem _ hm)) h.2
      exact ⟨by rw [h.1, ih.1], ih.2⟩

/-- C9 (counterexample): the units ("a:b", "c") and ("a", "b:c") are different but are given
the same cache key "a:b:c", so the key function is not injective on all strings. -/
theorem cacheKey_collision :
    cacheKey ⟨str "a:b", str "c"⟩ = cacheKey ⟨str "a", str "b:c"⟩ ∧
      (str "a:b" ≠ str "a" ∧ str "c" ≠ str "b:c") := by
  decide

/-- C9 (amended): the key function `repo ++ ":" ++ keyword` is injective on work units whose
repository names contain no colon: equal keys force equal repositories and equal keywords. -/
theorem cacheKey_injective_of_no_colon (t1 t2 : SearchTask)
    (h1 : 58 ∉ t1.Repo) (h2 : 58 ∉ t2.Repo) (h : cacheKey t1 = cacheKey t2) :
    t1.Repo = t2.Repo ∧ t1.Keyword = t2.Keyword :=
  cacheKey_eq_of_no_colon t1.Repo t2.Repo t1.Keyword t2.Keyword h1 h2 h

theorem cacheKey_injective_of_no_colon_witness :
    (58 ∉ str "org/a" ∧ 58 ∉ str "org/a" ∧
      cacheKey ⟨str "org/a", str "x:y"⟩ = cacheKey ⟨str "org/a", str "x:y"⟩) ∧
      (str "org/a" = str "org/a" ∧ str "x:y" = str "x:y") :=
  ⟨by decide, cacheKey_injective_of_no_colon ⟨str "org/a", str "x:y"⟩ ⟨str "org/a", str "x:y"⟩
    (by decide) (by decide) rfl⟩

/-! ## Decimal formatting and parsing -/

theorem parseDigits_natDigits :
    ∀ (fuel n : Nat) (acc : List Nat), n < fuel →
      parseDigits (natDigits fuel n acc) 0 = parseDigits acc n
  | 0, _, _, h => absurd h (Nat.not_lt_zero _)
  | fuel + 1, n, acc, h => by
      unfold natDigits
      split
      · next hlt =>
        have h1 : 48 ≤ 48 + n ∧ 48 + n ≤ 57 := by omega
        simp [parseDigits, h1]
      · next hge =>
        have hlt : n / 10 < fuel := by omega
        rw [parseDigits_natDigits fuel (n / 10) _ hlt]
        have h1 : 48 ≤ 48 + n % 10 ∧ 48 + n % 10 ≤ 57 := by omega
        have h2 : n / 10 * 10 + n % 10 = n := by omega
        simp [parseDigits, h1, h2]

theorem natDigits_head :
    ∀ (fuel n : Nat) (acc : List Nat),
      (fuel = 0 → ∃ d rest, acc = d :: rest ∧ 48 ≤ d ∧ d ≤ 57) →
      ∃ d rest, natDigits fuel n acc = d :: rest ∧ 48 ≤ d ∧ d ≤ 57
  | 0, _, acc, h => by simpa [natDigits] using h rfl
  | fuel + 1, n, acc, _ => by
      unfold natDigits
      split
      · next hlt => exact ⟨48 + n, acc, rfl, by omega, by omega⟩
      · next hge =>
        exact natDigits_head fuel (n / 10) _
          (fun _ => ⟨48 + n % 10, acc, rfl, by omega, by omega⟩)

theorem Atoi_digits (u : Nat) (l : List Nat) (h : parseDigits l 0 = some u)
    (hd : ∃ d rest, l = d :: rest ∧ 48 ≤ d ∧ d ≤ 57) (hu : u < 2 ^ 63) :
    Atoi l = some (u : Int) := by
  obtain ⟨d, rest, rfl, h1, h2⟩ := hd
  have n1 : ¬ d = 43 := by omega
  have n2 : ¬ d = 45 := by omega
  have hu2 : u < 9223372036854775808 := by norm_num at hu; exact hu
  simp [Atoi, n1, n2, h, hu2]

theorem Atoi_neg_digits (u : Nat) (l : List Nat) (h : parseDigits l 0 = some u)
    (hd : ∃ d rest, l = d :: rest ∧ 48 ≤ d ∧ d ≤ 57) (hu : u ≤ 2 ^ 63) :
    Atoi (45 :: l) = some (-(u : Int)) := by
  obtain ⟨d, rest, rfl, h1, h2⟩ := hd
  have hu2 : u ≤ 9223372036854775808 := by norm_num at hu; exact hu
  simp [Atoi, h, hu2]

theorem Atoi_formatInt (n : Int) (h : inIntRange n = true) : Atoi (formatInt n) = some n := by
  simp only [inIntRange, Bool.and_eq_true, decide_eq_true_eq] at h
  have hp := parseDigits_natDigits (n.natAbs + 1) n.natAbs [] (Nat.lt_succ_self _)
  have hh := natDigits_head (n.natAbs + 1) n.natAbs [] (fun h0 => absurd h0 (Nat.succ_ne_zero _))
  simp only [parseDigits] at hp
  unfold formatInt
  split
  · next hneg =>
    rw [Atoi_neg_digits n.natAbs _ hp hh (by omega)]
    congr 1; omega
  · next hpos =>
    rw [Atoi_digits n.natAbs _ hp hh (by omega)]
    congr 1; omega

theorem Get_Set_same (c : Store) (key : GoString) (n : Int) (h : inIntRange n = true) :
    Cache.Get (Cache.Set c false key n) false key = (n, true) := by
  simp [Cache.Get, Cache.Set, clientGet, clientSet, Atoi_formatInt n h]

/-! ## Worker pool bookkeeping -/

theorem sum_range_update (h : WorkerPC → Nat) (f : Nat → WorkerPC) (w : Nat) (pc : WorkerPC) :
    ∀ n, w < n →
      ((List.range n).map (fun i => h (setPC f w pc i))).sum + h (f w)
        = ((List.range n).map (fun i => h (f i))).sum + h pc
  | 0, hw => absurd hw (Nat.not_lt_zero _)
  | n + 1, hw => by
      rw [List.range_succ]
      simp only [List.map_append, List.sum_append, List.map_cons, List.map_nil, List.sum_cons,
        List.sum_nil, Nat.add_zero]
      by_cases hn : w = n
      · subst hn
        have hrest : (List.range w).map (fun i => h (setPC f w pc i))
            = (List.range w).map (fun i => h (f i)) := by
          apply List.map_congr_left
          intro i hi
          have : i ≠ w := Nat.ne_of_lt (List.mem_range.mp hi)
          simp [setPC, this]
        rw [hrest]
        simp [setPC]
        omega
      · have ih := sum_range_update h f w pc n (by omega)
        have : setPC f w pc n = f n := by
          have : n ≠ w := fun e => hn e.symm
          simp [setPC, this]
        rw [this]
        omega

theorem workerSum_setPC (h : WorkerPC → Nat) (f : Nat → WorkerPC) (w : Nat) (pc : WorkerPC)
    (hw : w < numWorkers) :
    workerSum h (setPC f w pc) + h (f w) = workerSum h f + h pc :=
  sum_range_update h f w pc numWorkers hw

theorem sum_range_ge (g : Nat → Nat) (w : Nat) :
    ∀ n, w < n → g w ≤ ((List.range n).map g).sum
  | 0, hw => absurd hw (Nat.not_lt_zero _)
  | n + 1, hw => by
      rw [List.range_succ]
      simp only [List.map_append, List.sum_append, List.map_cons, List.map_nil, List.sum_cons,
        List.sum_nil, Nat.add_zero]
      by_cases hn : w = n
      · subst hn; omega
      · have := sum_range_ge g w n (by omega)
        omega

theorem workerSum_ge (h : WorkerPC → Nat) (f : Nat → WorkerPC) (w : Nat) (hw : w < numWorkers) :
    h (f w) ≤ workerSum h f :=
  sum_range_ge (fun i => h (f i)) w numWorkers hw

theorem acting_lt (s : State) (hs : Safe s) (w : Nat) (h : s.workers w ≠ .exited) :
    w < numWorkers := by
  by_contra hw
  exact h (hs.outside w (Nat.le_of_not_lt hw))

theorem safe_init (allRepos keywords : List GoString) (c : Store) :
    Safe (init allRepos keywords c) := by
  refine ⟨rfl, ?_, ?_, ?_, ?_, ?_, ?_⟩
  · intro h; simp [init] at h
  · intro w hw; simp [init, Nat.not_lt.mpr hw]
  · show numWorkers = workerSum alive (fun w => if w < numWorkers then WorkerPC.ranging else WorkerPC.exited)
    decide
  · intro h; simp [init] at h
  · simp [init]
  · intro h; simp [init] at h

theorem step?_sound (s s' : State) (a : Action) (h : step? s a = some s') :
    Step s a s' ∧ s.mainDone = false ∧ s.panicked = false := by
  unfold step? at h
  split at h
  · simp at h
  next hrun =>
  simp only [Bool.or_eq_true, not_or, Bool.not_eq_true] at hrun
  refine ⟨?_, hrun.1, hrun.2⟩
  cases a <;> simp only [] at h
  case produce =>
    split at h
    · simp at h
    · next task rest hp =>
      split at h
      · next hc => obtain rfl := Option.some.inj h; exact .producePanic s task rest hp hc
      · next hc =>
        split at h
        · next hroom =>
          obtain rfl := Option.some.inj h
          exact .produce s task rest hp (by simpa using hc) hroom
        · simp at h
  case closeTasks =>
    split at h
    · next hc => obtain rfl := Option.some.inj h; exact .closeTasks s hc.1 hc.2
    · simp at h
  case pull w =>
    split at h
    · next task rest hpc hbuf =>
      obtain rfl := Option.some.inj h; exact .pull s w task rest hpc hbuf
    · simp at h
  case exit w =>
    split at h
    · next hpc =>
      split at h
      · next hc =>
        split at h
        · next hwg => obtain rfl := Option.some.inj h; exact .exitPanic s w hpc hwg
        · next hwg => obtain rfl := Option.some.inj h; exact .exit s w hpc hc.1 hc.2 hwg
      · simp at h
    · simp at h
  case get w fault =>
    split at h
    · next task hpc =>
      obtain rfl := Option.some.inj h
      exact .get s w fault task _ _ hpc rfl
    · simp at h
  case send w =>
    split at h
    · next task count hpc =>
      simp only [sendResult] at h
      split at h
      · next hc => obtain rfl := Option.some.inj h; exact .sendPanic s w task count (.inl hpc) hc
      · next hc =>
        split at h
        · next hroom =>
          obtain rfl := Option.some.inj h
          exact .sendHit s w task count hpc (by simpa using hc) hroom
        · simp at h
    · next task count hpc =>
      simp only [sendResult] at h
      split at h
      · next hc => obtain rfl := Option.some.inj h; exact .sendPanic s w task count (.inr hpc) hc
      · next hc =>
        split at h
        · next hroom =>
          obtain rfl := Option.some.inj h
          exact .sendNew s w task count hpc (by simpa using hc) hroom
        · simp at h
    · simp at h
  case token w =>
    split at h
    · next task hpc =>
      split at h
      · next hl => obtain rfl := Option.some.inj h; exact .token s w task hpc hl
      · simp at h
    · simp at h
  case search w resp =>
    split at h
    · next task hpc =>
      split at h
      · obtain rfl := Option.some.inj h; exact .searchErr s w task hpc
      · next count =>
        split at h
        · next hr => obtain rfl := Option.some.inj h; exact .searchOk s w task count hpc hr
        · simp at h
    · simp at h
  case set w fault =>
    split at h
    · next task count hpc => obtain rfl := Option.some.inj h; exact .set s w fault task count hpc
    · simp at h
  case advance d =>
    split at h
    · next hd => obtain rfl := Option.some.inj h; exact .advance s d hd
    · simp at h
  case tick =>
    split at h
    · next ht => obtain rfl := Option.some.inj h; exact .tick s ht
    · simp at h
  case signal =>
    split at h
    · next hc => obtain rfl := Option.some.inj h; exact .signal s hc
    · simp at h
  case wgWait =>
    split at h
    · next hc =>
      split at h
      · next hwg => obtain rfl := Option.some.inj h; exact .wgWait s hc hwg
      · simp at h
    · simp at h
  case closeResults =>
    split at h
    · next hc =>
      split at h
      · next hcl => obtain rfl := Option.some.inj h; exact .closePanic s hc hcl
      · next hcl => obtain rfl := Option.some.inj h; exact .closeResults s hc (by simpa using hcl)
    · simp at h
  case collect =>
    split at h
    · next r rest hbuf => obtain rfl := Option.some.inj h; exact .collect s r rest hbuf
    · simp at h
  case finish =>
    split at h
    · next hc => obtain rfl := Option.some.inj h; exact .finish s hc.1 hc.2
    · simp at h

theorem safe_step (s s' : State) (a : Action) (hs : Safe s) (h : Step s a s') : Safe s' := by
  have hlt : ∀ w, s.workers w ≠ .exited → w < numWorkers := acting_lt s hs
  have hout : ∀ w pc, s.workers w ≠ .exited → ∀ i, numWorkers ≤ i → setPC s.workers w pc i = .exited := by
    intro w pc hw i hi
    have : i ≠ w := fun e => by subst e; exact absurd (hlt _ hw) (Nat.not_lt.mpr hi)
    simp [setPC, this, hs.outside i hi]
  have hsum : ∀ w pc, s.workers w ≠ .exited →
      workerSum alive (setPC s.workers w pc) + 1 = workerSum alive s.workers + alive pc := by
    intro w pc hw
    have := workerSum_setPC alive s.workers w pc (hlt w hw)
    have h1 : alive (s.workers w) = 1 := by simp [alive, hw]
    omega
  have hpos : ∀ w, s.workers w ≠ .exited → s.wg ≠ 0 := by
    intro w hw
    have := workerSum_ge alive s.workers w (hlt w hw)
    have h1 : alive (s.workers w) = 1 := by simp [alive, hw]
    rw [hs.wgCount]; omega
  obtain ⟨h1, h2, h3, h4, h5, h6, h7⟩ := hs
  cases h
  case producePanic task rest hp hc => simp [h2 hc] at hp
  case exitPanic w hpc hwg => exact absurd hwg (hpos w (by simp [hpc]))
  case sendPanic w task count hpc hc =>
    have : s.wg = 0 := h5 (.inr (h6.mp hc))
    exact absurd this (hpos w (by rcases hpc with h | h <;> simp [h]))
  case closePanic hc hcl => simp [h6.mp hcl] at hc
  case produce task rest hp hopen hroom =>
    exact ⟨h1, fun hc => by simp [hopen] at hc, h3, h4, h5, h6, h7⟩
  case closeTasks hp hopen => exact ⟨h1, fun _ => hp, h3, h4, h5, h6, h7⟩
  case pull w task rest hpc hbuf =>
    have hne : s.workers w ≠ .exited := by simp [hpc]
    refine ⟨h1, h2, hout w _ hne, ?_, h5, h6, h7⟩
    have := hsum w (.checking task) hne
    simp [alive] at this
    show s.wg = workerSum alive (setPC s.workers w _)
    omega
  case exit w hpc hbuf hclosed hwg =>
    have hne : s.workers w ≠ .exited := by simp [hpc]
    refine ⟨h1, h2, hout w _ hne, ?_, ?_, h6, h7⟩
    · have := hsum w .exited hne
      simp [alive] at this
      show s.wg - 1 = workerSum alive (setPC s.workers w _)
      omega
    · intro hc
      show s.wg - 1 = 0
      rw [h5 hc]
  case get w fault task count found hpc hget =>
    have hne : s.workers w ≠ .exited := by simp [hpc]
    refine ⟨h1, h2, hout w _ hne, ?_, h5, h6, h7⟩
    have := hsum w (if found then .sendHit task count else .waitToken task) hne
    have halive : alive (if found then WorkerPC.sendHit task count else .waitToken task) = 1 := by
      cases found <;> simp [alive]
    show s.wg = workerSum alive (setPC s.workers w _)
    omega
  case sendHit w task count hpc hopen hroom =>
    have hne : s.workers w ≠ .exited := by simp [hpc]
    refine ⟨h1, h2, hout w _ hne, ?_, h5, h6, h7⟩
    have := hsum w .ranging hne
    simp [alive] at this
    show s.wg = workerSum alive (setPC s.workers w _)
    omega
  case sendNew w task count hpc hopen hroom =>
    have hne : s.workers w ≠ .exited := by simp [hpc]
    refine ⟨h1, h2, hout w _ hne, ?_, h5, h6, h7⟩
    have := hsum w .ranging hne
    simp [alive] at this
    show s.wg = workerSum alive (setPC s.workers w _)
    omega
  case token w task hpc hl =>
    have hne : s.workers w ≠ .exited := by simp [hpc]
    refine ⟨h1, h2, hout w _ hne, ?_, h5, h6, h7⟩
    have := hsum w (.searching task) hne
    simp [alive] at this
    show s.wg = workerSum alive (setPC s.workers w _)
    omega
  case searchErr w task hpc =>
    have hne : s.workers w ≠ .exited := by simp [hpc]
    refine ⟨h1, h2, hout w _ hne, ?_, h5, h6, h7⟩
    have := hsum w .ranging hne
    simp [alive] at this
    show s.wg = workerSum alive (setPC s.workers w _)
    omega
  case searchOk w task count hpc hr =>
    have hne : s.workers w ≠ .exited := by simp [hpc]
    refine ⟨h1, h2, hout w _ hne, ?_, h5, h6, h7⟩
    have := hsum w (.caching task count) hne
    simp [alive] at this
    show s.wg = workerSum alive (setPC s.workers w _)
    omega
  case set w fault task count hpc =>
    have hne : s.workers w ≠ .exited := by simp [hpc]
    refine ⟨h1, h2, hout w _ hne, ?_, h5, h6, h7⟩
    have := hsum w (.sendNew task count) hne
    simp [alive] at this
    show s.wg = workerSum alive (setPC s.workers w _)
    omega
  case advance d hd => exact ⟨h1, h2, h3, h4, h5, h6, h7⟩
  case tick ht => exact ⟨h1, h2, h3, h4, h5, h6, h7⟩
  case signal hc =>
    refine ⟨h1, h2, h3, h4, fun h => by simp at h, ?_, h7⟩
    rw [h6, hc]; simp
  case wgWait hc hwg =>
    refine ⟨h1, h2, h3, h4, fun _ => hwg, ?_, h7⟩
    rw [h6, hc]; simp
  case closeResults hc hopen =>
    exact ⟨h1, h2, h3, h4, fun _ => h5 (.inl hc), by simp, fun _ => rfl⟩
  case collect r rest hbuf => exact ⟨h1, h2, h3, h4, h5, h6, h7⟩
  case finish hbuf hclosed => exact ⟨h1, h2, h3, h4, h5, h6, fun _ => hclosed⟩

/-! ## Shape of a step: one worker moves along its control flow, or no worker moves -/

theorem step_shape (s s' : State) (a : Action) (hs : Safe s) (h : Step s a s')
    (hs' : s'.panicked = false) :
    (s'.workers = s.workers ∧
        (s'.log = s.log ∨ ∃ e, s'.log = e :: s.log ∧ e.worker? = none)) ∨
      (∃ w e pc', w < numWorkers ∧ e.worker? = some w ∧ s'.log = e :: s.log ∧
        s'.workers = setPC s.workers w pc' ∧ nextPC (s.workers w) e = some pc') := by
  have hlt : ∀ w, s.workers w ≠ .exited → w < numWorkers := acting_lt s hs
  have hp := hs.noPanic
  cases h
  case produce task rest hp hopen hroom => exact .inl ⟨rfl, .inr ⟨_, rfl, rfl⟩⟩
  case producePanic => simp at hs'
  case closeTasks => exact .inl ⟨rfl, .inl rfl⟩
  case pull w task rest hpc hbuf =>
    refine .inr ⟨w, _, _, hlt w (by simp [hpc]), ?_, rfl, rfl, ?_⟩
    · rfl
    · simp [hpc, nextPC]
  case exit w hpc hbuf hclosed hwg =>
    refine .inr ⟨w, _, _, hlt w (by simp [hpc]), ?_, rfl, rfl, ?_⟩
    · rfl
    · simp [hpc, nextPC]
  case exitPanic => simp at hs'
  case get w fault task count found hpc hget =>
    refine .inr ⟨w, _, _, hlt w (by simp [hpc]), ?_, rfl, rfl, ?_⟩
    · rfl
    · simp [hpc, nextPC]
  case sendHit w task count hpc hopen hroom =>
    refine .inr ⟨w, _, _, hlt w (by simp [hpc]), ?_, rfl, rfl, ?_⟩
    · rfl
    · simp [hpc, nextPC]
  case sendNew w task count hpc hopen hroom =>
    refine .inr ⟨w, _, _, hlt w (by simp [hpc]), ?_, rfl, rfl, ?_⟩
    · rfl
    · simp [hpc, nextPC]
  case sendPanic => simp at hs'
  case token w task hpc hl =>
    refine .inr ⟨w, _, _, hlt w (by simp [hpc]), ?_, rfl, rfl, ?_⟩
    · rfl
    · simp [hpc, nextPC]
  case searchErr w task hpc =>
    refine .inr ⟨w, _, _, hlt w (by simp [hpc]), ?_, rfl, rfl, ?_⟩
    · rfl
    · simp [hpc, nextPC]
  case searchOk w task count hpc hr =>
    refine .inr ⟨w, _, _, hlt w (by simp [hpc]), ?_, rfl, rfl, ?_⟩
    · rfl
    · simp [hpc, nextPC]
  case set w fault task count hpc =>
    refine .inr ⟨w, _, _, hlt w (by simp [hpc]), ?_, rfl, rfl, ?_⟩
    · rfl
    · simp [hpc, nextPC]
  case advance => exact .inl ⟨rfl, .inl rfl⟩
  case tick => exact .inl ⟨rfl, .inl rfl⟩
  case signal => exact .inl ⟨rfl, .inr ⟨_, rfl, rfl⟩⟩
  case wgWait => exact .inl ⟨rfl, .inl rfl⟩
  case closeResults => exact .inl ⟨rfl, .inr ⟨_, rfl, rfl⟩⟩
  case closePanic => simp at hs'
  case collect => exact .inl ⟨rfl, .inl rfl⟩
  case finish => exact .inl ⟨rfl, .inl rfl⟩

/-! ## Runs -/

theorem step_eq (s : State) (a : Action) :
    step s a = s ∨ (Step s a (step s a) ∧ s.mainDone = false ∧ s.panicked = false) := by
  unfold step
  cases h : step? s a with
  | none => exact .inl rfl
  | some s' => exact .inr (step?_sound s s' a h)

theorem exec_invariant (P : State → Prop) (A : Action → Prop)
    (hstep : ∀ s a s', A a → Safe s → Safe s' → P s → Step s a s' → P s') :
    ∀ (acts : List Action) (s : State), (∀ a ∈ acts, A a) → Safe s → P s →
      Safe (exec s acts) ∧ P (exec s acts)
  | [], s, _, hs, hp => ⟨hs, hp⟩
  | a :: acts, s, hA, hs, hp => by
      have hrest : ∀ b ∈ acts, A b := fun b hb => hA b (List.mem_cons_of_mem _ hb)
      show Safe (exec (step s a) acts) ∧ P (exec (step s a) acts)
      rcases step_eq s a with he | ⟨hst, _, _⟩
      · rw [he]; exact exec_invariant P A hstep acts s hrest hs hp
      · have hs' := safe_step s _ a hs hst
        exact exec_invariant P A hstep acts _ hrest hs'
          (hstep s a _ (hA a (List.mem_cons_self _ _)) hs hs' hp hst)

theorem exec_safe (allRepos keywords : List GoString) (c : Store) (acts : List Action) :
    Safe (exec (init allRepos keywords c) acts) :=
  (exec_invariant (fun _ => True) (fun _ => True) (fun _ _ _ _ _ _ _ _ => trivial) acts _
    (fun _ _ => trivial) (safe_init allRepos keywords c) trivial).1

/-! ## Counting events against worker positions -/

theorem balanced_step (A B : Event → Bool) (h : WorkerPC → Nat)
    (hA : ∀ e, e.worker? = none → A e = false) (hB : ∀ e, e.worker? = none → B e = false)
    (hloc : ∀ pc e pc', nextPC pc e = some pc' →
      (if A e then 1 else 0) + h pc = (if B e then 1 else 0) + h pc')
    (s s' : State) (a : Action) (hs : Safe s) (hs' : Safe s') (hb : Balanced A B h s)
    (hst : Step s a s') : Balanced A B h s' := by
  unfold Balanced at hb ⊢
  rcases step_shape s s' a hs hst hs'.noPanic with ⟨hw, hl | ⟨e, hl, he⟩⟩ | ⟨w, e, pc', hw, _, hl, hws, hn⟩
  · rw [hw, hl]; exact hb
  · rw [hw, hl, List.countP_cons, List.countP_cons, hA e he, hB e he]
    simpa using hb
  · rw [hl, hws, List.countP_cons, List.countP_cons]
    have h1 := hloc _ _ _ hn
    have h2 := workerSum_setPC h s.workers w pc' hw
    omega

theorem balanced_exec (A B : Event → Bool) (h : WorkerPC → Nat)
    (hA : ∀ e, e.worker? = none → A e = false) (hB : ∀ e, e.worker? = none → B e = false)
    (hloc : ∀ pc e pc', nextPC pc e = some pc' →
      (if A e then 1 else 0) + h pc = (if B e then 1 else 0) + h pc')
    (hinit : workerSum h (fun w => if w < numWorkers then WorkerPC.ranging else .exited) = 0)
    (allRepos keywords : List GoString) (c : Store) (acts : List Action) :
    Balanced A B h (exec (init allRepos keywords c) acts) :=
  (exec_invariant (Balanced A B h) (fun _ => True)
    (fun s a s' _ hs hs' hb hst => balanced_step A B h hA hB hloc s s' a hs hs' hb hst) acts _
    (fun _ _ => trivial) (safe_init allRepos keywords c)
    (by unfold Balanced; simp [init, hinit])).2


/-! ## Channels: order and capacity -/

theorem flow_step (T : List SearchTask) (s s' : State) (a : Action)
    (hs' : Safe s') (hf : Flow T s) (h : Step s a s') : Flow T s' := by
  have hp' := hs'.noPanic
  obtain ⟨f1, f2, f3, f4, f5, f6⟩ := hf
  cases h
  case producePanic => simp at hp'
  case exitPanic => simp at hp'
  case sendPanic => simp at hp'
  case closePanic => simp at hp'
  case produce task rest hp hopen hroom =>
    refine ⟨?_, ?_, f3, f4, ?_, f6⟩
    · show (pulledTasks s.log).reverse ++ (s.tasks.buf ++ [task]) ++ rest = T
      rw [← f1, hp]; simp
    · show (task :: enqueuedTasks s.log).reverse ++ rest = T
      rw [← f2, hp]; simp
    · intro hw
      have := (f5 hw).1
      rw [hopen] at this
      exact absurd this (by simp)
  case closeTasks hp hopen => exact ⟨f1, f2, f3, f4, fun hw => ⟨rfl, (f5 hw).2⟩, f6⟩
  case pull w task rest hpc hbuf =>
    refine ⟨?_, f2, f3, f4, ?_, f6⟩
    · show (task :: pulledTasks s.log).reverse ++ rest ++ s.pending = T
      rw [← f1, hbuf]; simp
    · intro hw
      have := (f5 hw).2
      rw [hbuf] at this
      exact absurd this (by simp)
  case exit w hpc hbuf hclosed hwg => exact ⟨f1, f2, f3, f4, fun _ => ⟨hclosed, hbuf⟩, f6⟩
  case get => exact ⟨f1, f2, f3, f4, f5, f6⟩
  case sendHit w task count hpc hopen hroom =>
    refine ⟨f1, f2, f3, f4, f5, ?_⟩
    show s.printed ++ (s.results.buf ++ [_]) = (_ :: publishedResults s.log).reverse
    rw [List.reverse_cons, ← f6, List.append_assoc]
  case sendNew w task count hpc hopen hroom =>
    refine ⟨f1, f2, f3, f4, f5, ?_⟩
    show s.printed ++ (s.results.buf ++ [_]) = (_ :: publishedResults s.log).reverse
    rw [List.reverse_cons, ← f6, List.append_assoc]
  case token => exact ⟨f1, f2, f3, f4, f5, f6⟩
  case searchErr => exact ⟨f1, f2, f3, f4, f5, f6⟩
  case searchOk => exact ⟨f1, f2, f3, f4, f5, f6⟩
  case set => exact ⟨f1, f2, f3, f4, f5, f6⟩
  case advance => exact ⟨f1, f2, f3, f4, f5, f6⟩
  case tick => exact ⟨f1, f2, f3, f4, f5, f6⟩
  case signal => exact ⟨f1, f2, f3, f4, f5, f6⟩
  case wgWait => exact ⟨f1, f2, f3, f4, f5, f6⟩
  case closeResults => exact ⟨f1, f2, f3, f4, f5, f6⟩
  case collect r rest hbuf =>
    refine ⟨f1, f2, f3, f4, f5, ?_⟩
    show (s.printed ++ [r]) ++ rest = (publishedResults s.log).reverse
    rw [← f6, hbuf]; simp
  case finish => exact ⟨f1, f2, f3, f4, f5, f6⟩

theorem foldl_enqueue (repo : GoString) (keywords : List GoString) :
    ∀ (sent : List SearchTask),
      keywords.foldl (fun sent keyword => sent ++ [(⟨repo, keyword⟩ : SearchTask)]) sent
        = sent ++ keywords.map (fun keyword => ⟨repo, keyword⟩) := by
  induction keywords with
  | nil => intro sent; simp
  | cons k ks ih => intro sent; simp [List.foldl_cons, ih]

theorem foldl_enqueue_all (keywords : List GoString) (allRepos : List GoString) :
    ∀ (sent : List SearchTask),
      allRepos.foldl (fun sent repo =>
          keywords.foldl (fun sent keyword => sent ++ [(⟨repo, keyword⟩ : SearchTask)]) sent) sent
        = sent ++ allRepos.flatMap (fun repo => keywords.map (fun keyword => ⟨repo, keyword⟩)) := by
  induction allRepos with
  | nil => intro sent; simp
  | cons r rs ih =>
    intro sent
    rw [List.foldl_cons, ih, foldl_enqueue]
    simp

theorem enqueueOrder_eq (allRepos keywords : List GoString) :
    enqueueOrder allRepos keywords
      = allRepos.flatMap (fun repo => keywords.map (fun keyword => ⟨repo, keyword⟩)) := by
  unfold enqueueOrder
  rw [foldl_enqueue_all]; simp

theorem enqueueOrder_length (allRepos keywords : List GoString) :
    (enqueueOrder allRepos keywords).length = allRepos.length * keywords.length := by
  rw [enqueueOrder_eq]
  induction allRepos with
  | nil => simp
  | cons r rs ih =>
    simp only [List.flatMap_cons, List.length_append, List.length_map, ih, List.length_cons]
    ring

theorem flow_init (allRepos keywords : List GoString) (c : Store) :
    Flow (enqueueOrder allRepos keywords) (init allRepos keywords c) := by
  refine ⟨?_, ?_, ?_, ?_, ?_, ?_⟩
  · simp [init, pulledTasks]
  · simp [init, enqueuedTasks]
  · simp [init, enqueueOrder_length]
  · simp [init, enqueueOrder_length]
  · intro h; simp [init] at h
  · simp [init, publishedResults]

theorem exec_flow (allRepos keywords : List GoString) (c : Store) (acts : List Action) :
    Flow (enqueueOrder allRepos keywords) (exec (init allRepos keywords c) acts) :=
  (exec_invariant (Flow (enqueueOrder allRepos keywords)) (fun _ => True)
    (fun s a s' _ _ hs' hf hst => flow_step _ s s' a hs' hf hst) acts _
    (fun _ _ => trivial) (safe_init allRepos keywords c) (flow_init allRepos keywords c)).2

/-! ## Event counts per stage of the worker loop -/

theorem workerSum_init (h : WorkerPC → Nat) (h0 : h .ranging = 0) :
    workerSum h (fun w => if w < numWorkers then WorkerPC.ranging else .exited) = 0 := by
  unfold workerSum
  apply List.sum_eq_zero
  intro x hx
  simp only [List.mem_map, List.mem_range] at hx
  obtain ⟨w, hw, rfl⟩ := hx
  simp [hw, h0]

theorem pulled_balance (p : SearchTask → Bool) (allRepos keywords : List GoString) (c : Store)
    (acts : List Action) :
    Balanced (evPulled p) (evGet p) (wChecking p) (exec (init allRepos keywords c) acts) := by
  apply balanced_exec
  · intro e he; cases e <;> simp [Event.worker?] at he <;> rfl
  · intro e he; cases e <;> simp [Event.worker?] at he <;> rfl
  · intro pc e pc' h
    rcases e with _ | _ | ⟨_, _, _, (_ | _)⟩ | _ | ⟨_, _, (_ | _), _⟩ | _ | ⟨_, _, (_ | _)⟩ | _ | _ | _ <;>
      cases pc <;> simp [nextPC] at h <;>
      (try (obtain ⟨⟨h0, h1⟩, h2⟩ := h; subst h0; subst h1; subst h2)) <;>
      (try (obtain ⟨h1, h2⟩ := h; subst h1; subst h2)) <;> (try subst h) <;>
      simp [evPulled, evGet, wChecking]
  · exact workerSum_init _ rfl

theorem miss_balance (p : SearchTask → Bool) (allRepos keywords : List GoString) (c : Store)
    (acts : List Action) :
    Balanced (evMiss p) (evToken p) (wWaitToken p) (exec (init allRepos keywords c) acts) := by
  apply balanced_exec
  · intro e he; cases e <;> simp [Event.worker?] at he <;> rfl
  · intro e he; cases e <;> simp [Event.worker?] at he <;> rfl
  · intro pc e pc' h
    rcases e with _ | _ | ⟨_, _, _, (_ | _)⟩ | _ | ⟨_, _, (_ | _), _⟩ | _ | ⟨_, _, (_ | _)⟩ | _ | _ | _ <;>
      cases pc <;> simp [nextPC] at h <;>
      (try (obtain ⟨⟨h0, h1⟩, h2⟩ := h; subst h0; subst h1; subst h2)) <;>
      (try (obtain ⟨h1, h2⟩ := h; subst h1; subst h2)) <;> (try subst h) <;>
      simp [evMiss, evToken, wWaitToken]
  · exact workerSum_init _ rfl

theorem token_balance (p : SearchTask → Bool) (allRepos keywords : List GoString) (c : Store)
    (acts : List Action) :
    Balanced (evToken p) (evCall p) (wSearching p) (exec (init allRepos keywords c) acts) := by
  apply balanced_exec
  · intro e he; cases e <;> simp [Event.worker?] at he <;> rfl
  · intro e he; cases e <;> simp [Event.worker?] at he <;> rfl
  · intro pc e pc' h
    rcases e with _ | _ | ⟨_, _, _, (_ | _)⟩ | _ | ⟨_, _, (_ | _), _⟩ | _ | ⟨_, _, (_ | _)⟩ | _ | _ | _ <;>
      cases pc <;> simp [nextPC] at h <;>
      (try (obtain ⟨⟨h0, h1⟩, h2⟩ := h; subst h0; subst h1; subst h2)) <;>
      (try (obtain ⟨h1, h2⟩ := h; subst h1; subst h2)) <;> (try subst h) <;>
      simp [evToken, evCall, wSearching]
  · exact workerSum_init _ rfl

theorem resolved_balance (p : SearchTask → Bool) (allRepos keywords : List GoString) (c : Store)
    (acts : List Action) :
    Balanced (evResolved p) (evWrite p) (wCaching p) (exec (init allRepos keywords c) acts) := by
  apply balanced_exec
  · intro e he; cases e <;> simp [Event.worker?] at he <;> rfl
  · intro e he; cases e <;> simp [Event.worker?] at he <;> rfl
  · intro pc e pc' h
    rcases e with _ | _ | ⟨_, _, _, (_ | _)⟩ | _ | ⟨_, _, (_ | _), _⟩ | _ | ⟨_, _, (_ | _)⟩ | _ | _ | _ <;>
      cases pc <;> simp [nextPC] at h <;>
      (try (obtain ⟨⟨h0, h1⟩, h2⟩ := h; subst h0; subst h1; subst h2)) <;>
      (try (obtain ⟨h1, h2⟩ := h; subst h1; subst h2)) <;> (try subst h) <;>
      simp [evResolved, evWrite, wCaching]
  · exact workerSum_init _ rfl

theorem hit_balance (p : SearchTask → Bool) (allRepos keywords : List GoString) (c : Store)
    (acts : List Action) :
    Balanced (evHit p) (evPubCached p) (wSendHit p) (exec (init allRepos keywords c) acts) := by
  apply balanced_exec
  · intro e he; cases e <;> simp [Event.worker?] at he <;> rfl
  · intro e he; cases e <;> simp [Event.worker?] at he <;> rfl
  · intro pc e pc' h
    rcases e with _ | _ | ⟨_, _, _, (_ | _)⟩ | _ | ⟨_, _, (_ | _), _⟩ | _ | ⟨_, _, (_ | _)⟩ | _ | _ | _ <;>
      cases pc <;> simp [nextPC] at h <;>
      (try (obtain ⟨⟨h0, h1⟩, h2⟩ := h; subst h0; subst h1; subst h2)) <;>
      (try (obtain ⟨h1, h2⟩ := h; subst h1; subst h2)) <;> (try subst h) <;>
      simp [evHit, evPubCached, wSendHit, unitOf]
  · exact workerSum_init _ rfl

theorem write_balance (p : SearchTask → Bool) (allRepos keywords : List GoString) (c : Store)
    (acts : List Action) :
    Balanced (evWrite p) (evPubFresh p) (wSendNew p) (exec (init allRepos keywords c) acts) := by
  apply balanced_exec
  · intro e he; cases e <;> simp [Event.worker?] at he <;> rfl
  · intro e he; cases e <;> simp [Event.worker?] at he <;> rfl
  · intro pc e pc' h
    rcases e with _ | _ | ⟨_, _, _, (_ | _)⟩ | _ | ⟨_, _, (_ | _), _⟩ | _ | ⟨_, _, (_ | _)⟩ | _ | _ | _ <;>
      cases pc <;> simp [nextPC] at h <;>
      (try (obtain ⟨⟨h0, h1⟩, h2⟩ := h; subst h0; subst h1; subst h2)) <;>
      (try (obtain ⟨h1, h2⟩ := h; subst h1; subst h2)) <;> (try subst h) <;>
      simp [evWrite, evPubFresh, wSendNew, unitOf]
  · exact workerSum_init _ rfl

theorem countP_split (P Q R : Event → Bool)
    (h : ∀ e, (if P e then 1 else 0) = (if Q e then 1 else 0) + (if R e then 1 else 0)) :
    ∀ log : List Event, log.countP P = log.countP Q + log.countP R
  | [] => rfl
  | e :: log => by
      rw [List.countP_cons, List.countP_cons, List.countP_cons, countP_split P Q R h log]
      have := h e
      omega

theorem get_split (p : SearchTask → Bool) (log : List Event) :
    log.countP (evGet p) = log.countP (evHit p) + log.countP (evMiss p) := by
  apply countP_split
  intro e
  rcases e with _ | _ | ⟨_, _, _, (_ | _)⟩ | _ | _ | _ | _ | _ | _ | _ <;>
    simp [evGet, evHit, evMiss]

theorem call_split (p : SearchTask → Bool) (log : List Event) :
    log.countP (evCall p) = log.countP (evResolved p) + log.countP (evFailed p) := by
  apply countP_split
  intro e
  rcases e with _ | _ | _ | _ | ⟨_, _, (_ | _), _⟩ | _ | _ | _ | _ | _ <;>
    simp [evCall, evResolved, evFailed]

theorem published_split (p : SearchTask → Bool) (log : List Event) :
    log.countP (evPublished p) = log.countP (evPubCached p) + log.countP (evPubFresh p) := by
  apply countP_split
  intro e
  rcases e with _ | _ | _ | _ | _ | _ | ⟨_, _, (_ | _)⟩ | _ | _ | _ <;>
    simp [evPublished, evPubCached, evPubFresh]

theorem countP_pulledTasks (p : SearchTask → Bool) :
    ∀ log : List Event, (pulledTasks log).countP p = log.countP (evPulled p)
  | [] => rfl
  | e :: log => by
      have ih := countP_pulledTasks p log
      cases e <;> simp [pulledTasks, evPulled, List.filterMap_cons, List.countP_cons] at ih ⊢ <;>
        omega

theorem length_publishedResults :
    ∀ log : List Event, (publishedResults log).length = log.countP (evPublished (fun _ => true))
  | [] => rfl
  | e :: log => by
      have ih := length_publishedResults log
      cases e <;> simp [publishedResults, evPublished, List.filterMap_cons, List.countP_cons] at ih ⊢ <;>
        omega

theorem all_exited_of_wg (s : State) (hs : Safe s) (h : s.wg = 0) (w : Nat) :
    s.workers w = .exited := by
  by_cases hw : w < numWorkers
  · have := workerSum_ge alive s.workers w hw
    rw [← hs.wgCount, h] at this
    by_contra hne
    simp [alive, hne] at this
  · exact hs.outside w (Nat.le_of_not_lt hw)

theorem workerSum_zero (h : WorkerPC → Nat) (f : Nat → WorkerPC) (h0 : h .exited = 0)
    (hall : ∀ w, w < numWorkers → f w = .exited) : workerSum h f = 0 := by
  unfold workerSum
  apply List.sum_eq_zero
  intro x hx
  simp only [List.mem_map, List.mem_range] at hx
  obtain ⟨w, hw, rfl⟩ := hx
  rw [hall w hw, h0]

/-! ## Task generation -/

theorem running_of_open (s : State) (T : List SearchTask) (hs : Safe s) (hf : Flow T s)
    (h : s.tasks.closed = false) : s.mainDone = false ∧ s.panicked = false := by
  refine ⟨?_, hs.noPanic⟩
  cases hm : s.mainDone with
  | false => rfl
  | true =>
    have hwg : s.wg = 0 := hs.drained (.inr (hs.closedDone.mp (hs.mainClosed hm)))
    have := (hf.exitedClosed (by rw [hwg]; decide)).1
    rw [h] at this
    exact absurd this (by simp)

/-- C5: the producer enqueues exactly the cross product of repositories and keywords, in
repository-major order, and then closes the task stream; the number of units is
`len(allRepos) * len(keywords)`, which is the capacity of the task queue and of the result
queue, so whenever the producer has a unit left to enqueue the task queue has room and the
enqueue goes through. -/
theorem producer_enqueues_cross_product (allRepos keywords : List GoString) (c : Store)
    (acts : List Action) :
    let s := exec (init allRepos keywords c) acts
    enqueueOrder allRepos keywords
        = allRepos.flatMap (fun repo => keywords.map (fun keyword => ⟨repo, keyword⟩)) ∧
      (enqueueOrder allRepos keywords).length = allRepos.length * keywords.length ∧
      s.tasks.cap = allRepos.length * keywords.length ∧
      s.results.cap = allRepos.length * keywords.length ∧
      (enqueuedTasks s.log).reverse ++ s.pending = enqueueOrder allRepos keywords ∧
      (∀ task rest, s.pending = task :: rest →
        s.tasks.buf.length < s.tasks.cap ∧
          step? s .produce
            = some { s with
                tasks := { s.tasks with buf := s.tasks.buf ++ [task] }
                pending := rest
                log := .enqueued task :: s.log }) ∧
      (s.tasks.closed = true →
        s.pending = [] ∧ (enqueuedTasks s.log).reverse = enqueueOrder allRepos keywords) ∧
      (s.pending = [] → s.tasks.closed = false →
        step? s .closeTasks = some { s with tasks := { s.tasks with closed := true } }) := by
  intro s
  have hs : Safe s := exec_safe allRepos keywords c acts
  have hf : Flow _ s := exec_flow allRepos keywords c acts
  clear_value s
  refine ⟨enqueueOrder_eq _ _, enqueueOrder_length _ _, ?_, ?_, hf.sent, ?_, ?_, ?_⟩
  · rw [hf.capT, enqueueOrder_length]
  · rw [hf.capR, enqueueOrder_length]
  · intro task rest hp
    have hopen : s.tasks.closed = false := by
      cases hc : s.tasks.closed with
      | false => rfl
      | true => have := hs.closedPending hc; rw [hp] at this; exact absurd this (by simp)
    have hroom : s.tasks.buf.length < s.tasks.cap := by
      have := congrArg List.length hf.fifo
      rw [hp] at this
      simp only [List.length_append, List.length_cons, List.length_reverse] at this
      rw [hf.capT]; omega
    obtain ⟨hm, hpn⟩ := running_of_open s _ hs hf hopen
    refine ⟨hroom, ?_⟩
    simp [step?, hm, hpn, hp, hopen, hroom]
  · intro hc
    have hp := hs.closedPending hc
    refine ⟨hp, ?_⟩
    have := hf.sent
    rw [hp, List.append_nil] at this
    exact this
  · intro hp hopen
    obtain ⟨hm, hpn⟩ := running_of_open s _ hs hf hopen
    simp [step?, hm, hpn, hp, hopen]

/-! ## Shutdown -/

theorem nextPC_exited (e : Event) : nextPC .exited e = none := by
  cases e <;> rfl

theorem shutdown_step (s s' : State) (a : Action) (hs : Safe s) (hs' : Safe s')
    (hd : Shutdown s) (h : Step s a s') : Shutdown s' := by
  have hp' := hs'.noPanic
  obtain ⟨d1, d2, d3⟩ := hd
  refine ⟨?_, ?_, ?_⟩
  · cases h
    case producePanic => simp at hp'
    case exitPanic => simp at hp'
    case sendPanic => simp at hp'
    case closePanic => simp at hp'
    case signal hc => intro _; exact List.mem_cons_self _ _
    case wgWait hc hwg =>
      intro _; exact d1 (by rw [hc]; simp)
    case closeResults hc hopen =>
      intro _; exact List.mem_cons_of_mem _ (d1 (by rw [hc]; simp))
    all_goals first
      | exact d1
      | exact fun hne => List.mem_cons_of_mem _ (d1 hne)
  · cases h
    case producePanic => simp at hp'
    case exitPanic => simp at hp'
    case sendPanic => simp at hp'
    case closePanic => simp at hp'
    case closeResults hc hopen => intro _; rfl
    all_goals first
      | exact d2
      | (intro hm
         rcases List.mem_cons.mp hm with he | hm
         · exact absurd he (by simp)
         · exact d2 hm)
  · intro post pre hlog e he
    rcases step_shape s s' a hs h hp' with ⟨_, hl | ⟨e0, hl, he0⟩⟩ | ⟨w, e0, pc', _, _, hl, _, hn⟩
    · rw [hl] at hlog; exact d3 post pre hlog e he
    · rw [hl] at hlog
      cases post with
      | nil => simp at he
      | cons x post' =>
        simp only [List.cons_append, List.cons.injEq] at hlog
        rcases List.mem_cons.mp he with hx | hx
        · rw [hx, ← hlog.1]; exact he0
        · exact d3 post' pre hlog.2 e hx
    · exfalso
      rw [hl] at hlog
      have hmem : Event.resultsClosed ∈ s.log := by
        cases post with
        | nil => simp at he
        | cons x post' =>
          simp only [List.cons_append, List.cons.injEq] at hlog
          rw [hlog.2]; simp
      have hwg : s.wg = 0 := hs.drained (.inr (hs.closedDone.mp (d2 hmem)))
      rw [all_exited_of_wg s hs hwg w, nextPC_exited] at hn
      simp at hn

theorem shutdown_init (allRepos keywords : List GoString) (c : Store) :
    Shutdown (init allRepos keywords c) := by
  refine ⟨?_, ?_, ?_⟩
  · intro h; simp [init] at h
  · intro h; simp [init] at h
  · intro post pre h; simp [init] at h

theorem exec_shutdown (allRepos keywords : List GoString) (c : Store) (acts : List Action) :
    Shutdown (exec (init allRepos keywords c) acts) :=
  (exec_invariant Shutdown (fun _ => True)
    (fun s a s' _ hs hs' hd hst => shutdown_step s s' a hs hs' hd hst) acts _
    (fun _ _ => trivial) (safe_init allRepos keywords c) (shutdown_init allRepos keywords c)).2

theorem step_closes (s : State) (a : Action) (h : (step s a).results.closed = true) :
    s.results.closed = true ∨ (a = .closeResults ∧ s.coordinator = .closing) := by
  rcases step_eq s a with he | ⟨hst, _, _⟩
  · rw [he] at h; exact .inl h
  · generalize step s a = s' at h hst
    cases hst
    case closeResults hc hopen => exact .inr ⟨rfl, hc⟩
    all_goals exact .inl h

theorem drained_counts (p : SearchTask → Bool) (allRepos keywords : List GoString) (c : Store)
    (acts : List Action)
    (hall : ∀ w, w < numWorkers → (exec (init allRepos keywords c) acts).workers w = .exited) :
    (exec (init allRepos keywords c) acts).log.countP (evPulled p)
      = (exec (init allRepos keywords c) acts).log.countP (evPublished p)
        + (exec (init allRepos keywords c) acts).log.countP (evFailed p) := by
  have b1 := pulled_balance p allRepos keywords c acts
  have b2 := miss_balance p allRepos keywords c acts
  have b3 := token_balance p allRepos keywords c acts
  have b4 := resolved_balance p allRepos keywords c acts
  have b5 := hit_balance p allRepos keywords c acts
  have b6 := write_balance p allRepos keywords c acts
  unfold Balanced at b1 b2 b3 b4 b5 b6
  rw [workerSum_zero _ _ rfl hall] at b1 b2 b3 b4 b5 b6
  have s1 := get_split p (exec (init allRepos keywords c) acts).log
  have s2 := call_split p (exec (init allRepos keywords c) acts).log
  have s3 := published_split p (exec (init allRepos keywords c) acts).log
  omega

/-- C7: the result stream is closed only by the shutdown coordinator's close step, which is
reached only after the interrupt signal was received and every worker has exited; so whenever
the result stream is closed every unit that a worker pulled has produced its Result or its
Failed outcome, no worker event follows the close, and no send on a closed stream (which would
panic) ever happens. -/
theorem results_closed_only_after_drain (allRepos keywords : List GoString) (c : Store)
    (acts : List Action) (a : Action) (p : SearchTask → Bool) :
    let s := exec (init allRepos keywords c) acts
    s.panicked = false ∧
      ((step s a).results.closed = true →
        s.results.closed = true ∨ (a = .closeResults ∧ s.coordinator = .closing)) ∧
      (s.coordinator = .closing →
        Event.signal ∈ s.log ∧ s.wg = 0 ∧ ∀ w, s.workers w = .exited) ∧
      (s.results.closed = true →
        s.coordinator = .done ∧ Event.signal ∈ s.log ∧ s.wg = 0 ∧
          (∀ w, s.workers w = .exited) ∧
          s.log.countP (evPulled p)
            = s.log.countP (evPublished p) + s.log.countP (evFailed p)) ∧
      (∀ post pre, s.log = post ++ Event.resultsClosed :: pre →
        ∀ e ∈ post, e.worker? = none) ∧
      (∀ w, (step s (.send w)).panicked = false ∧
        (s.results.closed = true → step? s (.send w) = none)) := by
  intro s
  have hs : Safe s := exec_safe allRepos keywords c acts
  have hd : Shutdown s := exec_shutdown allRepos keywords c acts
  refine ⟨hs.noPanic, step_closes s a, ?_, ?_, hd.quiet, ?_⟩
  · intro hc
    have hwg := hs.drained (.inl hc)
    exact ⟨hd.signalled (by rw [hc]; simp), hwg, all_exited_of_wg s hs hwg⟩
  · intro hc
    have hdone := hs.closedDone.mp hc
    have hwg := hs.drained (.inr hdone)
    exact ⟨hdone, hd.signalled (by rw [hdone]; simp), hwg, all_exited_of_wg s hs hwg,
      drained_counts p allRepos keywords c acts (fun w _ => all_exited_of_wg s hs hwg w)⟩
  · intro w
    refine ⟨?_, ?_⟩
    · rcases step_eq s (.send w) with he | ⟨hst, _, _⟩
      · rw [he]; exact hs.noPanic
      · exact (safe_step s _ _ hs hst).noPanic
    · intro hc
      have hwg := hs.drained (.inr (hs.closedDone.mp hc))
      simp [step?, all_exited_of_wg s hs hwg w]

/-! ## Worker histories -/

theorem eventsOf_cons_self (w : Nat) (e : Event) (log : List Event) (h : e.worker? = some w) :
    eventsOf w (e :: log) = e :: eventsOf w log := by
  simp [eventsOf, List.filter_cons, h]

theorem eventsOf_cons_other (w : Nat) (e : Event) (log : List Event) (h : e.worker? ≠ some w) :
    eventsOf w (e :: log) = eventsOf w log := by
  simp [eventsOf, List.filter_cons, h]

theorem mem_eventsOf (w : Nat) (e : Event) (log : List Event) (h : e ∈ eventsOf w log) :
    e.worker? = some w := by
  simpa using (List.mem_filter.mp h).2

theorem hist_step (s s' : State) (a : Action) (hs : Safe s) (hs' : Safe s')
    (hh : ∀ w, w < numWorkers → histPC (eventsOf w s.log) = some (s.workers w))
    (h : Step s a s') :
    ∀ w, w < numWorkers → histPC (eventsOf w s'.log) = some (s'.workers w) := by
  intro w hw
  rcases step_shape s s' a hs h hs'.noPanic with
    ⟨hws, hl | ⟨e, hl, he⟩⟩ | ⟨w0, e, pc', _, he, hl, hws, hn⟩
  · rw [hws, hl]; exact hh w hw
  · rw [hws, hl, eventsOf_cons_other w e _ (by rw [he]; simp)]; exact hh w hw
  · rw [hws, hl]
    by_cases hw0 : w = w0
    · subst hw0
      rw [eventsOf_cons_self w e _ he]
      simp [histPC, hh w hw, hn, setPC]
    · rw [eventsOf_cons_other w e _ (by rw [he]; simpa using fun h => hw0 h.symm)]
      simp [setPC, hw0, hh w hw]

theorem exec_hist (allRepos keywords : List GoString) (c : Store) (acts : List Action) :
    ∀ w, w < numWorkers →
      histPC (eventsOf w (exec (init allRepos keywords c) acts).log)
        = some ((exec (init allRepos keywords c) acts).workers w) :=
  (exec_invariant
    (fun s => ∀ w, w < numWorkers → histPC (eventsOf w s.log) = some (s.workers w))
    (fun _ => True)
    (fun s a s' _ hs hs' hh hst => hist_step s s' a hs hs' hh hst) acts _
    (fun _ _ => trivial) (safe_init allRepos keywords c)
    (by intro w hw; simp [init, eventsOf, histPC, hw])).2

theorem histPC_cons (e : Event) (l : List Event) (pc : WorkerPC) :
    histPC (e :: l) = some pc ↔ ∃ pc0, histPC l = some pc0 ∧ nextPC pc0 e = some pc := by
  simp [histPC, Option.bind_eq_some]

theorem histPC_append (post l : List Event) :
    ∀ pc, histPC (post ++ l) = some pc → ∃ pc0, histPC l = some pc0 := by
  induction post with
  | nil => intro pc h; exact ⟨pc, h⟩
  | cons e post ih =>
    intro pc h
    rw [List.cons_append, histPC_cons] at h
    obtain ⟨pc0, h0, _⟩ := h
    exact ih pc0 h0

theorem histPC_snoc (post : List Event) (e : Event) (l : List Event) (pc0 : WorkerPC)
    (h0 : histPC l = some pc0) :
    ∀ pc, histPC (post ++ e :: l) = some pc → ∃ pc1, nextPC pc0 e = some pc1 := by
  intro pc h
  obtain ⟨pc1, h1⟩ := histPC_append post (e :: l) pc h
  rw [histPC_cons] at h1
  obtain ⟨pc0', h0', hn⟩ := h1
  rw [h0] at h0'
  cases h0'
  exact ⟨pc1, hn⟩

theorem results_room (allRepos keywords : List GoString) (c : Store) (acts : List Action)
    (w : Nat)
    (hpc : (∃ task count, (exec (init allRepos keywords c) acts).workers w = .sendHit task count)
      ∨ ∃ task count, (exec (init allRepos keywords c) acts).workers w = .sendNew task count) :
    (exec (init allRepos keywords c) acts).mainDone = false ∧
      (exec (init allRepos keywords c) acts).panicked = false ∧
      (exec (init allRepos keywords c) acts).results.closed = false ∧
      (exec (init allRepos keywords c) acts).results.buf.length
        < (exec (init allRepos keywords c) acts).results.cap := by
  have b1 := pulled_balance (fun _ => true) allRepos keywords c acts
  have b2 := miss_balance (fun _ => true) allRepos keywords c acts
  have b3 := token_balance (fun _ => true) allRepos keywords c acts
  have b4 := resolved_balance (fun _ => true) allRepos keywords c acts
  have b5 := hit_balance (fun _ => true) allRepos keywords c acts
  have b6 := write_balance (fun _ => true) allRepos keywords c acts
  have s1 := get_split (fun _ => true) (exec (init allRepos keywords c) acts).log
  have s2 := call_split (fun _ => true) (exec (init allRepos keywords c) acts).log
  have s3 := published_split (fun _ => true) (exec (init allRepos keywords c) acts).log
  have hs : Safe _ := exec_safe allRepos keywords c acts
  have hf : Flow _ _ := exec_flow allRepos keywords c acts
  have hlen := length_publishedResults (exec (init allRepos keywords c) acts).log
  have hpl := countP_pulledTasks (fun _ => true) (exec (init allRepos keywords c) acts).log
  unfold Balanced at b1 b2 b3 b4 b5 b6
  generalize exec (init allRepos keywords c) acts = s at *
  have hne : s.workers w ≠ .exited := by
    rcases hpc with ⟨t, n, h⟩ | ⟨t, n, h⟩ <;> simp [h]
  have hw : w < numWorkers := acting_lt s hs w hne
  have hopen : s.results.closed = false := by
    cases hc : s.results.closed with
    | false => rfl
    | true =>
      have hwg := hs.drained (.inr (hs.closedDone.mp hc))
      exact absurd (all_exited_of_wg s hs hwg w) hne
  have hmain : s.mainDone = false := by
    cases hm : s.mainDone with
    | false => rfl
    | true => have := hs.mainClosed hm; rw [hopen] at this; exact absurd this (by simp)
  refine ⟨hmain, hs.noPanic, hopen, ?_⟩
  have g1 := workerSum_ge (wSendHit (fun _ => true)) s.workers w hw
  have g2 := workerSum_ge (wSendNew (fun _ => true)) s.workers w hw
  have hsome : 1 ≤ wSendHit (fun _ => true) (s.workers w) + wSendNew (fun _ => true) (s.workers w) := by
    rcases hpc with ⟨t, n, h⟩ | ⟨t, n, h⟩ <;> simp [h, wSendHit, wSendNew]
  have hfifo := congrArg List.length hf.fifo
  have hout := congrArg List.length hf.outbox
  simp only [List.length_append, List.length_reverse] at hfifo hout
  rw [List.countP_true] at hpl
  rw [hf.capR]
  omega

/-! ## Cache-hit path -/

theorem nextPC_into_checking (pc0 : WorkerPC) (e : Event) (task : SearchTask)
    (h : nextPC pc0 e = some (.checking task)) : ∃ w0, e = .pulled w0 task := by
  rcases e with _ | _ | ⟨_, _, _, (_ | _)⟩ | _ | ⟨_, _, (_ | _), _⟩ | _ | ⟨_, _, (_ | _)⟩ | _ | _ | _ <;>
    cases pc0 <;> simp [nextPC] at h
  exact ⟨_, by rw [h]⟩

theorem nextPC_of_hit (pc0 pc1 : WorkerPC) (w : Nat) (task : SearchTask) (count : Int)
    (h : nextPC pc0 (.cacheGet w task count true) = some pc1) :
    pc0 = .checking task ∧ pc1 = .sendHit task count := by
  cases pc0 <;> simp [nextPC] at h
  obtain ⟨h1, h2⟩ := h
  subst h1
  exact ⟨rfl, h2.symm⟩

theorem nextPC_from_sendHit (e : Event) (task : SearchTask) (count : Int) (pc : WorkerPC)
    (h : nextPC (.sendHit task count) e = some pc) :
    ∃ w0, e = .published w0 ⟨task.Repo, task.Keyword, count⟩ false := by
  rcases e with _ | _ | ⟨_, _, _, (_ | _)⟩ | _ | ⟨_, _, (_ | _), _⟩ | _ | ⟨_, _, (_ | _)⟩ | _ | _ | _ <;>
    simp [nextPC] at h
  exact ⟨_, by rw [h.1]⟩

theorem nextPC_from_ranging (e : Event) (pc : WorkerPC) (h : nextPC .ranging e = some pc) :
    (∃ w0, e = .workerExit w0) ∨ ∃ w0 t, e = .pulled w0 t := by
  rcases e with _ | _ | ⟨_, _, _, (_ | _)⟩ | _ | ⟨_, _, (_ | _), _⟩ | _ | ⟨_, _, (_ | _)⟩ | _ | _ | _ <;>
    simp [nextPC] at h
  · exact .inr ⟨_, _, rfl⟩
  · exact .inl ⟨_, rfl⟩

theorem outside_step (s s' : State) (a : Action) (hs : Safe s) (hs' : Safe s') (w : Nat)
    (hw : numWorkers ≤ w) (hh : eventsOf w s.log = []) (h : Step s a s') :
    eventsOf w s'.log = [] := by
  rcases step_shape s s' a hs h hs'.noPanic with
    ⟨_, hl | ⟨e, hl, he⟩⟩ | ⟨w0, e, pc', hw0, he, hl, _, _⟩
  · rw [hl]; exact hh
  · rw [hl, eventsOf_cons_other w e _ (by rw [he]; simp)]; exact hh
  · rw [hl, eventsOf_cons_other w e _ (by rw [he]; simp; omega)]; exact hh

theorem exec_outside (allRepos keywords : List GoString) (c : Store) (acts : List Action)
    (w : Nat) (hw : numWorkers ≤ w) :
    eventsOf w (exec (init allRepos keywords c) acts).log = [] :=
  (exec_invariant (fun s => eventsOf w s.log = []) (fun _ => True)
    (fun s a s' _ hs hs' hh hst => outside_step s s' a hs hs' w hw hh hst) acts _
    (fun _ _ => trivial) (safe_init allRepos keywords c) (by simp [init, eventsOf])).2

/-- C1: cache-hit path of the worker. Whenever worker `w` holds unit `task` and `Get` on the
key "repo:keyword" returns `(count, true)`, the worker goes straight to publishing: it moves
to the send of `Result (repo, keyword, count)` with the cache, the limiter and the result
queue untouched; at that point the send is enabled and is the only step the worker can take
(no token, no remote call, no cache write); and in the worker's history a hit is preceded by
the pull of that unit and followed by exactly that one Result, after which the worker pulls
its next unit or exits. -/
theorem worker_cache_hit (allRepos keywords : List GoString) (c : Store) (acts : List Action)
    (w : Nat) (task : SearchTask) (count : Int) :
    let s := exec (init allRepos keywords c) acts
    (∀ fault, s.workers w = .checking task →
        Cache.Get s.store fault (cacheKey task) = (count, true) →
        step? s (.get w fault) = some { s with
          workers := setPC s.workers w (.sendHit task count)
          log := .cacheGet w task count true :: s.log }) ∧
      (s.workers w = .sendHit task count →
        step? s (.send w) = some { s with
            results := { s.results with
              buf := s.results.buf ++ [⟨task.Repo, task.Keyword, count⟩] }
            workers := setPC s.workers w .ranging
            log := .published w ⟨task.Repo, task.Keyword, count⟩ false :: s.log } ∧
          ∀ a, a.worker? = some w → a ≠ .send w → step? s a = none) ∧
      (∀ post pre, eventsOf w s.log = post ++ Event.cacheGet w task count true :: pre →
        (∃ pre', pre = Event.pulled w task :: pre') ∧
          (post = [] ∨
            ∃ post', post = post' ++ [Event.published w ⟨task.Repo, task.Keyword, count⟩ false] ∧
              (post' = [] ∨ ∃ post'' e, post' = post'' ++ [e] ∧
                (e = Event.workerExit w ∨ ∃ t, e = Event.pulled w t)))) := by
  intro s
  have hs : Safe s := exec_safe allRepos keywords c acts
  have hh : ∀ w, w < numWorkers → histPC (eventsOf w s.log) = some (s.workers w) :=
    exec_hist allRepos keywords c acts
  have hroom : ((∃ task count, s.workers w = .sendHit task count)
      ∨ ∃ task count, s.workers w = .sendNew task count) →
      s.mainDone = false ∧ s.panicked = false ∧ s.results.closed = false ∧
        s.results.buf.length < s.results.cap := results_room allRepos keywords c acts w
  have hnone : numWorkers ≤ w → eventsOf w s.log = [] := exec_outside allRepos keywords c acts w
  clear_value s
  refine ⟨?_, ?_, ?_⟩
  · intro fault hpc hget
    have hm : s.mainDone = false := by
      cases hm : s.mainDone with
      | false => rfl
      | true =>
        have hwg := hs.drained (.inr (hs.closedDone.mp (hs.mainClosed hm)))
        have := all_exited_of_wg s hs hwg w
        rw [hpc] at this
        exact absurd this (by simp)
    simp [step?, hm, hs.noPanic, hpc, hget]
  · intro hpc
    obtain ⟨hm, hp, hopen, hr⟩ := hroom (.inl ⟨task, count, hpc⟩)
    refine ⟨by simp [step?, hm, hp, hpc, sendResult, hopen, hr], ?_⟩
    intro a ha hne
    cases a <;> simp [Action.worker?] at ha <;> subst ha <;> simp [step?, hm, hp, hpc]
    exact absurd rfl hne
  · intro post pre hev
    by_cases hw : w < numWorkers
    · have hall := hh w hw
      rw [hev] at hall
      obtain ⟨pc1, h1⟩ := histPC_append post _ _ hall
      rw [histPC_cons] at h1
      obtain ⟨pc0, h0, hn⟩ := h1
      obtain ⟨rfl, rfl⟩ := nextPC_of_hit pc0 pc1 w task count hn
      have hmem : ∀ e, e ∈ post ++ Event.cacheGet w task count true :: pre → e.worker? = some w :=
        fun e he => mem_eventsOf w e s.log (hev ▸ he)
      constructor
      · cases pre with
        | nil => simp [histPC] at h0
        | cons e0 pre' =>
          rw [histPC_cons] at h0
          obtain ⟨pc00, _, hn0⟩ := h0
          obtain ⟨w0, rfl⟩ := nextPC_into_checking pc00 e0 task hn0
          have := hmem (Event.pulled w0 task) (by simp)
          simp [Event.worker?] at this
          subst this
          exact ⟨pre', rfl⟩
      · rcases List.eq_nil_or_concat post with hnil | ⟨post', e1, hcat⟩
        · exact .inl hnil
        · right
          rw [List.concat_eq_append] at hcat
          subst hcat
          have hget1 : histPC (Event.cacheGet w task count true :: pre)
              = some (.sendHit task count) := by
            rw [histPC_cons]; exact ⟨_, h0, hn⟩
          rw [List.append_assoc, List.singleton_append] at hall
          obtain ⟨pc2, hn2⟩ := histPC_snoc post' e1 _ _ hget1 _ hall
          obtain ⟨w1, rfl⟩ := nextPC_from_sendHit e1 task count pc2 hn2
          have := hmem (Event.published w1 ⟨task.Repo, task.Keyword, count⟩ false) (by simp)
          simp [Event.worker?] at this
          subst this
          refine ⟨post', rfl, ?_⟩
          rcases List.eq_nil_or_concat post' with hnil | ⟨post'', e2, hcat⟩
          · exact .inl hnil
          · right
            rw [List.concat_eq_append] at hcat
            subst hcat
            have hpub : histPC (Event.published w1 ⟨task.Repo, task.Keyword, count⟩ false ::
                Event.cacheGet w1 task count true :: pre) = some .ranging := by
              rw [histPC_cons]; exact ⟨_, hget1, by simp [nextPC]⟩
            rw [List.append_assoc, List.singleton_append] at hall
            obtain ⟨pc3, hn3⟩ := histPC_snoc post'' e2 _ _ hpub _ hall
            refine ⟨post'', e2, rfl, ?_⟩
            have hw2 := hmem e2 (by simp)
            rcases nextPC_from_ranging e2 pc3 hn3 with ⟨w2, rfl⟩ | ⟨w2, t, rfl⟩
            · simp [Event.worker?] at hw2; subst hw2; exact .inl rfl
            · simp [Event.worker?] at hw2; subst hw2; exact .inr ⟨t, rfl⟩
    · exfalso
      rw [hnone (Nat.le_of_not_lt hw)] at hev
      simp at hev

/-! ## Per-unit outcomes -/

theorem pulled_le (p : SearchTask → Bool) (allRepos keywords : List GoString) (c : Store)
    (acts : List Action) :
    (exec (init allRepos keywords c) acts).log.countP (evPulled p)
      ≤ (enqueueOrder allRepos keywords).countP p := by
  have hf : Flow _ _ := exec_flow allRepos keywords c acts
  rw [← countP_pulledTasks, ← hf.fifo]
  simp only [List.countP_append, List.countP_reverse]
  omega

theorem pulled_all (p : SearchTask → Bool) (allRepos keywords : List GoString) (c : Store)
    (acts : List Action)
    (hall : ∀ w, w < numWorkers → (exec (init allRepos keywords c) acts).workers w = .exited) :
    (exec (init allRepos keywords c) acts).log.countP (evPulled p)
      = (enqueueOrder allRepos keywords).countP p := by
  have hf : Flow _ _ := exec_flow allRepos keywords c acts
  have hs : Safe _ := exec_safe allRepos keywords c acts
  have hwg : (exec (init allRepos keywords c) acts).wg = 0 := by
    rw [hs.wgCount]; exact workerSum_zero _ _ rfl hall
  obtain ⟨hc, hb⟩ := hf.exitedClosed (by rw [hwg]; decide)
  have hp := hs.closedPending hc
  rw [← countP_pulledTasks, ← hf.fifo, hb, hp]
  simp [List.countP_reverse]

/-- C3 (counterexample): with the keyword "foo" listed twice, the unit ("org/a", "foo") is
enqueued twice and a complete run publishes two Results for that one pair. -/
theorem duplicate_unit_two_results :
    (∀ w, w < numWorkers →
      (exec (init [str "org/a"] [str "foo", str "foo"] (fun _ => none))
        [.produce, .produce, .closeTasks, .pull 0, .get 0 false, .advance 6000000000, .tick,
          .token 0, .search 0 (some 3), .set 0 false, .send 0, .pull 1, .get 1 false, .send 1,
          .exit 0, .exit 1, .exit 2, .exit 3, .exit 4, .exit 5, .exit 6, .exit 7, .exit 8,
          .exit 9]).workers w = .exited) ∧
      (exec (init [str "org/a"] [str "foo", str "foo"] (fun _ => none))
        [.produce, .produce, .closeTasks, .pull 0, .get 0 false, .advance 6000000000, .tick,
          .token 0, .search 0 (some 3), .set 0 false, .send 0, .pull 1, .get 1 false, .send 1,
          .exit 0, .exit 1, .exit 2, .exit 3, .exit 4, .exit 5, .exit 6, .exit 7, .exit 8,
          .exit 9]).log.countP
        (evPublished (fun task => decide (task = ⟨str "org/a", str "foo"⟩))) = 2 := by
  decide

/-- C3 (amended): in a run that has completed (every worker has exited), a unit that was
enqueued once ends in exactly one of the three outcomes: a cache hit with one Result and no
token, remote call or cache write; a successful remote call with one token, one cache write
and one Result; or a failed remote call with one token, no cache write, no Result and no second
call. In every state of every run such a unit has at most one Result and at most one remote
call. -/
theorem unit_outcome_exactly_once (allRepos keywords : List GoString) (c : Store)
    (acts : List Action) (u : SearchTask)
    (hone : (enqueueOrder allRepos keywords).countP (fun task => decide (task = u)) = 1) :
    let s := exec (init allRepos keywords c) acts
    let n := fun (ev : (SearchTask → Bool) → Event → Bool) =>
      s.log.countP (ev (fun task => decide (task = u)))
    n evPublished ≤ 1 ∧ n evCall ≤ 1 ∧ n evWrite ≤ n evResolved ∧
      n evPublished ≤ n evHit + n evResolved ∧ n evHit + n evCall ≤ 1 ∧
      ((∀ w, w < numWorkers → s.workers w = .exited) →
        (n evHit = 1 ∧ n evResolved = 0 ∧ n evFailed = 0 ∧ n evPublished = 1 ∧
            n evToken = 0 ∧ n evCall = 0 ∧ n evWrite = 0) ∨
          (n evHit = 0 ∧ n evResolved = 1 ∧ n evFailed = 0 ∧ n evPublished = 1 ∧
            n evToken = 1 ∧ n evCall = 1 ∧ n evWrite = 1) ∨
          (n evHit = 0 ∧ n evResolved = 0 ∧ n evFailed = 1 ∧ n evPublished = 0 ∧
            n evToken = 1 ∧ n evCall = 1 ∧ n evWrite = 0)) := by
  intro s n
  simp only [n]
  clear n
  have b1 : Balanced _ _ _ s := pulled_balance (fun task => decide (task = u)) allRepos keywords c acts
  have b2 : Balanced _ _ _ s := miss_balance (fun task => decide (task = u)) allRepos keywords c acts
  have b3 : Balanced _ _ _ s := token_balance (fun task => decide (task = u)) allRepos keywords c acts
  have b4 : Balanced _ _ _ s :=
    resolved_balance (fun task => decide (task = u)) allRepos keywords c acts
  have b5 : Balanced _ _ _ s := hit_balance (fun task => decide (task = u)) allRepos keywords c acts
  have b6 : Balanced _ _ _ s := write_balance (fun task => decide (task = u)) allRepos keywords c acts
  have s1 := get_split (fun task => decide (task = u)) s.log
  have s2 := call_split (fun task => decide (task = u)) s.log
  have s3 := published_split (fun task => decide (task = u)) s.log
  have hle : s.log.countP _ ≤ _ :=
    pulled_le (fun task => decide (task = u)) allRepos keywords c acts
  have hall : (∀ w, w < numWorkers → s.workers w = .exited) → s.log.countP _ = _ :=
    pulled_all (fun task => decide (task = u)) allRepos keywords c acts
  clear_value s
  unfold Balanced at b1 b2 b3 b4 b5 b6
  rw [hone] at hle hall
  have z1 := workerSum_zero (wChecking (fun task => decide (task = u))) s.workers rfl
  have z2 := workerSum_zero (wWaitToken (fun task => decide (task = u))) s.workers rfl
  have z3 := workerSum_zero (wSearching (fun task => decide (task = u))) s.workers rfl
  have z4 := workerSum_zero (wCaching (fun task => decide (task = u))) s.workers rfl
  have z5 := workerSum_zero (wSendHit (fun task => decide (task = u))) s.workers rfl
  have z6 := workerSum_zero (wSendNew (fun task => decide (task = u))) s.workers rfl
  generalize s.log.countP (evPulled fun task => decide (task = u)) = nPulled at *
  generalize s.log.countP (evGet fun task => decide (task = u)) = nGet at *
  generalize s.log.countP (evHit fun task => decide (task = u)) = nHit at *
  generalize s.log.countP (evMiss fun task => decide (task = u)) = nMiss at *
  generalize s.log.countP (evToken fun task => decide (task = u)) = nToken at *
  generalize s.log.countP (evCall fun task => decide (task = u)) = nCall at *
  generalize s.log.countP (evResolved fun task => decide (task = u)) = nResolved at *
  generalize s.log.countP (evFailed fun task => decide (task = u)) = nFailed at *
  generalize s.log.countP (evWrite fun task => decide (task = u)) = nWrite at *
  generalize s.log.countP (evPublished fun task => decide (task = u)) = nPublished at *
  generalize s.log.countP (evPubCached fun task => decide (task = u)) = nPubCached at *
  generalize s.log.countP (evPubFresh fun task => decide (task = u)) = nPubFresh at *
  generalize workerSum (wChecking fun task => decide (task = u)) s.workers = k1 at *
  generalize workerSum (wWaitToken fun task => decide (task = u)) s.workers = k2 at *
  generalize workerSum (wSearching fun task => decide (task = u)) s.workers = k3 at *
  generalize workerSum (wCaching fun task => decide (task = u)) s.workers = k4 at *
  generalize workerSum (wSendHit fun task => decide (task = u)) s.workers = k5 at *
  generalize workerSum (wSendNew fun task => decide (task = u)) s.workers = k6 at *
  refine ⟨by omega, by omega, by omega, by omega, by omega, ?_⟩
  intro hdone
  have hp := hall hdone
  have e1 := z1 hdone
  have e2 := z2 hdone
  have e3 := z3 hdone
  have e4 := z4 hdone
  have e5 := z5 hdone
  have e6 := z6 hdone
  subst e1 e2 e3 e4 e5 e6
  have hsum : nHit + nMiss = 1 := by omega
  have hmiss : nMiss = nResolved + nFailed := by omega
  rcases Nat.eq_zero_or_pos nHit with h0 | h0
  · rcases Nat.eq_zero_or_pos nResolved with h1 | h1
    · right; right; omega
    · right; left; omega
  · left; omega

theorem unit_outcome_exactly_once_witness :
    (enqueueOrder [str "org/a"] [str "foo"]).countP
        (fun task => decide (task = ⟨str "org/a", str "foo"⟩)) = 1 ∧
      (∀ w, w < numWorkers →
        (exec (init [str "org/a"] [str "foo"] (fun _ => none))
          [.produce, .closeTasks, .pull 0, .get 0 false, .advance 6000000000, .tick,
            .token 0, .search 0 none, .exit 0, .exit 1, .exit 2, .exit 3, .exit 4, .exit 5,
            .exit 6, .exit 7, .exit 8, .exit 9]).workers w = .exited) ∧
      (exec (init [str "org/a"] [str "foo"] (fun _ => none))
          [.produce, .closeTasks, .pull 0, .get 0 false, .advance 6000000000, .tick,
            .token 0, .search 0 none, .exit 0, .exit 1, .exit 2, .exit 3, .exit 4, .exit 5,
            .exit 6, .exit 7, .exit 8, .exit 9]).log.countP
        (evPublished (fun task => decide (task = ⟨str "org/a", str "foo"⟩))) ≤ 1 :=
  ⟨by decide, by decide,
    (unit_outcome_exactly_once [str "org/a"] [str "foo"] (fun _ => none)
      [.produce, .closeTasks, .pull 0, .get 0 false, .advance 6000000000, .tick,
        .token 0, .search 0 none, .exit 0, .exit 1, .exit 2, .exit 3, .exit 4, .exit 5,
        .exit 6, .exit 7, .exit 8, .exit 9] ⟨str "org/a", str "foo"⟩ (by decide)).1⟩

/-! ## Cache reads -/

theorem parseDigits_spec :
    ∀ (l : List Nat) (acc r : Nat), parseDigits l acc = some r →
      (∀ d ∈ l, 48 ≤ d ∧ d ≤ 57) ∧ r = l.foldl (fun a d => a * 10 + (d - 48)) acc
  | [], acc, r, h => by
      simp only [parseDigits, Option.some.injEq] at h
      simp [h]
  | d :: l, acc, r, h => by
      unfold parseDigits at h
      split at h
      · next hd =>
        obtain ⟨h1, h2⟩ := parseDigits_spec l _ r h
        refine ⟨?_, by simpa using h2⟩
        intro x hx
        rcases List.mem_cons.mp hx with rfl | hx
        · exact hd
        · exact h1 x hx
      · simp at h

theorem Atoi_spec (v : GoString) (n : Int) (h : Atoi v = some n) : IsDecimalNumeral v n := by
  cases v with
  | nil => simp [Atoi] at h
  | cons ch rest =>
    by_cases h45 : ch = 45
    · subst h45
      cases hp : parseDigits rest 0 with
      | none => simp [Atoi, hp] at h
      | some un =>
        simp [Atoi, hp] at h
        obtain ⟨hd, hv⟩ := parseDigits_spec _ _ _ hp
        refine ⟨rest, h.1, hd, .inr ⟨rfl, ?_⟩⟩
        rw [← h.2.2, hv]
    · by_cases h43 : ch = 43
      · subst h43
        cases hp : parseDigits rest 0 with
        | none => simp [Atoi, hp] at h
        | some un =>
          simp [Atoi, hp] at h
          obtain ⟨hd, hv⟩ := parseDigits_spec _ _ _ hp
          refine ⟨rest, h.1, hd, .inl ⟨.inr rfl, ?_⟩⟩
          rw [← h.2.2, hv]
      · cases hp : parseDigits (ch :: rest) 0 with
        | none => simp [Atoi, hp, h43, h45] at h
        | some un =>
          simp [Atoi, hp, h43, h45] at h
          obtain ⟨hd, hv⟩ := parseDigits_spec _ _ _ hp
          refine ⟨ch :: rest, by simp, hd, .inl ⟨.inl rfl, ?_⟩⟩
          rw [← h.2, hv]

/-- C8: `Get` is fail-open and never reports absence as a count. It answers `(n, true)` only
when the call reached the store, the store holds a value under the key, and that value parses
(`Atoi`) as the decimal integer `n`; for a missing key, for a transport error and for a value
that does not parse it answers `(0, false)`; there is no other answer. A worker whose `Get`
answers not-found moves on to wait for a rate token (the remote-call path) and publishes
nothing at that step. -/
theorem get_fail_open (c : Store) (fault : Bool) (key : GoString) (s : State) (w : Nat)
    (task : SearchTask) :
    (∀ n, Cache.Get c fault key = (n, true) →
        fault = false ∧ ∃ v, c key = some v ∧ Atoi v = some n ∧ IsDecimalNumeral v n) ∧
      (c key = none → Cache.Get c fault key = (0, false)) ∧
      (fault = true → Cache.Get c fault key = (0, false)) ∧
      (∀ v, c key = some v → Atoi v = none → Cache.Get c fault key = (0, false)) ∧
      ((Cache.Get c fault key).2 = false → Cache.Get c fault key = (0, false)) ∧
      (s.workers w = .checking task → s.mainDone = false → s.panicked = false →
        (Cache.Get s.store fault (cacheKey task)).2 = false →
        step? s (.get w fault) = some { s with
          workers := setPC s.workers w (.waitToken task)
          log := .cacheGet w task 0 false :: s.log }) := by
  refine ⟨?_, ?_, ?_, ?_, ?_, ?_⟩
  · intro n h
    unfold Cache.Get clientGet at h
    cases fault with
    | true => simp at h
    | false =>
      cases hc : c key with
      | none => simp [hc] at h
      | some v =>
        simp only [hc] at h
        cases ha : Atoi v with
        | none => simp [ha] at h
        | some m =>
          simp [ha] at h
          subst h
          exact ⟨rfl, v, rfl, ha, Atoi_spec v m ha⟩
  · intro h
    cases fault <;> simp [Cache.Get, clientGet, h]
  · intro h
    simp [Cache.Get, clientGet, h]
  · intro v h ha
    cases fault <;> simp [Cache.Get, clientGet, h, ha]
  · intro h
    unfold Cache.Get at h ⊢
    cases hr : clientGet c fault key with
    | nil => rfl
    | err => rfl
    | val v =>
      simp only [hr] at h ⊢
      cases ha : Atoi v with
      | none => rfl
      | some m => simp [ha] at h
  · intro hpc hm hp hget
    have h0 : Cache.Get s.store fault (cacheKey task) = (0, false) := by
      unfold Cache.Get at hget ⊢
      cases hr : clientGet s.store fault (cacheKey task) with
      | nil => rfl
      | err => rfl
      | val v =>
        simp only [hr] at hget ⊢
        cases ha : Atoi v with
        | none => rfl
        | some m => simp [ha] at hget
    simp [step?, hm, hp, hpc, h0]

theorem get_fail_open_witness :
    (exec (init [str "org/a"] [str "foo"] (fun _ => none)) [.produce, .pull 0]).workers 0
        = .checking ⟨str "org/a", str "foo"⟩ ∧
      (Cache.Get (exec (init [str "org/a"] [str "foo"] (fun _ => none))
        [.produce, .pull 0]).store false (cacheKey ⟨str "org/a", str "foo"⟩)).2 = false ∧
      step? (exec (init [str "org/a"] [str "foo"] (fun _ => none)) [.produce, .pull 0])
          (.get 0 false)
        = some { exec (init [str "org/a"] [str "foo"] (fun _ => none)) [.produce, .pull 0] with
          workers := setPC (exec (init [str "org/a"] [str "foo"] (fun _ => none))
            [.produce, .pull 0]).workers 0 (.waitToken ⟨str "org/a", str "foo"⟩)
          log := .cacheGet 0 ⟨str "org/a", str "foo"⟩ 0 false ::
            (exec (init [str "org/a"] [str "foo"] (fun _ => none)) [.produce, .pull 0]).log } :=
  ⟨by decide, by decide,
    (get_fail_open (fun _ => none) false [] _ 0 ⟨str "org/a", str "foo"⟩).2.2.2.2.2
      (by decide) (by decide) (by decide) (by decide)⟩

/-! ## Cache writes -/

theorem store_step (c : Store) (s s' : State) (a : Action) (hs' : Safe s')
    (hl : ∀ key, s.store key = match lastWrite key s.log with
      | some n => some (formatInt n)
      | none => c key)
    (h : Step s a s') :
    ∀ key, s'.store key = match lastWrite key s'.log with
      | some n => some (formatInt n)
      | none => c key := by
  have hp' := hs'.noPanic
  cases h
  case producePanic => simp at hp'
  case exitPanic => simp at hp'
  case sendPanic => simp at hp'
  case closePanic => simp at hp'
  case set w fault task count hpc =>
    intro key
    cases fault with
    | true => exact hl key
    | false =>
      show (if key = cacheKey task then some (formatInt count) else s.store key) = _
      simp only [lastWrite, Bool.not_false]
      by_cases hk : cacheKey task = key
      · simp [hk]
      · have hk' : ¬ key = cacheKey task := fun e => hk e.symm
        simp only [hk, hk', if_false]
        exact hl key
  all_goals exact hl

theorem exec_store (allRepos keywords : List GoString) (c : Store) (acts : List Action) :
    ∀ key, (exec (init allRepos keywords c) acts).store key
      = match lastWrite key (exec (init allRepos keywords c) acts).log with
        | some n => some (formatInt n)
        | none => c key :=
  (exec_invariant
    (fun s => ∀ key, s.store key = match lastWrite key s.log with
      | some n => some (formatInt n)
      | none => c key)
    (fun _ => True)
    (fun s a s' _ _ hs' hl hst => store_step c s s' a hs' hl hst) acts _
    (fun _ _ => trivial) (safe_init allRepos keywords c)
    (by intro key; simp [init, lastWrite])).2

theorem ranged_step (s s' : State) (a : Action) (hs' : Safe s')
    (hr : Ranged s) (h : Step s a s') : Ranged s' := by
  have hp' := hs'.noPanic
  obtain ⟨r1, r2⟩ := hr
  have hset : ∀ (w : Nat) (pc : WorkerPC),
      (∀ t n, pc = .caching t n → inIntRange n = true) →
      ∀ w' t n, setPC s.workers w pc w' = .caching t n → inIntRange n = true := by
    intro w pc hpc w' t n hw'
    by_cases e : w' = w
    · simp only [setPC, e, if_true] at hw'; exact hpc t n hw'
    · simp only [setPC, e, if_false] at hw'; exact r1 w' t n hw'
  have hlog : ∀ (e : Event), (∀ w t n ok, e = .cacheSet w t n ok → inIntRange n = true) →
      ∀ e' ∈ e :: s.log, ∀ w t n ok, e' = .cacheSet w t n ok → inIntRange n = true := by
    intro e he e' hm
    rcases List.mem_cons.mp hm with rfl | hm
    · exact he
    · exact r2 e' hm
  cases h
  case producePanic => simp at hp'
  case exitPanic => simp at hp'
  case sendPanic => simp at hp'
  case closePanic => simp at hp'
  case produce => exact ⟨r1, hlog _ (by intro _ _ _ _ h; cases h)⟩
  case closeTasks => exact ⟨r1, r2⟩
  case pull => exact ⟨hset _ _ (by intro _ _ h; cases h), hlog _ (by intro _ _ _ _ h; cases h)⟩
  case exit => exact ⟨hset _ _ (by intro _ _ h; cases h), hlog _ (by intro _ _ _ _ h; cases h)⟩
  case get w fault task count found hpc hget =>
    refine ⟨hset _ _ ?_, hlog _ (by intro _ _ _ _ h; cases h)⟩
    intro t n h
    cases found <;> simp at h
  case sendHit =>
    exact ⟨hset _ _ (by intro _ _ h; cases h), hlog _ (by intro _ _ _ _ h; cases h)⟩
  case sendNew =>
    exact ⟨hset _ _ (by intro _ _ h; cases h), hlog _ (by intro _ _ _ _ h; cases h)⟩
  case token => exact ⟨hset _ _ (by intro _ _ h; cases h), hlog _ (by intro _ _ _ _ h; cases h)⟩
  case searchErr =>
    exact ⟨hset _ _ (by intro _ _ h; cases h), hlog _ (by intro _ _ _ _ h; cases h)⟩
  case searchOk w task count hpc hr =>
    refine ⟨hset _ _ ?_, hlog _ (by intro _ _ _ _ h; cases h)⟩
    intro t n h
    cases h
    exact hr
  case set w fault task count hpc =>
    refine ⟨hset _ _ (by intro _ _ h; cases h), hlog _ ?_⟩
    intro _ _ _ _ h
    cases h
    exact r1 w task count hpc
  case advance => exact ⟨r1, r2⟩
  case tick => exact ⟨r1, r2⟩
  case signal => exact ⟨r1, hlog _ (by intro _ _ _ _ h; cases h)⟩
  case wgWait => exact ⟨r1, r2⟩
  case closeResults => exact ⟨r1, hlog _ (by intro _ _ _ _ h; cases h)⟩
  case collect => exact ⟨r1, r2⟩
  case finish => exact ⟨r1, r2⟩

theorem ranged_init (allRepos keywords : List GoString) (c : Store) :
    Ranged (init allRepos keywords c) := by
  constructor
  · intro w t n h
    simp only [init] at h
    split at h <;> cases h
  · intro e he
    simp [init] at he

theorem exec_ranged (allRepos keywords : List GoString) (c : Store) (acts : List Action) :
    Ranged (exec (init allRepos keywords c) acts) :=
  (exec_invariant Ranged (fun _ => True)
    (fun s a s' _ _ hs' hr hst => ranged_step s s' a hs' hr hst) acts _
    (fun _ _ => trivial) (safe_init allRepos keywords c) (ranged_init allRepos keywords c)).2

theorem lastWrite_of_split (task : SearchTask) (w : Nat) (n : Int) (pre : List Event) :
    ∀ post : List Event,
      (∀ e ∈ post, ∀ w' t' n', e = Event.cacheSet w' t' n' true → cacheKey t' ≠ cacheKey task) →
      lastWrite (cacheKey task) (post ++ Event.cacheSet w task n true :: pre) = some n
  | [], _ => by simp [lastWrite]
  | e :: post, h => by
      have ih := lastWrite_of_split task w n pre post
        (fun e' he' => h e' (List.mem_cons_of_mem _ he'))
      have he := h e (List.mem_cons_self _ _)
      rw [List.cons_append]
      cases e with
      | cacheSet w' t' n' ok =>
        cases ok with
        | false => simpa [lastWrite] using ih
        | true => simpa [lastWrite, he w' t' n' rfl] using ih
      | _ => simpa [lastWrite] using ih

theorem nextPC_of_resolved (pc0 pc1 : WorkerPC) (w : Nat) (task : SearchTask) (n : Int)
    (time : Nat) (h : nextPC pc0 (.remoteCall w task (some n) time) = some pc1) :
    pc0 = .searching task ∧ pc1 = .caching task n := by
  cases pc0 <;> simp [nextPC] at h
  obtain ⟨h1, h2⟩ := h
  subst h1
  exact ⟨rfl, h2.symm⟩

theorem nextPC_from_caching (e : Event) (task : SearchTask) (n : Int) (pc : WorkerPC)
    (h : nextPC (.caching task n) e = some pc) :
    pc = .sendNew task n ∧ ∃ w0 accepted, e = .cacheSet w0 task n accepted := by
  rcases e with _ | _ | ⟨_, _, _, (_ | _)⟩ | _ | ⟨_, _, (_ | _), _⟩ | _ | ⟨_, _, (_ | _)⟩ | _ | _ | _ <;>
    simp [nextPC] at h
  obtain ⟨⟨h1, h2⟩, h3⟩ := h
  subst h1 h2
  exact ⟨h3.symm, _, _, rfl⟩

theorem nextPC_from_sendNew (e : Event) (task : SearchTask) (n : Int) (pc : WorkerPC)
    (h : nextPC (.sendNew task n) e = some pc) :
    ∃ w0, e = .published w0 ⟨task.Repo, task.Keyword, n⟩ true := by
  rcases e with _ | _ | ⟨_, _, _, (_ | _)⟩ | _ | ⟨_, _, (_ | _), _⟩ | _ | ⟨_, _, (_ | _)⟩ | _ | _ | _ <;>
    simp [nextPC] at h
  exact ⟨_, by rw [h.1]⟩

theorem nextPC_of_fresh (pc0 pc1 : WorkerPC) (w : Nat) (r : Result)
    (h : nextPC pc0 (.published w r true) = some pc1) :
    pc0 = .sendNew (unitOf r) r.Count := by
  cases pc0 <;> simp [nextPC] at h
  rw [h.1]; rfl

theorem nextPC_into_sendNew (pc0 : WorkerPC) (e : Event) (task : SearchTask) (n : Int)
    (h : nextPC pc0 e = some (.sendNew task n)) :
    pc0 = .caching task n ∧ ∃ w0 accepted, e = .cacheSet w0 task n accepted := by
  rcases e with _ | _ | ⟨_, _, _, (_ | _)⟩ | _ | ⟨_, _, (_ | _), _⟩ | _ | ⟨_, _, (_ | _)⟩ | _ | _ | _ <;>
    cases pc0 <;> simp [nextPC] at h
  obtain ⟨⟨h1, h2⟩, h3, h4⟩ := h
  subst h1 h2 h3 h4
  exact ⟨rfl, _, _, rfl⟩

theorem nextPC_into_caching (pc0 : WorkerPC) (e : Event) (task : SearchTask) (n : Int)
    (h : nextPC pc0 e = some (.caching task n)) :
    ∃ w0 time, e = .remoteCall w0 task (some n) time := by
  rcases e with _ | _ | ⟨_, _, _, (_ | _)⟩ | _ | ⟨_, _, (_ | _), _⟩ | _ | ⟨_, _, (_ | _)⟩ | _ | _ | _ <;>
    cases pc0 <;> simp [nextPC] at h
  obtain ⟨h1, h2, h3⟩ := h
  subst h1 h2 h3
  exact ⟨_, _, rfl⟩

/-- C2 (counterexample): the store rejects the write (`Set` fails and is only logged); the
worker still publishes the Result ("org/a", "foo", 7), and a `Get` on "org/a:foo" issued after
that Result is in the result queue answers not-found instead of `(7, true)`. -/
theorem rejected_write_not_read_back :
    (exec (init [str "org/a"] [str "foo"] (fun _ => none))
        [.produce, .pull 0, .get 0 false, .advance 6000000000, .tick, .token 0,
          .search 0 (some 7), .set 0 true, .send 0]).results.buf
        = [⟨str "org/a", str "foo", 7⟩] ∧
      Cache.Get (exec (init [str "org/a"] [str "foo"] (fun _ => none))
        [.produce, .pull 0, .get 0 false, .advance 6000000000, .tick, .token 0,
          .search 0 (some 7), .set 0 true, .send 0]).store false (str "org/a:foo")
        = (0, false) := by
  decide

/-- C2 (amended): for every unit resolved by a remote call returning `n`, the worker's next
step is the cache write of `n` under the unit's key and only then the publication of
`Result (repo, keyword, n)`: every freshly computed Result is directly preceded, in its
worker's history, by that write, itself directly preceded by the remote call. When the store
accepted the write and no later accepted write went to the same key, a `Get` on that key that
reaches the store returns `(n, true)`. -/
theorem cache_write_before_publish (allRepos keywords : List GoString) (c : Store)
    (acts : List Action) (w : Nat) (task : SearchTask) (n : Int) :
    let s := exec (init allRepos keywords c) acts
    (∀ post pre time,
        eventsOf w s.log = post ++ Event.remoteCall w task (some n) time :: pre →
        post = [] ∨ ∃ post' accepted, post = post' ++ [Event.cacheSet w task n accepted] ∧
          (post' = [] ∨ ∃ post'',
            post' = post'' ++ [Event.published w ⟨task.Repo, task.Keyword, n⟩ true])) ∧
      (∀ post pre r, eventsOf w s.log = post ++ Event.published w r true :: pre →
        ∃ accepted time pre',
          pre = Event.cacheSet w (unitOf r) r.Count accepted ::
            Event.remoteCall w (unitOf r) (some r.Count) time :: pre') ∧
      (s.workers w = .caching task n → ∀ fault,
        step? s (.set w fault) = some { s with
          store := Cache.Set s.store fault (cacheKey task) n
          workers := setPC s.workers w (.sendNew task n)
          log := .cacheSet w task n (!fault) :: s.log }) ∧
      (s.workers w = .sendNew task n →
        step? s (.send w) = some { s with
          results := { s.results with
            buf := s.results.buf ++ [⟨task.Repo, task.Keyword, n⟩] }
          workers := setPC s.workers w .ranging
          log := .published w ⟨task.Repo, task.Keyword, n⟩ true :: s.log }) ∧
      (∀ post pre, s.log = post ++ Event.cacheSet w task n true :: pre →
        (∀ e ∈ post, ∀ w' t' n', e = Event.cacheSet w' t' n' true →
          cacheKey t' ≠ cacheKey task) →
        Cache.Get s.store false (cacheKey task) = (n, true)) := by
  intro s
  have hs : Safe s := exec_safe allRepos keywords c acts
  have hh : ∀ w, w < numWorkers → histPC (eventsOf w s.log) = some (s.workers w) :=
    exec_hist allRepos keywords c acts
  have hroom : ((∃ task count, s.workers w = .sendHit task count)
      ∨ ∃ task count, s.workers w = .sendNew task count) →
      s.mainDone = false ∧ s.panicked = false ∧ s.results.closed = false ∧
        s.results.buf.length < s.results.cap := results_room allRepos keywords c acts w
  have hnone : numWorkers ≤ w → eventsOf w s.log = [] := exec_outside allRepos keywords c acts w
  have hstore : ∀ key, s.store key = match lastWrite key s.log with
      | some n => some (formatInt n)
      | none => c key := exec_store allRepos keywords c acts
  have hrange : Ranged s := exec_ranged allRepos keywords c acts
  clear_value s
  have hmem : ∀ e, e ∈ eventsOf w s.log → e.worker? = some w :=
    fun e he => mem_eventsOf w e s.log he
  have hlt : ∀ l : List Event, l ≠ [] → eventsOf w s.log = l → w < numWorkers := by
    intro l hl he
    by_contra hw
    rw [hnone (Nat.le_of_not_lt hw)] at he
    exact hl he.symm
  refine ⟨?_, ?_, ?_, ?_, ?_⟩
  · intro post pre time hev
    have hw := hlt _ (by simp) hev
    have hall := hh w hw
    rw [hev] at hall hmem
    obtain ⟨pc1, h1⟩ := histPC_append post _ _ hall
    have h1' := h1
    rw [histPC_cons] at h1
    obtain ⟨pc0, h0, hn⟩ := h1
    obtain ⟨rfl, rfl⟩ := nextPC_of_resolved pc0 pc1 w task n time hn
    rcases List.eq_nil_or_concat post with hnil | ⟨post', e1, hcat⟩
    · exact .inl hnil
    · right
      rw [List.concat_eq_append] at hcat
      subst hcat
      rw [List.append_assoc, List.singleton_append] at hall
      obtain ⟨pc2, hn2⟩ := histPC_snoc post' e1 _ _ h1' _ hall
      obtain ⟨rfl, w1, ok, rfl⟩ := nextPC_from_caching e1 task n pc2 hn2
      have := hmem (Event.cacheSet w1 task n ok) (by simp)
      simp [Event.worker?] at this
      subst this
      refine ⟨post', ok, rfl, ?_⟩
      rcases List.eq_nil_or_concat post' with hnil | ⟨post'', e2, hcat⟩
      · exact .inl hnil
      · right
        rw [List.concat_eq_append] at hcat
        subst hcat
        have hset : histPC (Event.cacheSet w1 task n ok ::
            Event.remoteCall w1 task (some n) time :: pre) = some (.sendNew task n) := by
          rw [histPC_cons]; exact ⟨_, h1', hn2⟩
        rw [List.append_assoc, List.singleton_append] at hall
        obtain ⟨pc3, hn3⟩ := histPC_snoc post'' e2 _ _ hset _ hall
        obtain ⟨w2, rfl⟩ := nextPC_from_sendNew e2 task n pc3 hn3
        have := hmem (Event.published w2 ⟨task.Repo, task.Keyword, n⟩ true) (by simp)
        simp [Event.worker?] at this
        subst this
        exact ⟨post'', rfl⟩
  · intro post pre r hev
    have hw := hlt _ (by simp) hev
    have hall := hh w hw
    rw [hev] at hall hmem
    obtain ⟨pc1, h1⟩ := histPC_append post _ _ hall
    rw [histPC_cons] at h1
    obtain ⟨pc0, h0, hn⟩ := h1
    have hpc0 := nextPC_of_fresh pc0 pc1 w r hn
    subst hpc0
    cases pre with
    | nil => simp [histPC] at h0
    | cons e1 pre1 =>
      rw [histPC_cons] at h0
      obtain ⟨pc00, h00, hn0⟩ := h0
      obtain ⟨rfl, w1, ok, rfl⟩ := nextPC_into_sendNew pc00 e1 _ _ hn0
      have := hmem (Event.cacheSet w1 (unitOf r) r.Count ok) (by simp)
      simp [Event.worker?] at this
      subst this
      cases pre1 with
      | nil => simp [histPC] at h00
      | cons e2 pre2 =>
        rw [histPC_cons] at h00
        obtain ⟨pc000, _, hn00⟩ := h00
        obtain ⟨w2, time, rfl⟩ := nextPC_into_caching pc000 e2 _ _ hn00
        have := hmem (Event.remoteCall w2 (unitOf r) (some r.Count) time) (by simp)
        simp [Event.worker?] at this
        subst this
        exact ⟨ok, time, pre2, rfl⟩
  · intro hpc fault
    have hm : s.mainDone = false := by
      cases hm : s.mainDone with
      | false => rfl
      | true =>
        have hwg := hs.drained (.inr (hs.closedDone.mp (hs.mainClosed hm)))
        have := all_exited_of_wg s hs hwg w
        rw [hpc] at this
        exact absurd this (by simp)
    simp [step?, hm, hs.noPanic, hpc]
  · intro hpc
    obtain ⟨hm, hp, hopen, hr⟩ := hroom (.inr ⟨task, n, hpc⟩)
    simp [step?, hm, hp, hpc, sendResult, hopen, hr]
  · intro post pre hlog hlater
    have hlast := lastWrite_of_split task w n pre post hlater
    rw [← hlog] at hlast
    have hst := hstore (cacheKey task)
    rw [hlast] at hst
    have hr : inIntRange n = true :=
      hrange.logged (Event.cacheSet w task n true) (by rw [hlog]; simp) w task n true rfl
    simp [Cache.Get, clientGet, hst, Atoi_formatInt n hr]

/-! ## Repeated runs -/

theorem Get_congr (c1 c2 : Store) (key : GoString) (h : c1 key = c2 key) :
    Cache.Get c1 false key = Cache.Get c2 false key := by
  simp [Cache.Get, clientGet, h]

theorem Get_of_formatted (c : Store) (key : GoString) (n : Int) (h : c key = some (formatInt n))
    (hr : inIntRange n = true) : Cache.Get c false key = (n, true) := by
  simp [Cache.Get, clientGet, h, Atoi_formatInt n hr]

theorem settled_step (c : Store) (ρ : SearchTask → Option Int) (T : List SearchTask)
    (hkeys : ∀ t1 ∈ T, ∀ t2 ∈ T, cacheKey t1 = cacheKey t2 → t1 = t2)
    (s s' : State) (a : Action) (ha : a.faultFree = true) (hs' : Safe s') (hf : Flow T s)
    (hρ : RemoteOK ρ s'.log) (hk : Settled c ρ T s) (h : Step s a s') : Settled c ρ T s' := by
  have hp' := hs'.noPanic
  obtain ⟨k1, k2, k3, k4, k5, k6, k7, k8⟩ := hk
  -- moving worker `w` to a position `pc`
  have mv1 : ∀ (w : Nat) (pc : WorkerPC), (∀ t, pc.task? = some t → t ∈ T) →
      ∀ w' t, (setPC s.workers w pc w').task? = some t → t ∈ T := by
    intro w pc hpc w' t h
    by_cases e : w' = w
    · simp only [setPC, e, if_true] at h; exact hpc t h
    · simp only [setPC, e, if_false] at h; exact k1 w' t h
  have mv4 : ∀ (w : Nat) (pc : WorkerPC),
      (∀ t n, pc = .sendHit t n → Cache.Get s.store false (cacheKey t) = (n, true)) →
      ∀ w' t n, setPC s.workers w pc w' = .sendHit t n →
        Cache.Get s.store false (cacheKey t) = (n, true) := by
    intro w pc hpc w' t n h
    by_cases e : w' = w
    · simp only [setPC, e, if_true] at h; exact hpc t n h
    · simp only [setPC, e, if_false] at h; exact k4 w' t n h
  have mv5 : ∀ (w : Nat) (pc : WorkerPC),
      (∀ t, pc = .waitToken t ∨ pc = .searching t → (Cache.Get c false (cacheKey t)).2 = false) →
      ∀ w' t, setPC s.workers w pc w' = .waitToken t ∨ setPC s.workers w pc w' = .searching t →
        (Cache.Get c false (cacheKey t)).2 = false := by
    intro w pc hpc w' t h
    by_cases e : w' = w
    · simp only [setPC, e, if_true] at h; exact hpc t h
    · simp only [setPC, e, if_false] at h; exact k5 w' t h
  have mv6 : ∀ (w : Nat) (pc : WorkerPC),
      (∀ t n, pc = .caching t n ∨ pc = .sendNew t n →
        (Cache.Get c false (cacheKey t)).2 = false ∧ ρ t = some n ∧ inIntRange n = true) →
      ∀ w' t n, setPC s.workers w pc w' = .caching t n ∨ setPC s.workers w pc w' = .sendNew t n →
        (Cache.Get c false (cacheKey t)).2 = false ∧ ρ t = some n ∧ inIntRange n = true := by
    intro w pc hpc w' t n h
    by_cases e : w' = w
    · simp only [setPC, e, if_true] at h; exact hpc t n h
    · simp only [setPC, e, if_false] at h; exact k6 w' t n h
  have mv7 : ∀ (w : Nat) (pc : WorkerPC),
      (∀ t n, pc = .sendNew t n → s.store (cacheKey t) = some (formatInt n)) →
      ∀ w' t n, setPC s.workers w pc w' = .sendNew t n →
        s.store (cacheKey t) = some (formatInt n) := by
    intro w pc hpc w' t n h
    by_cases e : w' = w
    · simp only [setPC, e, if_true] at h; exact hpc t n h
    · simp only [setPC, e, if_false] at h; exact k7 w' t n h
  cases h
  case producePanic => simp at hp'
  case exitPanic => simp at hp'
  case sendPanic => simp at hp'
  case closePanic => simp at hp'
  case produce => exact ⟨k1, k2, k3, k4, k5, k6, k7, k8⟩
  case closeTasks => exact ⟨k1, k2, k3, k4, k5, k6, k7, k8⟩
  case advance => exact ⟨k1, k2, k3, k4, k5, k6, k7, k8⟩
  case tick => exact ⟨k1, k2, k3, k4, k5, k6, k7, k8⟩
  case signal => exact ⟨k1, k2, k3, k4, k5, k6, k7, k8⟩
  case wgWait => exact ⟨k1, k2, k3, k4, k5, k6, k7, k8⟩
  case closeResults => exact ⟨k1, k2, k3, k4, k5, k6, k7, k8⟩
  case collect => exact ⟨k1, k2, k3, k4, k5, k6, k7, k8⟩
  case finish => exact ⟨k1, k2, k3, k4, k5, k6, k7, k8⟩
  case pull w task rest hpc hbuf =>
    refine ⟨mv1 w _ ?_, k2, k3, mv4 w _ (by intro _ _ h; cases h),
      mv5 w _ (by intro _ h; rcases h with h | h <;> cases h),
      mv6 w _ (by intro _ _ h; rcases h with h | h <;> cases h),
      mv7 w _ (by intro _ _ h; cases h), k8⟩
    intro t ht
    simp only [WorkerPC.task?, Option.some.injEq] at ht
    subst ht
    rw [← hf.fifo, hbuf]
    simp
  case exit w hpc hbuf hclosed hwg =>
    exact ⟨mv1 w _ (by intro _ h; cases h), k2, k3, mv4 w _ (by intro _ _ h; cases h),
      mv5 w _ (by intro _ h; rcases h with h | h <;> cases h),
      mv6 w _ (by intro _ _ h; rcases h with h | h <;> cases h),
      mv7 w _ (by intro _ _ h; cases h), k8⟩
  case token w task hpc hl =>
    refine ⟨mv1 w _ ?_, k2, k3, mv4 w _ (by intro _ _ h; cases h), mv5 w _ ?_,
      mv6 w _ (by intro _ _ h; rcases h with h | h <;> cases h),
      mv7 w _ (by intro _ _ h; cases h), k8⟩
    · intro t ht
      exact k1 w t (by rw [hpc]; exact ht)
    · intro t ht
      rcases ht with h | h
      · cases h
      · cases h
        exact k5 w task (.inl hpc)
  case searchErr w task hpc =>
    exact ⟨mv1 w _ (by intro _ h; cases h), k2, k3, mv4 w _ (by intro _ _ h; cases h),
      mv5 w _ (by intro _ h; rcases h with h | h <;> cases h),
      mv6 w _ (by intro _ _ h; rcases h with h | h <;> cases h),
      mv7 w _ (by intro _ _ h; cases h), k8⟩
  case searchOk w task count hpc hr =>
    refine ⟨mv1 w _ ?_, k2, k3, mv4 w _ (by intro _ _ h; cases h),
      mv5 w _ (by intro _ h; rcases h with h | h <;> cases h), mv6 w _ ?_,
      mv7 w _ (by intro _ _ h; cases h), k8⟩
    · intro t ht
      exact k1 w t (by rw [hpc]; exact ht)
    · intro t n ht
      rcases ht with h | h
      · cases h
        refine ⟨k5 w task (.inr hpc), ?_, hr⟩
        exact (hρ _ (List.mem_cons_self _ _) w task (some count) s.now rfl).symm
      · cases h
  case get w fault task count found hpc hget =>
    have hfault : fault = false := by
      cases fault with
      | false => rfl
      | true => simp [Action.faultFree] at ha
    subst hfault
    have hT : task ∈ T := k1 w task (by rw [hpc]; rfl)
    refine ⟨mv1 w _ ?_, k2, k3, mv4 w _ ?_, mv5 w _ ?_, mv6 w _ ?_, mv7 w _ ?_, k8⟩
    · intro t ht
      cases found <;> simp [WorkerPC.task?] at ht <;> subst ht <;> exact hT
    · intro t n ht
      cases found with
      | false => simp at ht
      | true =>
        simp only [if_true, WorkerPC.sendHit.injEq] at ht
        obtain ⟨rfl, rfl⟩ := ht
        exact hget
    · intro t ht
      cases found with
      | true => rcases ht with h | h <;> simp at h
      | false =>
        rcases ht with h | h
        · simp only [Bool.false_eq_true, if_false, WorkerPC.waitToken.injEq] at h
          subst h
          rcases k3 task hT with hsame | ⟨_, n, _, hn, hst⟩
          · rw [← Get_congr s.store c _ hsame, hget]
          · rw [Get_of_formatted s.store _ n hst hn] at hget
            simp at hget
        · simp at h
    · intro t n ht
      cases found <;> rcases ht with h | h <;> simp at h
    · intro t n ht
      cases found <;> simp at ht
  case sendHit w task count hpc hopen hroom =>
    refine ⟨mv1 w _ (by intro _ h; cases h), ?_, k3, mv4 w _ (by intro _ _ h; cases h),
      mv5 w _ (by intro _ h; rcases h with h | h <;> cases h),
      mv6 w _ (by intro _ _ h; rcases h with h | h <;> cases h),
      mv7 w _ (by intro _ _ h; cases h), ?_⟩
    · intro r hr
      rcases List.mem_cons.mp hr with rfl | hr
      · exact k1 w task (by rw [hpc]; rfl)
      · exact k2 r hr
    · intro r hr
      rcases List.mem_cons.mp hr with rfl | hr
      · exact k4 w task count hpc
      · exact k8 r hr
  case sendNew w task count hpc hopen hroom =>
    refine ⟨mv1 w _ (by intro _ h; cases h), ?_, k3, mv4 w _ (by intro _ _ h; cases h),
      mv5 w _ (by intro _ h; rcases h with h | h <;> cases h),
      mv6 w _ (by intro _ _ h; rcases h with h | h <;> cases h),
      mv7 w _ (by intro _ _ h; cases h), ?_⟩
    · intro r hr
      rcases List.mem_cons.mp hr with rfl | hr
      · exact k1 w task (by rw [hpc]; rfl)
      · exact k2 r hr
    · intro r hr
      rcases List.mem_cons.mp hr with rfl | hr
      · exact Get_of_formatted s.store _ count (k7 w task count hpc) (k6 w task count (.inr hpc)).2.2
      · exact k8 r hr
  case set w fault task count hpc =>
    have hfault : fault = false := by
      cases fault with
      | false => rfl
      | true => simp [Action.faultFree] at ha
    subst hfault
    have hT : task ∈ T := k1 w task (by rw [hpc]; rfl)
    obtain ⟨hmiss, hrho, hrange⟩ := k6 w task count (.inl hpc)
    -- the store after the write, at the key of a unit of the run
    have hnew : ∀ t ∈ T, cacheKey t = cacheKey task →
        Cache.Set s.store false (cacheKey task) count (cacheKey t) = some (formatInt count) := by
      intro t _ hk
      simp [Cache.Set, clientSet, hk]
    have hold : ∀ t, cacheKey t ≠ cacheKey task →
        Cache.Set s.store false (cacheKey task) count (cacheKey t) = s.store (cacheKey t) := by
      intro t hk
      simp [Cache.Set, clientSet, hk]
    -- a Get that answered `m` before the write still answers `m` after it
    have hkeep : ∀ t ∈ T, ∀ m, Cache.Get s.store false (cacheKey t) = (m, true) →
        Cache.Get (Cache.Set s.store false (cacheKey task) count) false (cacheKey t)
          = (m, true) := by
      intro t ht m hm
      by_cases hk : cacheKey t = cacheKey task
      · have heq : t = task := hkeys t ht task hT hk
        subst heq
        rcases k3 t ht with hsame | ⟨_, n, hn1, hn2, hst⟩
        · rw [Get_congr s.store c _ hsame] at hm
          rw [hm] at hmiss
          simp at hmiss
        · rw [hrho] at hn1
          cases hn1
          rw [Get_of_formatted s.store _ count hst hn2] at hm
          rw [Get_of_formatted _ _ count (hnew t ht rfl) hrange]
          exact hm
      · rw [Get_congr _ s.store _ (hold t hk)]
        exact hm
    refine ⟨mv1 w _ ?_, k2, ?_, ?_, mv5 w _ (by intro _ h; rcases h with h | h <;> cases h),
      mv6 w _ ?_, ?_, ?_⟩
    · intro t ht
      exact k1 w t (by rw [hpc]; exact ht)
    · intro t ht
      by_cases hk : cacheKey t = cacheKey task
      · have heq : t = task := hkeys t ht task hT hk
        subst heq
        exact .inr ⟨hmiss, count, hrho, hrange, hnew t ht rfl⟩
      · show Cache.Set s.store false (cacheKey task) count (cacheKey t) = _ ∨
          (_ ∧ ∃ n, _ ∧ _ ∧
            Cache.Set s.store false (cacheKey task) count (cacheKey t) = some (formatInt n))
        rw [hold t hk]
        exact k3 t ht
    · intro w' t n hw'
      have hw'' : s.workers w' = .sendHit t n := by
        by_cases e : w' = w
        · simp [setPC, e] at hw'
        · simpa [setPC, e] using hw'
      exact hkeep t (k1 w' t (by rw [hw'']; rfl)) n (k4 w' t n hw'')
    · intro t n ht
      rcases ht with h | h
      · cases h
      · cases h
        exact ⟨hmiss, hrho, hrange⟩
    · intro w' t n hw'
      show Cache.Set s.store false (cacheKey task) count (cacheKey t) = _
      by_cases e : w' = w
      · simp only [setPC, e, if_true, WorkerPC.sendNew.injEq] at hw'
        obtain ⟨rfl, rfl⟩ := hw'
        exact hnew _ hT rfl
      · simp only [setPC, e, if_false] at hw'
        by_cases hk : cacheKey t = cacheKey task
        · have ht : t ∈ T := k1 w' t (by rw [hw']; rfl)
          have heq : t = task := hkeys t ht task hT hk
          subst heq
          have := (k6 w' t n (.inr hw')).2.1
          rw [hrho] at this
          cases this
          exact hnew _ hT rfl
        · rw [hold t hk]
          exact k7 w' t n hw'
    · intro r hr
      exact hkeep (unitOf r) (k2 r hr) r.Count (k8 r hr)

theorem log_grows (s s' : State) (a : Action) (hs : Safe s) (hs' : Safe s')
    (h : Step s a s') : s'.log = s.log ∨ ∃ e, s'.log = e :: s.log := by
  rcases step_shape s s' a hs h hs'.noPanic with
    ⟨_, hl | ⟨e, hl, _⟩⟩ | ⟨_, e, _, _, _, hl, _, _⟩
  · exact .inl hl
  · exact .inr ⟨e, hl⟩
  · exact .inr ⟨e, hl⟩

theorem settled_init (c : Store) (ρ : SearchTask → Option Int) (allRepos keywords : List GoString) :
    Settled c ρ (enqueueOrder allRepos keywords) (init allRepos keywords c) := by
  refine ⟨?_, ?_, ?_, ?_, ?_, ?_, ?_, ?_⟩
  · intro w t h
    simp only [init] at h
    split at h <;> cases h
  · intro r hr; simp [init, publishedResults] at hr
  · intro t _; exact .inl rfl
  · intro w t n h
    simp only [init] at h
    split at h <;> cases h
  · intro w t h
    simp only [init] at h
    split at h <;> rcases h with h | h <;> cases h
  · intro w t n h
    simp only [init] at h
    split at h <;> rcases h with h | h <;> cases h
  · intro w t n h
    simp only [init] at h
    split at h <;> cases h
  · intro r hr; simp [init, publishedResults] at hr

theorem exec_settled (c : Store) (ρ : SearchTask → Option Int) (allRepos keywords : List GoString)
    (hkeys : ∀ t1 ∈ enqueueOrder allRepos keywords, ∀ t2 ∈ enqueueOrder allRepos keywords,
      cacheKey t1 = cacheKey t2 → t1 = t2)
    (acts : List Action) (hacts : ∀ a ∈ acts, a.faultFree = true)
    (hρ : RemoteOK ρ (exec (init allRepos keywords c) acts).log) :
    Settled c ρ (enqueueOrder allRepos keywords) (exec (init allRepos keywords c) acts) :=
  ((exec_invariant
    (fun s => Flow (enqueueOrder allRepos keywords) s ∧
      (RemoteOK ρ s.log → Settled c ρ (enqueueOrder allRepos keywords) s))
    (fun a => a.faultFree = true)
    (fun s a s' ha hs hs' hP hst => by
      refine ⟨flow_step _ s s' a hs' hP.1 hst, fun hr => ?_⟩
      have hr0 : RemoteOK ρ s.log := by
        rcases log_grows s s' a hs hs' hst with hl | ⟨e, hl⟩
        · rw [hl] at hr; exact hr
        · rw [hl] at hr
          exact fun e' he' => hr e' (List.mem_cons_of_mem _ he')
      exact settled_step c ρ _ hkeys s s' a ha hs' hP.1 hr (hP.2 hr0) hst)
    acts _ hacts (safe_init allRepos keywords c)
    ⟨flow_init allRepos keywords c, fun _ => settled_init c ρ allRepos keywords⟩).2).2 hρ

theorem quiet_step (c : Store) (ρ : SearchTask → Option Int) (T : List SearchTask)
    (hwarm : ∀ t ∈ T, (Cache.Get c false (cacheKey t)).2 = true)
    (s s' : State) (a : Action) (ha : a.faultFree = true) (hs' : Safe s')
    (hk : Settled c ρ T s) (hq : ∀ e ∈ s.log, e.remoteFree = true) (h : Step s a s') :
    ∀ e ∈ s'.log, e.remoteFree = true := by
  have hp' := hs'.noPanic
  have hnew : ∀ e : Event, e.remoteFree = true → ∀ e' ∈ e :: s.log, e'.remoteFree = true := by
    intro e he e' hm
    rcases List.mem_cons.mp hm with rfl | hm
    · exact he
    · exact hq e' hm
  have hno : ∀ w t, (s.workers w).task? = some t →
      (Cache.Get c false (cacheKey t)).2 = false → False := by
    intro w t ht hm
    have := hwarm t (hk.inT w t ht)
    rw [hm] at this
    exact absurd this (by simp)
  cases h
  case producePanic => simp at hp'
  case exitPanic => simp at hp'
  case sendPanic => simp at hp'
  case closePanic => simp at hp'
  case produce => exact hnew _ rfl
  case closeTasks => exact hq
  case pull => exact hnew _ rfl
  case exit => exact hnew _ rfl
  case get w fault task count found hpc hget =>
    have hfault : fault = false := by
      cases fault with
      | false => rfl
      | true => simp [Action.faultFree] at ha
    subst hfault
    cases found with
    | true => exact hnew _ rfl
    | false =>
      exfalso
      have hT : task ∈ T := hk.inT w task (by rw [hpc]; rfl)
      rcases hk.store task hT with hsame | ⟨hm, _⟩
      · have := hwarm task hT
        rw [← Get_congr s.store c _ hsame, hget] at this
        simp at this
      · exact hno w task (by rw [hpc]; rfl) hm
  case sendHit => exact hnew _ rfl
  case sendNew => exact hnew _ rfl
  case token w task hpc hl =>
    exact absurd (hk.miss w task (.inl hpc)) (fun hm => hno w task (by rw [hpc]; rfl) hm)
  case searchErr w task hpc =>
    exact absurd (hk.miss w task (.inr hpc)) (fun hm => hno w task (by rw [hpc]; rfl) hm)
  case searchOk w task count hpc hr =>
    exact absurd (hk.miss w task (.inr hpc)) (fun hm => hno w task (by rw [hpc]; rfl) hm)
  case set w fault task count hpc =>
    exact absurd (hk.fresh w task count (.inl hpc)).1
      (fun hm => hno w task (by rw [hpc]; rfl) hm)
  case advance => exact hq
  case tick => exact hq
  case signal => exact hnew _ rfl
  case wgWait => exact hq
  case closeResults => exact hnew _ rfl
  case collect => exact hq
  case finish => exact hq

theorem remoteOK_of_quiet (ρ : SearchTask → Option Int) (log : List Event)
    (hq : ∀ e ∈ log, e.remoteFree = true) : RemoteOK ρ log := by
  intro e he w t resp time heq
  have := hq e he
  rw [heq] at this
  simp [Event.remoteFree] at this

theorem exec_quiet (c : Store) (allRepos keywords : List GoString)
    (hkeys : ∀ t1 ∈ enqueueOrder allRepos keywords, ∀ t2 ∈ enqueueOrder allRepos keywords,
      cacheKey t1 = cacheKey t2 → t1 = t2)
    (hwarm : ∀ t ∈ enqueueOrder allRepos keywords, (Cache.Get c false (cacheKey t)).2 = true)
    (acts : List Action) (hacts : ∀ a ∈ acts, a.faultFree = true) :
    Settled c (fun _ => none) (enqueueOrder allRepos keywords)
        (exec (init allRepos keywords c) acts) ∧
      ∀ e ∈ (exec (init allRepos keywords c) acts).log, e.remoteFree = true := by
  have := (exec_invariant
    (fun s => Flow (enqueueOrder allRepos keywords) s ∧
      Settled c (fun _ => none) (enqueueOrder allRepos keywords) s ∧
      ∀ e ∈ s.log, e.remoteFree = true)
    (fun a => a.faultFree = true)
    (fun s a s' ha hs hs' hP hst => by
      have hq := quiet_step c _ _ hwarm s s' a ha hs' hP.2.1 hP.2.2 hst
      exact ⟨flow_step _ s s' a hs' hP.1 hst,
        settled_step c _ _ hkeys s s' a ha hs' hP.1 (remoteOK_of_quiet _ _ hq) hP.2.1 hst, hq⟩)
    acts _ hacts (safe_init allRepos keywords c)
    ⟨flow_init allRepos keywords c, settled_init c _ allRepos keywords,
      by intro e he; simp [init] at he⟩).2
  exact this.2

theorem exists_published (p : SearchTask → Bool) :
    ∀ log : List Event, 0 < log.countP (evPublished p) →
      ∃ r ∈ publishedResults log, p (unitOf r) = true
  | [], h => by simp at h
  | e :: log, h => by
      by_cases he : evPublished p e = true
      · cases e <;> simp [evPublished] at he
        exact ⟨_, by simp [publishedResults], he⟩
      · rw [List.countP_cons_of_neg _ _ he] at h
        obtain ⟨r, hr, hp⟩ := exists_published p log h
        refine ⟨r, ?_, hp⟩
        cases e <;> simp [publishedResults] at hr ⊢ <;> first | exact hr | exact .inr hr

theorem countP_failed_zero (p : SearchTask → Bool) (log : List Event)
    (h : ∀ e ∈ log, ∀ w task time, e ≠ Event.remoteCall w task none time) :
    log.countP (evFailed p) = 0 := by
  rw [List.countP_eq_zero]
  intro e he hf
  cases e <;> simp [evFailed] at hf
  next w task resp time =>
    cases resp with
    | none => exact h _ he w task time rfl
    | some n => simp at hf

/-- C4 (counterexample): the remote call for ("org/a", "foo") fails in the first run, so the
unit is dropped and nothing is cached; the second run, started on the cache left by the first
with the same (failing) remote response, makes a remote call again. -/
theorem failed_unit_called_again :
    (∀ w, w < numWorkers →
      (exec (init [str "org/a"] [str "foo"] (fun _ => none))
        [.produce, .closeTasks, .pull 0, .get 0 false, .advance 6000000000, .tick, .token 0,
          .search 0 none, .exit 0, .exit 1, .exit 2, .exit 3, .exit 4, .exit 5, .exit 6,
          .exit 7, .exit 8, .exit 9]).workers w = .exited) ∧
      (exec (init [str "org/a"] [str "foo"]
          (exec (init [str "org/a"] [str "foo"] (fun _ => none))
            [.produce, .closeTasks, .pull 0, .get 0 false, .advance 6000000000, .tick,
              .token 0, .search 0 none, .exit 0, .exit 1, .exit 2, .exit 3, .exit 4, .exit 5,
              .exit 6, .exit 7, .exit 8, .exit 9]).store)
        [.produce, .closeTasks, .pull 0, .get 0 false, .advance 6000000000, .tick, .token 0,
          .search 0 none]).log.countP (evCall (fun _ => true)) = 1 := by
  decide

/-- C4 (amended): take a first run that ran to completion (every worker exited) in which the
store answered every read and accepted every write, every remote call succeeded with the
answer of a fixed response function, and distinct units have distinct cache keys. Then any
second run on the cache left by the first, with the store again answering every read, makes
no remote call, takes no rate token, misses no read and writes nothing to the cache (which
stays as the first run left it), and every Result it publishes carries the same count as the
first run's Results for that unit; if the second run completes too, it publishes as many
Results per unit as the first. -/
theorem second_run_pure_hits (allRepos keywords : List GoString) (c : Store)
    (ρ : SearchTask → Option Int) (acts1 acts2 : List Action)
    (hkeys : ∀ t1 ∈ enqueueOrder allRepos keywords, ∀ t2 ∈ enqueueOrder allRepos keywords,
      cacheKey t1 = cacheKey t2 → t1 = t2)
    (h1 : ∀ a ∈ acts1, a.faultFree = true) (h2 : ∀ a ∈ acts2, a.faultFree = true)
    (hρ : ∀ e ∈ (exec (init allRepos keywords c) acts1).log, ∀ w task resp time,
      e = Event.remoteCall w task resp time → resp = ρ task ∧ resp ≠ none)
    (hdone : ∀ w, w < numWorkers → (exec (init allRepos keywords c) acts1).workers w = .exited) :
    let s1 := exec (init allRepos keywords c) acts1
    let s2 := exec (init allRepos keywords s1.store) acts2
    (∀ e ∈ s2.log, e.remoteFree = true) ∧
      s2.store = s1.store ∧
      (∀ r1 ∈ publishedResults s1.log, ∀ r2 ∈ publishedResults s2.log,
        unitOf r1 = unitOf r2 → r1.Count = r2.Count) ∧
      ((∀ w, w < numWorkers → s2.workers w = .exited) → ∀ u : SearchTask,
        s2.log.countP (evPublished (fun task => decide (task = u)))
          = s1.log.countP (evPublished (fun task => decide (task = u)))) := by
  intro s1 s2
  have hk1 : Settled c ρ _ s1 :=
    exec_settled c ρ allRepos keywords hkeys acts1 h1
      (fun e he w task resp time heq => (hρ e he w task resp time heq).1)
  have hfail1 : ∀ p, s1.log.countP (evFailed p) = 0 := by
    intro p
    apply countP_failed_zero
    intro e he w task time heq
    exact (hρ e he w task none time heq).2 rfl
  have hcount1 : ∀ p, s1.log.countP (evPublished p) = (enqueueOrder allRepos keywords).countP p := by
    intro p
    have d : s1.log.countP (evPulled p) = s1.log.countP (evPublished p) + s1.log.countP (evFailed p) :=
      drained_counts p allRepos keywords c acts1 hdone
    have a : s1.log.countP (evPulled p) = _ := pulled_all p allRepos keywords c acts1 hdone
    rw [hfail1 p] at d
    omega
  have hwarm : ∀ t ∈ enqueueOrder allRepos keywords,
      (Cache.Get s1.store false (cacheKey t)).2 = true := by
    intro t ht
    have hpos : 0 < s1.log.countP (evPublished (fun task => decide (task = t))) := by
      rw [hcount1]
      exact List.countP_pos_iff.mpr ⟨t, ht, by simp⟩
    obtain ⟨r, hr, hp⟩ := exists_published _ _ hpos
    have hu : unitOf r = t := by simpa using hp
    have := hk1.published r hr
    rw [hu] at this
    rw [this]
  obtain ⟨hk2, hq2⟩ := exec_quiet s1.store allRepos keywords hkeys hwarm acts2 h2
  have hstore2 : ∀ key, s2.store key = match lastWrite key s2.log with
      | some n => some (formatInt n)
      | none => s1.store key := exec_store allRepos keywords s1.store acts2
  have hnowrite : ∀ key, ∀ log : List Event, (∀ e ∈ log, e.remoteFree = true) →
      lastWrite key log = none := by
    intro key log
    induction log with
    | nil => intro _; rfl
    | cons e log ih =>
      intro h
      have he := h e (List.mem_cons_self _ _)
      have ih' := ih (fun e' he' => h e' (List.mem_cons_of_mem _ he'))
      cases e <;> simp [Event.remoteFree] at he <;> simpa [lastWrite] using ih'
  have hsame : s2.store = s1.store := by
    funext key
    rw [hstore2 key, hnowrite key s2.log hq2]
  have hfail2 : ∀ p, s2.log.countP (evFailed p) = 0 := by
    intro p
    apply countP_failed_zero
    intro e he w task time heq
    have := hq2 e he
    rw [heq] at this
    simp [Event.remoteFree] at this
  refine ⟨hq2, hsame, ?_, ?_⟩
  · intro r1 hr1 r2 hr2 hu
    have e1 := hk1.published r1 hr1
    have e2 := hk2.published r2 hr2
    rw [hsame, ← hu, e1] at e2
    simpa using e2
  · intro hdone2 u
    have d : s2.log.countP (evPulled _) = s2.log.countP (evPublished _) + s2.log.countP (evFailed _) :=
      drained_counts (fun task => decide (task = u)) allRepos keywords s1.store acts2 hdone2
    have a : s2.log.countP (evPulled _) = _ :=
      pulled_all (fun task => decide (task = u)) allRepos keywords s1.store acts2 hdone2
    rw [hfail2] at d
    rw [hcount1]
    omega

theorem second_run_pure_hits_witness :
    (∀ t1 ∈ enqueueOrder [str "org/a"] [str "foo"], ∀ t2 ∈ enqueueOrder [str "org/a"] [str "foo"],
        cacheKey t1 = cacheKey t2 → t1 = t2) ∧
      (∀ a ∈ sampleResolve, a.faultFree = true) ∧
      (∀ a ∈ sampleReplay, a.faultFree = true) ∧
      (∀ w, w < numWorkers →
        (exec (init [str "org/a"] [str "foo"] (fun _ => none)) sampleResolve).workers w
          = .exited) ∧
      (exec (init [str "org/a"] [str "foo"]
          (exec (init [str "org/a"] [str "foo"] (fun _ => none)) sampleResolve).store)
        sampleReplay).store
        = (exec (init [str "org/a"] [str "foo"] (fun _ => none)) sampleResolve).store ∧
      publishedResults (exec (init [str "org/a"] [str "foo"]
          (exec (init [str "org/a"] [str "foo"] (fun _ => none)) sampleResolve).store)
        sampleReplay).log = [⟨str "org/a", str "foo", 7⟩] :=
  ⟨by decide, by decide, by decide, by decide,
    (second_run_pure_hits [str "org/a"] [str "foo"] (fun _ => none) (fun _ => some 7)
      sampleResolve sampleReplay (by decide) (by decide) (by decide)
      (by
        have hlog : (exec (init [str "org/a"] [str "foo"] (fun _ => none)) sampleResolve).log
            = [.workerExit 9, .workerExit 8, .workerExit 7, .workerExit 6, .workerExit 5,
                .workerExit 4, .workerExit 3, .workerExit 2, .workerExit 1, .workerExit 0,
                .published 0 ⟨str "org/a", str "foo", 7⟩ true,
                .cacheSet 0 ⟨str "org/a", str "foo"⟩ 7 true,
                .remoteCall 0 ⟨str "org/a", str "foo"⟩ (some 7) 6000000000,
                .token 0 ⟨str "org/a", str "foo"⟩ 6000000000,
                .cacheGet 0 ⟨str "org/a", str "foo"⟩ 0 false,
                .pulled 0 ⟨str "org/a", str "foo"⟩,
                .enqueued ⟨str "org/a", str "foo"⟩] := by decide
        rw [hlog]
        intro e he w task resp time heq
        subst heq
        simp at he
        obtain ⟨_, _, rfl, _⟩ := he
        simp)
      (by decide)).2.1,
    by decide⟩

/-! ## Rate limiter -/

theorem tickPeriod_eq : tickPeriod = 6000000000 := by decide

theorem paced_step (s s' : State) (a : Action) (hs' : Safe s') (hp : Paced s)
    (h : Step s a s') : Paced s' := by
  have hp' := hs'.noPanic
  obtain ⟨p1, p2, p3, p4, p5, p6, p7, p8, p9⟩ := hp
  cases h
  case producePanic => simp at hp'
  case exitPanic => simp at hp'
  case sendPanic => simp at hp'
  case closePanic => simp at hp'
  case produce => exact ⟨p1, p2, p3, p4, p5, p6, p7, p8, p9⟩
  case closeTasks => exact ⟨p1, p2, p3, p4, p5, p6, p7, p8, p9⟩
  case pull => exact ⟨p1, p2, p3, p4, p5, p6, p7, p8, p9⟩
  case exit => exact ⟨p1, p2, p3, p4, p5, p6, p7, p8, p9⟩
  case get => exact ⟨p1, p2, p3, p4, p5, p6, p7, p8, p9⟩
  case sendHit => exact ⟨p1, p2, p3, p4, p5, p6, p7, p8, p9⟩
  case sendNew => exact ⟨p1, p2, p3, p4, p5, p6, p7, p8, p9⟩
  case searchErr => exact ⟨p1, p2, p3, p4, p5, p6, p7, p8, p9⟩
  case searchOk => exact ⟨p1, p2, p3, p4, p5, p6, p7, p8, p9⟩
  case set => exact ⟨p1, p2, p3, p4, p5, p6, p7, p8, p9⟩
  case signal => exact ⟨p1, p2, p3, p4, p5, p6, p7, p8, p9⟩
  case wgWait => exact ⟨p1, p2, p3, p4, p5, p6, p7, p8, p9⟩
  case closeResults => exact ⟨p1, p2, p3, p4, p5, p6, p7, p8, p9⟩
  case collect => exact ⟨p1, p2, p3, p4, p5, p6, p7, p8, p9⟩
  case finish => exact ⟨p1, p2, p3, p4, p5, p6, p7, p8, p9⟩
  case advance d hd =>
    refine ⟨hd, ?_, ?_, p4, p5, p6, p7, p8, p9⟩
    · show s.nextTick ≤ s.now + d + tickPeriod
      omega
    · intro t ht
      have := p3 t ht
      show t ≤ s.now + d
      omega
  case tick ht =>
    refine ⟨?_, ?_, p3, ?_, ?_, p6, ?_, ?_, p9⟩
    · show s.now ≤ s.nextTick + tickPeriod
      omega
    · show s.nextTick + tickPeriod ≤ s.now + tickPeriod
      omega
    · intro hl; simp at hl
    · intro _
      show ((tokenTimes s.log).length + 2) * tickPeriod ≤ s.nextTick + tickPeriod
      rw [tickPeriod_eq] at *
      cases hl : s.limiter with
      | false => have := p4 hl; omega
      | true => have := p5 hl; omega
    · intro first _ hl; simp at hl
    · intro first hf _
      show first + (tokenTimes s.log).length * tickPeriod ≤ s.nextTick + tickPeriod
      rw [tickPeriod_eq] at *
      have hpos : 0 < (tokenTimes s.log).length := by
        cases hlen : tokenTimes s.log with
        | nil => rw [hlen] at hf; simp at hf
        | cons _ _ => simp
      cases hl : s.limiter with
      | false => have := p7 first hf hl; omega
      | true => have := p8 first hf hl; omega
  case token w task hpc hl =>
    have hlist : tokenTimes (Event.token w task s.now :: s.log) = s.now :: tokenTimes s.log := rfl
    have h5 := p5 hl
    refine ⟨p1, p2, ?_, ?_, ?_, ?_, ?_, ?_, ?_⟩
    · intro t ht
      show t ≤ s.now
      rw [hlist] at ht
      rcases List.mem_cons.mp ht with rfl | ht
      · exact Nat.le_refl _
      · exact p3 t ht
    · intro _
      show ((tokenTimes (Event.token w task s.now :: s.log)).length + 1) * tickPeriod ≤ s.nextTick
      rw [hlist, List.length_cons]
      exact h5
    · intro h; simp at h
    · intro last hlast
      show (tokenTimes (Event.token w task s.now :: s.log)).length * tickPeriod ≤ last
      rw [hlist] at hlast ⊢
      simp only [List.head?_cons, Option.some.injEq] at hlast
      subst hlast
      rw [List.length_cons]
      rw [tickPeriod_eq] at *
      omega
    · intro first hf _
      show first + ((tokenTimes (Event.token w task s.now :: s.log)).length - 1) * tickPeriod
        ≤ s.nextTick
      rw [hlist] at hf ⊢
      rw [List.length_cons]
      cases hlen : tokenTimes s.log with
      | nil =>
        rw [hlen] at hf
        simp only [List.getLast?_singleton, Option.some.injEq] at hf
        subst hf
        simp only [List.length_nil]
        omega
      | cons x l =>
        rw [hlen, List.getLast?_cons_cons] at hf
        have := p8 first (by rw [hlen]; exact hf) hl
        rw [hlen] at this
        simpa using this
    · intro first _ h; simp at h
    · intro first last hf hlast
      show first + ((tokenTimes (Event.token w task s.now :: s.log)).length - 2) * tickPeriod
        ≤ last
      rw [hlist] at hf hlast ⊢
      simp only [List.head?_cons, Option.some.injEq] at hlast
      subst hlast
      rw [List.length_cons]
      cases hlen : tokenTimes s.log with
      | nil =>
        rw [hlen] at hf
        simp only [List.getLast?_singleton, Option.some.injEq] at hf
        subst hf
        simp
      | cons x l =>
        rw [hlen, List.getLast?_cons_cons] at hf
        have := p8 first (by rw [hlen]; exact hf) hl
        rw [hlen] at this
        simp only [List.length_cons] at this ⊢
        rw [tickPeriod_eq] at *
        omega

theorem paced_init (allRepos keywords : List GoString) (c : Store) :
    Paced (init allRepos keywords c) := by
  refine ⟨?_, ?_, ?_, ?_, ?_, ?_, ?_, ?_, ?_⟩ <;> simp [init, tokenTimes]

theorem exec_paced (allRepos keywords : List GoString) (c : Store) (acts : List Action) :
    Paced (exec (init allRepos keywords c) acts) :=
  (exec_invariant Paced (fun _ => True)
    (fun s a s' _ _ hs' hp hst => paced_step s s' a hs' hp hst) acts _
    (fun _ _ => trivial) (safe_init allRepos keywords c) (paced_init allRepos keywords c)).2

theorem length_tokenTimes :
    ∀ log : List Event, (tokenTimes log).length = log.countP (evToken (fun _ => true))
  | [] => rfl
  | e :: log => by
      have ih := length_tokenTimes log
      cases e <;> simp [tokenTimes, evToken, List.filterMap_cons, List.countP_cons] at ih ⊢ <;>
        omega

theorem length_callTimes :
    ∀ log : List Event, (callTimes log).length = log.countP (evCall (fun _ => true))
  | [] => rfl
  | e :: log => by
      have ih := length_callTimes log
      cases e <;> simp [callTimes, evCall, List.filterMap_cons, List.countP_cons] at ih ⊢ <;>
        omega

theorem calls_step (s s' : State) (a : Action) (hs : Safe s) (hs' : Safe s') (hp : Paced s)
    (hb : Balanced (evToken (fun _ => true)) (evCall (fun _ => true))
      (wSearching (fun _ => true)) s)
    (hc : ∀ last, (callTimes s.log).head? = some last →
      (callTimes s.log).length * tickPeriod ≤ last)
    (h : Step s a s') :
    ∀ last, (callTimes s'.log).head? = some last →
      (callTimes s'.log).length * tickPeriod ≤ last := by
  have hp' := hs'.noPanic
  have hnow : ∀ w task, s.workers w = .searching task →
      ((callTimes s.log).length + 1) * tickPeriod ≤ s.now := by
    intro w task hpc
    have hw : w < numWorkers := acting_lt s hs w (by simp [hpc])
    have hge := workerSum_ge (wSearching (fun _ => true)) s.workers w hw
    rw [hpc] at hge
    simp only [wSearching, if_true] at hge
    unfold Balanced at hb
    rw [← length_tokenTimes, ← length_callTimes] at hb
    cases hlen : tokenTimes s.log with
    | nil => rw [hlen] at hb; simp at hb; omega
    | cons x l =>
      have h1 := hp.lastToken x (by rw [hlen]; rfl)
      have h2 := hp.tokensPast x (by rw [hlen]; simp)
      rw [hlen] at hb h1
      rw [tickPeriod_eq] at *
      simp only [List.length_cons] at hb h1
      omega
  cases h
  case producePanic => simp at hp'
  case exitPanic => simp at hp'
  case sendPanic => simp at hp'
  case closePanic => simp at hp'
  case searchErr w task hpc =>
    intro last hlast
    have hlist : callTimes (Event.remoteCall w task none s.now :: s.log)
        = s.now :: callTimes s.log := rfl
    show (callTimes (Event.remoteCall w task none s.now :: s.log)).length * tickPeriod ≤ last
    rw [hlist] at hlast ⊢
    simp only [List.head?_cons, Option.some.injEq] at hlast
    subst hlast
    rw [List.length_cons]
    exact hnow w task hpc
  case searchOk w task count hpc hr =>
    intro last hlast
    have hlist : callTimes (Event.remoteCall w task (some count) s.now :: s.log)
        = s.now :: callTimes s.log := rfl
    show (callTimes (Event.remoteCall w task (some count) s.now :: s.log)).length * tickPeriod
      ≤ last
    rw [hlist] at hlast ⊢
    simp only [List.head?_cons, Option.some.injEq] at hlast
    subst hlast
    rw [List.length_cons]
    exact hnow w task hpc
  all_goals exact hc

theorem token_loc (pc : WorkerPC) (e : Event) (pc' : WorkerPC) (h : nextPC pc e = some pc') :
    (if evToken (fun _ => true) e then 1 else 0) + wSearching (fun _ => true) pc
      = (if evCall (fun _ => true) e then 1 else 0) + wSearching (fun _ => true) pc' := by
  rcases e with _ | _ | ⟨_, _, _, (_ | _)⟩ | _ | ⟨_, _, (_ | _), _⟩ | _ | ⟨_, _, (_ | _)⟩ | _ | _ | _ <;>
    cases pc <;> simp [nextPC] at h <;>
    (try (obtain ⟨⟨h0, h1⟩, h2⟩ := h; subst h0; subst h1; subst h2)) <;>
    (try (obtain ⟨h1, h2⟩ := h; subst h1; subst h2)) <;> (try subst h) <;>
    simp [evToken, evCall, wSearching]

theorem exec_calls (allRepos keywords : List GoString) (c : Store) (acts : List Action) :
    ∀ last, (callTimes (exec (init allRepos keywords c) acts).log).head? = some last →
      (callTimes (exec (init allRepos keywords c) acts).log).length * tickPeriod ≤ last :=
  ((exec_invariant
    (fun s => Paced s ∧
      Balanced (evToken (fun _ => true)) (evCall (fun _ => true)) (wSearching (fun _ => true)) s ∧
      ∀ last, (callTimes s.log).head? = some last → (callTimes s.log).length * tickPeriod ≤ last)
    (fun _ => True)
    (fun s a s' _ hs hs' hP hst =>
      ⟨paced_step s s' a hs' hP.1 hst,
        balanced_step _ _ _
          (by intro e he; cases e <;> simp [Event.worker?] at he <;> rfl)
          (by intro e he; cases e <;> simp [Event.worker?] at he <;> rfl)
          token_loc s s' a hs hs' hP.2.1 hst,
        calls_step s s' a hs hs' hP.1 hP.2.1 hP.2.2 hst⟩)
    acts _ (fun _ _ => trivial) (safe_init allRepos keywords c)
    ⟨paced_init allRepos keywords c,
      by unfold Balanced; simp [init, workerSum_init (wSearching (fun _ => true)) rfl],
      by intro last h; simp [init, callTimes] at h⟩).2).2.2

/-- C6 (counterexample): a tick produced at 6 s stays undelivered until a worker takes it at
11.999999999 s; the next tick arrives at 12 s and is taken at once. The two remote calls (and
their two token receipts) are 1 ns apart, less than the (2 - 1)/10 minute = 6 s the claim
requires. -/
theorem two_calls_one_nanosecond_apart :
    callTimes (exec (init [str "org/a"] [str "foo", str "bar"] (fun _ => none))
        [.produce, .produce, .pull 0, .pull 1, .get 0 false, .get 1 false,
          .advance 6000000000, .tick, .advance 5999999999, .token 0, .search 0 (some 1),
          .advance 1, .tick, .token 1, .search 1 (some 2)]).log
        = [12000000000, 11999999999] ∧
      tokenTimes (exec (init [str "org/a"] [str "foo", str "bar"] (fun _ => none))
        [.produce, .produce, .pull 0, .pull 1, .get 0 false, .get 1 false,
          .advance 6000000000, .tick, .advance 5999999999, .token 0, .search 0 (some 1),
          .advance 1, .tick, .token 1, .search 1 (some 2)]).log
        = [12000000000, 11999999999] ∧
      12000000000 - 11999999999 < (2 - 1) * tickPeriod := by
  decide

/-- C6 (amended): with the limiter a tick source of period `tickPeriod` = 1/rateLimit minute
(6 s, in nanoseconds) holding at most one undelivered tick, in every run: the first and the
last of the R token receipts so far are at least (R - 2) periods apart; the R-th token receipt
happens no earlier than R periods after the limiter was created; every remote call follows its
own token receipt, so there are never more calls than receipts, and the R-th remote call
happens no earlier than R periods after the limiter was created. -/
theorem limiter_spacing (allRepos keywords : List GoString) (c : Store) (acts : List Action) :
    let s := exec (init allRepos keywords c) acts
    tickPeriod * rateLimit = 60000000000 ∧
      (∀ first last, (tokenTimes s.log).getLast? = some first →
        (tokenTimes s.log).head? = some last →
        first + ((tokenTimes s.log).length - 2) * tickPeriod ≤ last) ∧
      (∀ last, (tokenTimes s.log).head? = some last →
        (tokenTimes s.log).length * tickPeriod ≤ last) ∧
      (callTimes s.log).length ≤ (tokenTimes s.log).length ∧
      (∀ last, (callTimes s.log).head? = some last →
        (callTimes s.log).length * tickPeriod ≤ last) := by
  intro s
  have hp : Paced s := exec_paced allRepos keywords c acts
  have hb : Balanced _ _ _ s := token_balance (fun _ => true) allRepos keywords c acts
  have hc : ∀ last, (callTimes s.log).head? = some last →
      (callTimes s.log).length * tickPeriod ≤ last := exec_calls allRepos keywords c acts
  refine ⟨by decide, hp.span, hp.lastToken, ?_, hc⟩
  unfold Balanced at hb
  rw [length_tokenTimes, length_callTimes]
  omega

theorem limiter_spacing_witness :
    (tokenTimes (exec (init [str "org/a"] [str "foo", str "bar"] (fun _ => none))
        [.produce, .produce, .pull 0, .pull 1, .get 0 false, .get 1 false,
          .advance 6000000000, .tick, .advance 5999999999, .token 0, .search 0 (some 1),
          .advance 1, .tick, .token 1, .search 1 (some 2)]).log).getLast? = some 11999999999 ∧
      (tokenTimes (exec (init [str "org/a"] [str "foo", str "bar"] (fun _ => none))
        [.produce, .produce, .pull 0, .pull 1, .get 0 false, .get 1 false,
          .advance 6000000000, .tick, .advance 5999999999, .token 0, .search 0 (some 1),
          .advance 1, .tick, .token 1, .search 1 (some 2)]).log).head? = some 12000000000 ∧
      11999999999 + ((tokenTimes (exec (init [str "org/a"] [str "foo", str "bar"] (fun _ => none))
        [.produce, .produce, .pull 0, .pull 1, .get 0 false, .get 1 false,
          .advance 6000000000, .tick, .advance 5999999999, .token 0, .search 0 (some 1),
          .advance 1, .tick, .token 1, .search 1 (some 2)]).log).length - 2) * tickPeriod
        ≤ 12000000000 :=
  ⟨by decide, by decide,
    (limiter_spacing [str "org/a"] [str "foo", str "bar"] (fun _ => none)
      [.produce, .produce, .pull 0, .pull 1, .get 0 false, .get 1 false,
        .advance 6000000000, .tick, .advance 5999999999, .token 0, .search 0 (some 1),
        .advance 1, .tick, .token 1, .search 1 (some 2)]).2.1 11999999999 12000000000
      (by decide) (by decide)⟩

/-! ## Aggregate lists: JSON encoding -/

theorem decodeRune_encodeRune (r : Nat) (rest : List Nat) (hs : IsScalar r) (h : 128 ≤ r) :
    decodeRune (encodeRune r ++ rest) = (r, (encodeRune r).length) := by
  unfold IsScalar at hs
  unfold encodeRune
  have h0 : ¬ r < 128 := by omega
  simp only [h0, if_false]
  by_cases h1 : r < 2048
  · simp only [h1, if_true, List.cons_append, List.nil_append, decodeRune, List.length_cons,
      List.length_nil]
    have a1 : ¬ (192 + r / 64 < 128) := by omega
    have a2 : ¬ (192 + r / 64 < 194) := by omega
    have a3 : 192 + r / 64 < 224 := by omega
    have a4 : 128 ≤ 128 + r % 64 ∧ 128 + r % 64 ≤ 191 := by omega
    simp only [a1, a2, a3, a4, if_true, if_false, and_self]
    congr 1
    omega
  · have h2 : ¬ (1114111 < r ∨ (55296 ≤ r ∧ r ≤ 57343)) := by omega
    simp only [h1, h2, if_false]
    by_cases h3 : r < 65536
    · simp only [h3, if_true, List.cons_append, List.nil_append, decodeRune, List.length_cons,
        List.length_nil]
      have a1 : ¬ (224 + r / 4096 < 128) := by omega
      have a2 : ¬ (224 + r / 4096 < 194) := by omega
      have a3 : ¬ (224 + r / 4096 < 224) := by omega
      have a4 : 224 + r / 4096 < 240 := by omega
      have a5 : (if 224 + r / 4096 = 224 then 160 else 128) ≤ 128 + r / 64 % 64 ∧
          128 + r / 64 % 64 ≤ (if 224 + r / 4096 = 237 then 159 else 191) ∧
          128 ≤ 128 + r % 64 ∧ 128 + r % 64 ≤ 191 := by
        refine ⟨?_, ?_, by omega, by omega⟩
        · split <;> omega
        · split <;> omega
      simp only [a1, a2, a3, a4, a5, if_true, if_false, and_self]
      congr 1
      omega
    · simp only [h3, if_false, List.cons_append, List.nil_append, decodeRune, List.length_cons,
        List.length_nil]
      have a1 : ¬ (240 + r / 262144 < 128) := by omega
      have a2 : ¬ (240 + r / 262144 < 194) := by omega
      have a3 : ¬ (240 + r / 262144 < 224) := by omega
      have a4 : ¬ (240 + r / 262144 < 240) := by omega
      have a6 : 240 + r / 262144 < 245 := by omega
      have a5 : (if 240 + r / 262144 = 240 then 144 else 128) ≤ 128 + r / 4096 % 64 ∧
          128 + r / 4096 % 64 ≤ (if 240 + r / 262144 = 244 then 143 else 191) ∧
          128 ≤ 128 + r / 64 % 64 ∧ 128 + r / 64 % 64 ≤ 191 ∧
          128 ≤ 128 + r % 64 ∧ 128 + r % 64 ≤ 191 := by
        refine ⟨?_, ?_, by omega, by omega, by omega, by omega⟩
        · split <;> omega
        · split <;> omega
      simp only [a1, a2, a3, a4, a5, a6, if_true, if_false, and_self]
      congr 1
      omega

theorem encodeRune_head (r : Nat) (h : 128 ≤ r) :
    ∃ b bs, encodeRune r = b :: bs ∧ 194 ≤ b ∧ bs ≠ [] := by
  unfold encodeRune
  have h0 : ¬ r < 128 := by omega
  simp only [h0, if_false]
  split
  · exact ⟨_, _, rfl, by omega, by simp⟩
  · split
    · exact ⟨_, _, rfl, by omega, by simp⟩
    · split
      · exact ⟨_, _, rfl, by omega, by simp⟩
      · exact ⟨_, _, rfl, by omega, by simp⟩

theorem quoteBody_skip (bs rest : List Nat) :
    quoteBody (bs ++ rest) bs.length = quoteBody rest 0 := by
  induction bs with
  | nil => rfl
  | cons b bs ih => simpa [quoteBody] using ih

theorem quoteBody_rune (r : Nat) (rest : List Nat) (hs : IsScalar r) :
    quoteBody (encodeRune r ++ rest) 0 = quoteRune r ++ quoteBody rest 0 := by
  by_cases h : r < 128
  · simp [encodeRune, quoteRune, h, quoteBody]
  · have hd := decodeRune_encodeRune r rest hs (by omega)
    obtain ⟨b, bs, hb, hb1, hb2⟩ := encodeRune_head r (by omega)
    rw [hb] at hd ⊢
    have hlen : 2 ≤ (b :: bs).length := by
      cases bs with
      | nil => exact absurd rfl hb2
      | cons _ _ => simp
    have hbn : ¬ b < 128 := by omega
    simp only [List.cons_append] at hd ⊢
    simp only [quoteBody, hbn, if_false, hd]
    have hne : ¬ (r = 65533 ∧ (b :: bs).length = 1) := by omega
    simp only [hne, if_false, quoteRune, h, hb]
    have hsk : quoteBody (bs ++ rest) ((b :: bs).length - 1) = quoteBody rest 0 := by
      simpa using quoteBody_skip bs rest
    rw [hsk]
    split
    · rfl
    · have : List.take (b :: bs).length (b :: (bs ++ rest)) = b :: bs := by
        rw [← List.cons_append, List.take_left']
        rfl
      rw [this]

theorem quoteBody_runes (runes : List Nat) (hs : ∀ r ∈ runes, IsScalar r) :
    quoteBody (runes.flatMap encodeRune) 0 = runes.flatMap quoteRune := by
  induction runes with
  | nil => rfl
  | cons r runes ih =>
    rw [List.flatMap_cons, List.flatMap_cons,
      quoteBody_rune r _ (hs r (List.mem_cons_self _ _)),
      ih (fun x hx => hs x (List.mem_cons_of_mem _ hx))]

theorem decodeLoop_skip (bs tail : List Nat) (st : DState) :
    decodeLoop (bs ++ tail) bs.length st = decodeLoop tail 0 st := by
  induction bs with
  | nil => rfl
  | cons b bs ih => simpa [decodeLoop] using ih

theorem hexVal_hexDigit (n : Nat) (h : n < 16) : hexVal (hexDigit n) = some n := by
  unfold hexDigit hexVal
  by_cases h1 : n < 10
  · have a : 48 ≤ 48 + n ∧ 48 + n ≤ 57 := by omega
    simp [h1, a]
  · have a : ¬ (48 ≤ 87 + n ∧ 87 + n ≤ 57) := by omega
    have b : 97 ≤ 87 + n ∧ 87 + n ≤ 102 := by omega
    simp [h1, a, b]

theorem decodeLoop_escape (e out : Nat) (tail : List Nat) (elems : List GoString)
    (acc : GoString)
    (h : (e = 34 ∨ e = 92 ∨ e = 47) ∧ out = e ∨ e = 98 ∧ out = 8 ∨ e = 102 ∧ out = 12 ∨
      e = 110 ∧ out = 10 ∨ e = 114 ∧ out = 13 ∨ e = 116 ∧ out = 9) :
    decodeLoop (92 :: e :: tail) 0 (.inString elems acc)
      = decodeLoop tail 0 (.inString elems (acc ++ [out])) := by
  rcases h with ⟨h, rfl⟩ | ⟨rfl, rfl⟩ | ⟨rfl, rfl⟩ | ⟨rfl, rfl⟩ | ⟨rfl, rfl⟩ | ⟨rfl, rfl⟩
  · simp [decodeLoop, h]
  · simp [decodeLoop]
  · simp [decodeLoop]
  · simp [decodeLoop]
  · simp [decodeLoop]
  · simp [decodeLoop]

theorem decodeLoop_u4 (a b c d rr : Nat) (tail : List Nat) (elems : List GoString)
    (acc : GoString) (hu : getu4 (a :: b :: c :: d :: tail) = some rr)
    (hr : ¬ (55296 ≤ rr ∧ rr < 57344)) :
    decodeLoop (92 :: 117 :: a :: b :: c :: d :: tail) 0 (.inString elems acc)
      = decodeLoop tail 0 (.inString elems (acc ++ encodeRune rr)) := by
  simp [decodeLoop, hu, hr]

theorem decodeLoop_plain (c : Nat) (tail : List Nat) (elems : List GoString) (acc : GoString)
    (h1 : c ≠ 34) (h2 : c ≠ 92) (h3 : 32 ≤ c) (h4 : c < 128) :
    decodeLoop (c :: tail) 0 (.inString elems acc)
      = decodeLoop tail 0 (.inString elems (acc ++ [c])) := by
  have : ¬ c < 32 := by omega
  simp [decodeLoop, h1, h2, this, h4]

theorem decodeLoop_rune (r : Nat) (tail : List Nat) (elems : List GoString) (acc : GoString)
    (hs : IsScalar r) :
    decodeLoop (quoteRune r ++ tail) 0 (.inString elems acc)
      = decodeLoop tail 0 (.inString elems (acc ++ encodeRune r)) := by
  by_cases h : r < 128
  · have henc : encodeRune r = [r] := by simp [encodeRune, h]
    rw [henc]
    simp only [quoteRune, h, if_true]
    unfold escapeByte
    by_cases c1 : r = 92 ∨ r = 34
    · simp only [c1, if_true, List.cons_append, List.nil_append]
      exact decodeLoop_escape r r tail elems acc (.inl ⟨by omega, rfl⟩)
    · simp only [c1, if_false]
      by_cases c2 : r = 8
      · subst c2; exact decodeLoop_escape 98 8 tail elems acc (by simp)
      · simp only [c2, if_false]
        by_cases c3 : r = 12
        · subst c3; exact decodeLoop_escape 102 12 tail elems acc (by simp)
        · simp only [c3, if_false]
          by_cases c4 : r = 10
          · subst c4; exact decodeLoop_escape 110 10 tail elems acc (by simp)
          · simp only [c4, if_false]
            by_cases c5 : r = 13
            · subst c5; exact decodeLoop_escape 114 13 tail elems acc (by simp)
            · simp only [c5, if_false]
              by_cases c6 : r = 9
              · subst c6; exact decodeLoop_escape 116 9 tail elems acc (by simp)
              · simp only [c6, if_false]
                by_cases c7 : r < 32 ∨ r = 60 ∨ r = 62 ∨ r = 38
                · simp only [c7, if_true, List.cons_append, List.nil_append]
                  have hu : getu4 (48 :: 48 :: hexDigit (r / 16) :: hexDigit (r % 16) :: tail)
                      = some r := by
                    have e1 := hexVal_hexDigit (r / 16) (by omega)
                    have e2 := hexVal_hexDigit (r % 16) (by omega)
                    have e0 : hexVal 48 = some 0 := by decide
                    simp only [getu4, e0, e1, e2, Option.some.injEq]
                    omega
                  have := decodeLoop_u4 48 48 (hexDigit (r / 16)) (hexDigit (r % 16)) r tail
                    elems acc hu (by omega)
                  rw [henc] at this
                  exact this
                · simp only [c7, if_false, List.cons_append, List.nil_append]
                  exact decodeLoop_plain r tail elems acc (by omega) (by omega) (by omega) h
  · simp only [quoteRune, h, if_false]
    by_cases c1 : r = 8232 ∨ r = 8233
    · simp only [c1, if_true, List.cons_append, List.nil_append]
      rcases c1 with rfl | rfl
      · exact decodeLoop_u4 50 48 50 56 8232 tail elems acc (by simp [getu4, hexVal]) (by omega)
      · exact decodeLoop_u4 50 48 50 57 8233 tail elems acc (by simp [getu4, hexVal]) (by omega)
    · simp only [c1, if_false]
      have hd := decodeRune_encodeRune r tail hs (by omega)
      obtain ⟨b, bs, hb, hb1, _⟩ := encodeRune_head r (by omega)
      rw [hb] at hd ⊢
      simp only [List.cons_append] at hd ⊢
      have n1 : b ≠ 34 := by omega
      have n2 : b ≠ 92 := by omega
      have n3 : ¬ b < 32 := by omega
      have n4 : ¬ b < 128 := by omega
      simp only [decodeLoop, n1, n2, n3, n4, if_false, hd]
      rw [hb]
      simpa using decodeLoop_skip bs tail (.inString elems (acc ++ b :: bs))

theorem decodeLoop_runes (runes : List Nat) (hs : ∀ r ∈ runes, IsScalar r) (tail : List Nat)
    (elems : List GoString) :
    ∀ acc : GoString,
      decodeLoop (runes.flatMap quoteRune ++ tail) 0 (.inString elems acc)
        = decodeLoop tail 0 (.inString elems (acc ++ runes.flatMap encodeRune)) := by
  induction runes with
  | nil => intro acc; simp
  | cons r runes ih =>
    intro acc
    rw [List.flatMap_cons, List.flatMap_cons, List.append_assoc,
      decodeLoop_rune r _ elems acc (hs r (List.mem_cons_self _ _)),
      ih (fun x hx => hs x (List.mem_cons_of_mem _ hx)), List.append_assoc]

theorem decodeLoop_quote (x : GoString) (hx : ValidUTF8 x) (tail : List Nat)
    (elems : List GoString) :
    decodeLoop (quoteBody x 0 ++ 34 :: tail) 0 (.inString elems [])
      = decodeLoop tail 0 (.afterElem (elems ++ [x])) := by
  obtain ⟨runes, hs, rfl⟩ := hx
  rw [quoteBody_runes runes hs, decodeLoop_runes runes hs]
  simp [decodeLoop]

theorem decodeLoop_elems :
    ∀ (xs : List GoString), (∀ x ∈ xs, ValidUTF8 x) → ∀ (elems : List GoString),
      decodeLoop (encodeElems false xs ++ [93]) 0 (.afterElem elems) = some (some (elems ++ xs))
  | [], _, elems => by simp [encodeElems, decodeLoop, isSpace]
  | x :: xs, hx, elems => by
      have ih := decodeLoop_elems xs (fun y hy => hx y (List.mem_cons_of_mem _ hy)) (elems ++ [x])
      have hq := decodeLoop_quote x (hx x (List.mem_cons_self _ _))
        (encodeElems false xs ++ [93]) elems
      simp only [encodeElems, Bool.false_eq_true, if_false, quote, List.cons_append,
        List.nil_append, List.append_assoc]
      simp only [List.append_assoc, List.singleton_append] at hq ih
      simp only [decodeLoop, isSpace]
      simp only [show ((44 : Nat) = 32) = False from by simp, show ((44 : Nat) = 9) = False from by simp,
        show ((44 : Nat) = 13) = False from by simp, show ((44 : Nat) = 10) = False from by simp,
        show ((34 : Nat) = 32) = False from by simp, show ((34 : Nat) = 9) = False from by simp,
        show ((34 : Nat) = 13) = False from by simp, show ((34 : Nat) = 10) = False from by simp,
        decide_False, Bool.or_false, Bool.false_eq_true, if_false, if_true]
      rw [hq, ih]

theorem Unmarshal_Marshal (xs : Option (List GoString))
    (h : ∀ l, xs = some l → ∀ x ∈ l, ValidUTF8 x) : Unmarshal (Marshal xs) = some xs := by
  cases xs with
  | none => decide
  | some l =>
    have hv := h l rfl
    cases l with
    | nil => decide
    | cons x rest =>
      have ih := decodeLoop_elems rest (fun y hy => hv y (List.mem_cons_of_mem _ hy)) [x]
      have hq := decodeLoop_quote x (hv x (List.mem_cons_self _ _))
        (encodeElems false rest ++ [93]) []
      simp only [List.nil_append, List.singleton_append] at hq ih
      simp only [Unmarshal, Marshal, encodeElems, if_true, quote, List.nil_append,
        List.cons_append, List.append_assoc]
      simp only [decodeLoop, isSpace]
      simp only [show ((91 : Nat) = 32) = False from by simp, show ((91 : Nat) = 9) = False from by simp,
        show ((91 : Nat) = 13) = False from by simp, show ((91 : Nat) = 10) = False from by simp,
        show ((34 : Nat) = 32) = False from by simp, show ((34 : Nat) = 9) = False from by simp,
        show ((34 : Nat) = 13) = False from by simp, show ((34 : Nat) = 10) = False from by simp,
        show ((34 : Nat) = 93) = False from by simp,
        decide_False, Bool.or_false, Bool.false_eq_true, if_false, if_true]
      rw [hq, ih]

theorem validUTF8_str (s : String) : ValidUTF8 (str s) := by
  refine ⟨s.data.map Char.toNat, ?_, ?_⟩
  · intro r hr
    obtain ⟨ch, _, rfl⟩ := List.mem_map.mp hr
    have hv := ch.valid
    unfold IsScalar
    rcases hv with h | ⟨h1, h2⟩
    · exact .inl h
    · exact .inr ⟨h1, h2⟩
  · simp [str, List.flatMap_map]

/-- C10 (counterexample): the one-element list holding the string of the single byte 0xFF
(not valid UTF-8) is written as the JSON text `["\ufffd"]` and read back as the three-byte string
EF BF BD, not as the string that was stored. -/
theorem invalid_utf8_not_round_trip :
    Cache.GetRepoNames (Cache.SetRepoNames (fun _ => none) false (some [[255]])) false
        = (some [[239, 191, 189]], true) ∧
      Cache.GetKeywords (Cache.SetKeywords (fun _ => none) false (some [[255]])) false
        = (some [[239, 191, 189]], true) ∧
      (some [[239, 191, 189]], true) ≠ ((some [[255]], true) : Option (List GoString) × Bool) := by
  decide

/-- C10 (amended): for every list of strings that are valid UTF-8 (and for the nil list),
when the store accepts the write and answers the read, `SetRepoNames` followed by
`GetRepoNames` returns the same strings in the same order, found; likewise `SetKeywords`
followed by `GetKeywords`; and writing the keywords does not disturb the repository names. -/
theorem aggregate_lists_round_trip (c : Store) (xs ys : Option (List GoString))
    (hx : ∀ x ∈ xs.getD [], ValidUTF8 x) (hy : ∀ y ∈ ys.getD [], ValidUTF8 y) :
    Cache.GetRepoNames (Cache.SetRepoNames c false xs) false = (xs, true) ∧
      Cache.GetKeywords (Cache.SetKeywords c false ys) false = (ys, true) ∧
      Cache.GetRepoNames (Cache.SetKeywords (Cache.SetRepoNames c false xs) false ys) false
        = (xs, true) := by
  have h1 : Unmarshal (Marshal xs) = some xs :=
    Unmarshal_Marshal xs (by intro l hl; subst hl; exact hx)
  have h2 : Unmarshal (Marshal ys) = some ys :=
    Unmarshal_Marshal ys (by intro l hl; subst hl; exact hy)
  have hne : str "repo_names" ≠ str "keywords" := by decide
  refine ⟨?_, ?_, ?_⟩
  · simp [Cache.GetRepoNames, Cache.SetRepoNames, clientGet, clientSet, h1]
  · simp [Cache.GetKeywords, Cache.SetKeywords, clientGet, clientSet, h2]
  · simp [Cache.GetRepoNames, Cache.SetRepoNames, Cache.SetKeywords, clientGet, clientSet, h1,
      hne]

theorem aggregate_lists_round_trip_witness :
    Cache.GetRepoNames
        (Cache.SetRepoNames (fun _ => none) false (some [str "org/a", str "org/b"])) false
        = (some [str "org/a", str "org/b"], true) ∧
      Cache.GetKeywords
        (Cache.SetKeywords (fun _ => none) false (some [str "foo", str "bär"])) false
        = (some [str "foo", str "bär"], true) :=
  have h := aggregate_lists_round_trip (fun _ => none) (some [str "org/a", str "org/b"])
    (some [str "foo", str "bär"])
    (by
      intro x hx
      simp only [Option.getD_some, List.mem_cons, List.mem_singleton, List.not_mem_nil,
        or_false] at hx
      rcases hx with rfl | rfl <;> exact validUTF8_str _)
    (by
      intro x hx
      simp only [Option.getD_some, List.mem_cons, List.mem_singleton, List.not_mem_nil,
        or_false] at hx
      rcases hx with rfl | rfl <;> exact validUTF8_str _)
  ⟨h.1, h.2.1⟩


/-! ## Worked runs -/

theorem worker_cache_hit_witness :
    (exec (init [str "org/a", str "org/b"] [str "foo", str "bar"] sampleCache)
        [.produce, .pull 0]).workers 0 = .checking ⟨str "org/a", str "foo"⟩ ∧
      Cache.Get (exec (init [str "org/a", str "org/b"] [str "foo", str "bar"] sampleCache)
        [.produce, .pull 0]).store false (cacheKey ⟨str "org/a", str "foo"⟩) = (99, true) ∧
      step? (exec (init [str "org/a", str "org/b"] [str "foo", str "bar"] sampleCache)
          [.produce, .pull 0]) (.get 0 false)
        = some { exec (init [str "org/a", str "org/b"] [str "foo", str "bar"] sampleCache)
            [.produce, .pull 0] with
          workers := setPC (exec (init [str "org/a", str "org/b"] [str "foo", str "bar"]
            sampleCache) [.produce, .pull 0]).workers 0 (.sendHit ⟨str "org/a", str "foo"⟩ 99)
          log := .cacheGet 0 ⟨str "org/a", str "foo"⟩ 99 true ::
            (exec (init [str "org/a", str "org/b"] [str "foo", str "bar"] sampleCache)
              [.produce, .pull 0]).log } ∧
      (exec (init [str "org/a", str "org/b"] [str "foo", str "bar"] sampleCache)
        [.produce, .pull 0, .get 0 false, .send 0]).results.buf
        = [⟨str "org/a", str "foo", 99⟩] :=
  ⟨by decide, by decide,
    (worker_cache_hit [str "org/a", str "org/b"] [str "foo", str "bar"] sampleCache
      [.produce, .pull 0] 0 ⟨str "org/a", str "foo"⟩ 99).1 false (by decide) (by decide),
    by decide⟩

theorem cache_write_before_publish_witness :
    (exec (init [str "org/a"] [str "foo"] (fun _ => none)) sampleResolve).log
        = [.workerExit 9, .workerExit 8, .workerExit 7, .workerExit 6, .workerExit 5,
            .workerExit 4, .workerExit 3, .workerExit 2, .workerExit 1, .workerExit 0,
            .published 0 ⟨str "org/a", str "foo", 7⟩ true]
          ++ .cacheSet 0 ⟨str "org/a", str "foo"⟩ 7 true ::
            [.remoteCall 0 ⟨str "org/a", str "foo"⟩ (some 7) 6000000000,
              .token 0 ⟨str "org/a", str "foo"⟩ 6000000000,
              .cacheGet 0 ⟨str "org/a", str "foo"⟩ 0 false,
              .pulled 0 ⟨str "org/a", str "foo"⟩,
              .enqueued ⟨str "org/a", str "foo"⟩] ∧
      Cache.Get (exec (init [str "org/a"] [str "foo"] (fun _ => none)) sampleResolve).store
        false (cacheKey ⟨str "org/a", str "foo"⟩) = (7, true) :=
  ⟨by decide,
    (cache_write_before_publish [str "org/a"] [str "foo"] (fun _ => none) sampleResolve 0
      ⟨str "org/a", str "foo"⟩ 7).2.2.2.2
      [.workerExit 9, .workerExit 8, .workerExit 7, .workerExit 6, .workerExit 5,
        .workerExit 4, .workerExit 3, .workerExit 2, .workerExit 1, .workerExit 0,
        .published 0 ⟨str "org/a", str "foo", 7⟩ true]
      [.remoteCall 0 ⟨str "org/a", str "foo"⟩ (some 7) 6000000000,
        .token 0 ⟨str "org/a", str "foo"⟩ 6000000000,
        .cacheGet 0 ⟨str "org/a", str "foo"⟩ 0 false,
        .pulled 0 ⟨str "org/a", str "foo"⟩,
        .enqueued ⟨str "org/a", str "foo"⟩] (by decide)
      (by
        intro e he w' t' n' heq
        subst heq
        simp at he)⟩

theorem producer_enqueues_cross_product_witness :
    enqueueOrder [str "org/a", str "org/b"] [str "foo", str "bar"]
        = [⟨str "org/a", str "foo"⟩, ⟨str "org/a", str "bar"⟩, ⟨str "org/b", str "foo"⟩,
            ⟨str "org/b", str "bar"⟩] ∧
      (exec (init [str "org/a", str "org/b"] [str "foo", str "bar"] (fun _ => none))
        [.produce, .produce, .produce]).pending = [⟨str "org/b", str "bar"⟩] ∧
      (exec (init [str "org/a", str "org/b"] [str "foo", str "bar"] (fun _ => none))
        [.produce, .produce, .produce]).tasks.buf.length
        < (exec (init [str "org/a", str "org/b"] [str "foo", str "bar"] (fun _ => none))
          [.produce, .produce, .produce]).tasks.cap :=
  ⟨by decide, by decide,
    ((producer_enqueues_cross_product [str "org/a", str "org/b"] [str "foo", str "bar"]
      (fun _ => none) [.produce, .produce, .produce]).2.2.2.2.2.1
      ⟨str "org/b", str "bar"⟩ [] (by decide)).1⟩

theorem results_closed_only_after_drain_witness :
    (exec (init [str "org/a"] [str "foo"] (fun _ => none)) sampleShutdown).results.closed
        = true ∧
      (exec (init [str "org/a"] [str "foo"] (fun _ => none)) sampleShutdown).coordinator
        = .done ∧
      (exec (init [str "org/a"] [str "foo"] (fun _ => none)) sampleShutdown).wg = 0 :=
  ⟨by decide,
    ((results_closed_only_after_drain [str "org/a"] [str "foo"] (fun _ => none)
      sampleShutdown .finish (fun _ => true)).2.2.2.1 (by decide)).1,
    ((results_closed_only_after_drain [str "org/a"] [str "foo"] (fun _ => none)
      sampleShutdown .finish (fun _ => true)).2.2.2.1 (by decide)).2.2.1⟩

end Search
